import Mathlib

/-!
Verification of src/note_sync.py (v3.1.0), a one-shot batch pipeline that
syncs a tree of Markdown notes into a docs/ output tree for a static-site
renderer.

The embedding models Python strings as lists of characters (ASCII case
semantics), the filesystem as an explicit association of paths (lists of
segments) to contents plus a set of directories, and the pipeline as a
pure state-passing function that also emits an event log of its actions.
-/

namespace NoteSync

/-- Python strings are modelled as lists of characters. -/
abbrev Str := List Char

/-- Relative filesystem paths, as lists of segments. -/
abbrev FPath := List String

/-! ## Python string primitives (ASCII semantics) -/

/-- Python whitespace test, restricted to the ASCII whitespace characters. -/
def pyIsSpace (c : Char) : Bool := c.isWhitespace

/-- Python str.lstrip(). -/
def pyLStrip (s : Str) : Str := s.dropWhile pyIsSpace

/-- Python str.rstrip(). -/
def pyRStrip (s : Str) : Str := (s.reverse.dropWhile pyIsSpace).reverse

/-- Python str.strip(). -/
def pyStrip (s : Str) : Str := pyRStrip (pyLStrip s)

/-- Python str.lower() (ASCII). -/
def pyLower (s : Str) : Str := s.map Char.toLower

/-- Python str.upper() (ASCII). -/
def pyUpper (s : Str) : Str := s.map Char.toUpper

/-- Python str.replace(old, new) for single-character old/new (the source
only replaces single characters). -/
def pyReplaceChar (old new : Char) (s : Str) : Str :=
  s.map (fun c => if c = old then new else c)

/-- One step of Python str.title(): `prev` records whether the previous
character was alphabetic. -/
def pyTitleStep (prev : Bool) (c : Char) : Bool × Char :=
  if c.isAlpha then (true, if prev then c.toLower else c.toUpper)
  else (false, c)

def pyTitleAux (prev : Bool) : Str → Str
  | [] => []
  | c :: cs =>
      let pc := pyTitleStep prev c
      pc.2 :: pyTitleAux pc.1 cs

/-- Python str.title(): words are maximal runs of letters; the first letter
of each word is uppercased, the rest lowercased (ASCII). -/
def pyTitle (s : Str) : Str := pyTitleAux false s

/-- Python str.capitalize(): first character uppercased, rest lowercased. -/
def pyCapitalize (s : Str) : Str :=
  match s with
  | [] => []
  | c :: cs => c.toUpper :: pyLower cs

/-- Python str.split() with no separator: split on whitespace runs,
discarding empty pieces. -/
def pySplitWsAux (cur : Str) (acc : List Str) : Str → List Str
  | [] => if cur.isEmpty then acc.reverse else (cur.reverse :: acc).reverse
  | c :: cs =>
      if pyIsSpace c then
        if cur.isEmpty then pySplitWsAux [] acc cs
        else pySplitWsAux [] (cur.reverse :: acc) cs
      else pySplitWsAux (c :: cur) acc cs

def pySplitWs (s : Str) : List Str := pySplitWsAux [] [] s

/-- Python str.split(c) for a single-character separator: keeps empty
pieces. -/
def pySplitChar (sep : Char) (s : Str) : List Str :=
  match s with
  | [] => [[]]
  | c :: cs =>
      let rest := pySplitChar sep cs
      if c = sep then [] :: rest
      else
        match rest with
        | [] => [[c]]
        | r :: rs => (c :: r) :: rs

/-- Python sep.join(pieces) for a single-character separator. -/
def pyJoinChar (sep : Char) : List Str → Str
  | [] => []
  | [x] => x
  | x :: xs => x ++ sep :: pyJoinChar sep xs

/-- Locate the first occurrence of `pat` in `s`: returns the part before
and the part after the occurrence. Mirrors Python str.find based
splitting (leftmost occurrence). -/
def pySplitFirst (pat : Str) (s : Str) : Option (Str × Str) :=
  if pat.isPrefixOf s then some ([], s.drop pat.length)
  else
    match s with
    | [] => none
    | c :: cs =>
        match pySplitFirst pat cs with
        | none => none
        | some (a, b) => some (c :: a, b)

/-- Python s.split(sep, 1) for a multi-character separator. -/
def pySplitMax1 (sep s : Str) : List Str :=
  match pySplitFirst sep s with
  | none => [s]
  | some (a, b) => [a, b]

/-- Python s.split(sep, 2) for a multi-character separator. -/
def pySplitMax2 (sep s : Str) : List Str :=
  match pySplitFirst sep s with
  | none => [s]
  | some (a, b) =>
      match pySplitFirst sep b with
      | none => [a, b]
      | some (c, d) => [a, c, d]

/-- Python `pat in s` substring containment. -/
def pyContains (pat s : Str) : Bool := (pySplitFirst pat s).isSome

/-- Python str.startswith. -/
def pyStartsWith (pat s : Str) : Bool := pat.isPrefixOf s

/-- Python str.endswith. -/
def pyEndsWith (pat s : Str) : Bool := pat.isSuffixOf s

/-- Elementwise lexicographic comparison, the common shape of Python's
string and list comparisons. -/
def lexLt {α : Type} (lt : α → α → Bool) : List α → List α → Bool
  | [], [] => false
  | [], _ :: _ => true
  | _ :: _, [] => false
  | a :: as_, b :: bs =>
      if lt a b then true else if lt b a then false else lexLt lt as_ bs

/-- Python character comparison by code point. -/
def charLtB (a b : Char) : Bool := a.toNat < b.toNat

/-- Python string comparison (code-point lexicographic), as a Bool. -/
def strLt (a b : Str) : Bool := lexLt charLtB a b

def strLe (a b : Str) : Bool := !(strLt b a)

/-- Python sorted() on strings: a stable ascending sort; insertion sort
is stable, so it computes exactly Python's result (and, unlike a
well-founded-recursion merge sort, evaluates inside the kernel). -/
def pySortedStr (l : List Str) : List Str :=
  l.insertionSort (fun a b => strLe a b = true)

/-- Python str.isdigit for ASCII digit runs. -/
def pyIsDigitStr (s : Str) : Bool := !s.isEmpty && s.all Char.isDigit

/-- Digits to the natural number they denote (int(s) for digit strings). -/
def digitsToNat (s : Str) : Nat :=
  s.foldl (fun n c => n * 10 + (c.toNat - 48)) 0

/-- Decimal rendering of a natural number (str(n)). -/
def natToStr (n : Nat) : Str := (toString n).data

/-! ## parse_chapter_title (src/note_sync.py lines 67-82)

The regex `chapter[-_ ]?(\d+)[-_ ]?(.*?)\.md$` with IGNORECASE under
re.match: a case-insensitive literal "chapter" at the start, an optional
separator, a maximal nonempty digit run, an optional separator, then a
lazy remainder followed by ".md" anchored at the end ($ also matches just
before a single trailing newline; `.` does not match a newline). -/

def isSepChar (c : Char) : Bool := c = '-' || c = '_' || c = ' '

/-- Strip a case-insensitive literal from the front. -/
def dropLitCI : Str → Str → Option Str
  | [], s => some s
  | _ :: _, [] => none
  | l :: ls, c :: cs => if c.toLower = l.toLower then dropLitCI ls cs else none

/-- Match the lazy tail `(.*?)\.md$`: the group is everything before the
final ".md", which must be followed by the end of the string or by a
single trailing newline; the group may not contain a newline. -/
def matchLazyMdTail (s : Str) : Option Str :=
  if (s.take 3).map Char.toLower = ".md".data ∧ (s.drop 3 = [] ∨ s.drop 3 = ['\n'])
  then some []
  else
    match s with
    | [] => none
    | c :: cs =>
        if c = '\n' then none
        else (matchLazyMdTail cs).map (c :: ·)

/-- The chapter regex match: returns (digit group, title group). -/
def chapterMatch (filename : Str) : Option (Str × Str) :=
  match dropLitCI "chapter".data filename with
  | none => none
  | some r0 =>
      let r1 := match r0 with
                | c :: cs => if isSepChar c then cs else r0
                | [] => r0
      let digits := r1.takeWhile Char.isDigit
      if digits.isEmpty then none
      else
        let r2 := r1.drop digits.length
        let r3 := match r2 with
                  | c :: cs => if isSepChar c then cs else r2
                  | [] => r2
        (matchLazyMdTail r3).map (fun t => (digits, t))

/-- Path(filename).stem for a plain file name. -/
def pathStem (s : Str) : Str :=
  match (s.reverse.takeWhile (· ≠ '.')), (s.reverse.dropWhile (· ≠ '.')) with
  | _, [] => s
  | ext, _ :: pre =>
      if pre.isEmpty then s
      else if ext.isEmpty then s
      else pre.reverse

/-- parse_chapter_title from src/note_sync.py. -/
def parse_chapter_title (filename : Str) : Option Nat × Str :=
  if pyLower filename = "readme.md".data then (none, "README".data)
  else
    match chapterMatch filename with
    | some (digits, rest) =>
        let chapter_number := digitsToNat digits
        let raw_title := pyStrip (pyReplaceChar '_' ' ' (pyReplaceChar '-' ' ' rest))
        let title_suffix :=
          if raw_title.isEmpty then [] else " — ".data ++ pyTitle raw_title
        (some chapter_number, "Chapter ".data ++ natToStr chapter_number ++ title_suffix)
    | none =>
        let stem := pathStem filename
        let clean_title := pyStrip (pyReplaceChar '_' ' ' (pyReplaceChar '-' ' ' stem))
        (none, if clean_title.isEmpty then "Untitled".data else pyTitle clean_title)

/-! ## _natural_title_key (src/note_sync.py lines 99-106) -/

/-- Maximal runs of characters of equal digit-class (helper for
re.split with a captured digit group). -/
def charRunsAux (cur : Str) : Str → List Str
  | [] => [cur.reverse]
  | c :: cs =>
      match cur with
      | [] => charRunsAux [c] cs
      | d :: _ =>
          if d.isDigit = c.isDigit then charRunsAux (c :: cur) cs
          else cur.reverse :: charRunsAux [c] cs

/-- Python re.split(r"(\d+)", s): pieces alternate non-digit text and
captured digit runs, with empty text pieces at the ends where needed. -/
def splitDigitRuns (s : Str) : List Str :=
  match s with
  | [] => [[]]
  | c :: cs =>
      let runs := charRunsAux [c] cs
      let runs := if c.isDigit then [] :: runs else runs
      match runs.getLast? with
      | some l => if pyIsDigitStr l then runs ++ [[]] else runs
      | none => runs

/-- An element of a Python natural-sort key: an int or a lowercased
string chunk. -/
inductive NKElem
  | num (n : Nat)
  | str (s : Str)
deriving DecidableEq

/-- Comparison of key elements. Python would raise TypeError on an
int/str comparison; that case is unreachable for keys produced by
_natural_title_key because chunk lists alternate str/int by position, so
the totalization chosen here is immaterial. -/
def nkeLt : NKElem → NKElem → Bool
  | .num m, .num n => m < n
  | .str s, .str t => strLt s t
  | .num _, .str _ => true
  | .str _, .num _ => false

/-- Python list comparison on natural-sort keys. -/
def nkLt (a b : List NKElem) : Bool := lexLt nkeLt a b

/-- Extract the first `[...]` group of a markdown item, mirroring
re.search(r"\[(.*?)\]"): the leftmost `[` from which a `]` is reachable
without crossing a newline; absent a match the whole item is used. -/
def firstBracketGroup : Str → Option Str
  | [] => none
  | c :: cs =>
      if c = '[' then
        let inner := cs.takeWhile (fun d => d ≠ ']' ∧ d ≠ '\n')
        if (cs.drop inner.length).head? = some ']' then some inner
        else firstBracketGroup cs
      else firstBracketGroup cs

/-- _natural_title_key from src/note_sync.py. -/
def natural_title_key (markdown_item : Str) : List NKElem :=
  let title := (firstBracketGroup markdown_item).getD markdown_item
  (splitDigitRuns title).map fun t =>
    if pyIsDigitStr t then .num (digitsToNat t) else .str (pyLower t)

/-- The comparison handed to Python sorted(key=_natural_title_key): a is
allowed to precede b unless b's key is strictly below a's. -/
def natKeyLe (a b : Str) : Bool := !(nkLt (natural_title_key b) (natural_title_key a))

/-- Python sorted(toc_lines, key=_natural_title_key): a stable ascending
sort by the natural key, computed by the (stable) insertion sort. -/
def pySortedByNatKey (l : List Str) : List Str :=
  l.insertionSort (fun a b => natKeyLe a b = true)

/-! ## Front-matter extraction (src/note_sync.py lines 109-127) -/

/-- Parse the `key: value` lines of a front-matter block into an
insertion-ordered dict (later assignments win on lookup). -/
def fmDictOfLines (lines : List Str) : List (Str × Str) :=
  lines.foldl
    (fun d line =>
      if line.contains ':' then
        match pySplitFirst [':'] line with
        | some (k, v) => d ++ [(pyStrip k, pyStrip v)]
        | none => d
      else d)
    []

/-- Python dict lookup: the last assignment to a key wins. -/
def pyDictGet {α : Type} (d : List (Str × α)) (k : Str) : Option α :=
  match d with
  | [] => none
  | (k0, v0) :: rest =>
      match pyDictGet rest k with
      | some v => some v
      | none => if k0 = k then some v0 else none

/-- Python dict .get with a default. -/
def pyDictGetD {α : Type} (d : List (Str × α)) (k : Str) (dflt : α) : α :=
  (pyDictGet d k).getD dflt

/-- Python `key in dict`. -/
def pyDictHasKey {α : Type} (d : List (Str × α)) (k : Str) : Bool :=
  (pyDictGet d k).isSome

/-- The reverse hash map {v: k for k, v in cache.items()}: on lookup the
last pair with the given value wins, mirroring dict-comprehension
overwrites. -/
def reverseGet (cache : List (Str × Str)) (h : Str) : Option Str :=
  match cache with
  | [] => none
  | (k, v) :: rest =>
      match reverseGet rest h with
      | some k2 => some k2
      | none => if v = h then some k else none

/-- _extract_front_matter from src/note_sync.py: returns the parsed dict
and whether a valid front-matter block was found. -/
def _extract_front_matter (content : Str) : List (Str × Str) × Bool :=
  if !(pyStartsWith "---".data (pyStrip content)) then ([], false)
  else
    match pySplitMax2 "---".data content with
    | [_, p1, _] => (fmDictOfLines (pySplitChar '\n' (pyStrip p1)), true)
    | _ => ([], false)

/-! ## Section configuration (src/note_sync.py lines 36-52) -/

def section_title_map : List (Str × Str) :=
  [("reading_notes".data, "Reading Notes".data),
   ("meta".data, "Meta".data),
   ("terraform".data, "Terraform".data),
   ("docker".data, "Docker".data),
   ("kubernetes".data, "Kubernetes".data),
   ("aws".data, "AWS".data)]

def section_order_map : List (Str × Nat) :=
  [("reading_notes".data, 40),
   ("meta".data, 30),
   ("terraform".data, 20),
   ("docker".data, 50),
   ("kubernetes".data, 60),
   ("aws".data, 10)]

def EXCLUDE_DIRS : List Str := ["docs".data, ".git".data, "__pycache__".data]

def TOC_MARKER : Str := "<!-- TOC:DO-NOT-EDIT -->".data

/-! ## Directory titles (src/note_sync.py lines 148-198) -/

/-- Greedy tail group `(.*)$`: succeeds when the remainder contains no
newline, or exactly one trailing newline (which $ tolerates). -/
def matchDotStarEnd (s : Str) : Option Str :=
  if s.contains '\n' then
    if s.getLast? = some '\n' && !(s.dropLast.contains '\n') then some s.dropLast
    else none
  else some s

/-- _split_numeric_prefix: regex `^\s*(\d+)[-_ ]+(.*)$`. -/
def _split_numeric_prefix (name : Str) : Option Nat × Str :=
  let r1 := name.dropWhile pyIsSpace
  let digits := r1.takeWhile Char.isDigit
  if digits.isEmpty then (none, name)
  else
    let r2 := r1.drop digits.length
    let seps := r2.takeWhile isSepChar
    if seps.isEmpty then (none, name)
    else
      match matchDotStarEnd (r2.drop seps.length) with
      | some rest => (some (digitsToNat digits), rest)
      | none => (none, name)

def acronyms : List Str :=
  ["aws".data, "iam".data, "cpu".data, "gpu".data, "api".data, "ssl".data,
   "tls".data, "url".data, "http".data, "https".data, "dns".data]

/-- smart_title nested in clean_dir_title. -/
def smart_title (s : Str) : Str :=
  let parts := pySplitWs s
  let out := parts.map fun p =>
    if acronyms.contains (pyLower p) then pyUpper p else pyCapitalize p
  if out.isEmpty then s else pyJoinChar ' ' out

/-- clean_dir_title from src/note_sync.py: human title for a directory
plus a nav_order from the numeric prefix. -/
def clean_dir_title (dir_name : Str) (parent_title : Option Str) : Str × Nat :=
  let np := _split_numeric_prefix dir_name
  let nav := np.1.getD 10
  let visible := pyStrip np.2
  let visible :=
    match parent_title with
    | some pt =>
        if pt ≠ [] ∧ pyStartsWith (pyLower (pyStrip pt) ++ " - ".data) (pyLower visible)
        then pyLStrip (visible.drop (pt.length + 3))
        else visible
    | none => visible
  let visible := pyStrip (pyReplaceChar '_' ' ' (pyReplaceChar '-' ' ' visible))
  let title := if visible.isEmpty then "Untitled".data else smart_title visible
  (title, nav)

/-! ## Filesystem model

Paths are lists of segments relative to SOURCE_DIR; the docs output tree
lives under the segment "docs". The hash-cache file is held separately
as parsed content (its JSON surface syntax is modelled with
pyJsonLoadDict below for load_hashes). SHA-256 is modelled as an
injective digest: hash equality coincides with content equality, which
is the approximation the design itself accepts for rename detection. -/

abbrev SPath := List Str

structure FileSys where
  files : List (SPath × Str)
  dirs : List SPath
deriving DecidableEq

def getFile (fs : FileSys) (p : SPath) : Option Str :=
  (fs.files.find? (fun e => decide (e.1 = p))).map (·.2)

def fileExists (fs : FileSys) (p : SPath) : Bool := (getFile fs p).isSome

def dirExists (fs : FileSys) (p : SPath) : Bool := fs.dirs.any (fun d => decide (d = p))

def pathExists (fs : FileSys) (p : SPath) : Bool := fileExists fs p || dirExists fs p

def setFile (fs : FileSys) (p : SPath) (c : Str) : FileSys :=
  if fileExists fs p then
    { fs with files := fs.files.map (fun e => if e.1 = p then (p, c) else e) }
  else { fs with files := fs.files ++ [(p, c)] }

def delFile (fs : FileSys) (p : SPath) : FileSys :=
  { fs with files := fs.files.filter (fun e => decide (e.1 ≠ p)) }

def fileName (p : SPath) : Str := p.getLastD []

def joinPath (p : SPath) : Str := pyJoinChar '/' p

def splitPath (s : Str) : SPath := pySplitChar '/' s

/-- sha256, modelled as an injective digest (see module comment). -/
def sha256 (text : Str) : Str := text

/-- Markdown files other than index pages (any case). -/
def isMdNotIndex (f : Str) : Bool :=
  pyEndsWith ".md".data f && pyLower f ≠ "index.md".data

/-- The direct files of a directory, in stored order. -/
def directFiles (fs : FileSys) (rel : SPath) : List Str :=
  fs.files.filterMap fun e =>
    if e.1.dropLast = rel ∧ e.1 ≠ [] then some (fileName e.1) else none

/-- has_markdown_files_recursive: some file strictly below `dir` (os.walk
applies no directory exclusions here) is a Markdown file other than an
index page. -/
def has_markdown_files_recursive (fs : FileSys) (dir : SPath) : Bool :=
  fs.files.any fun e =>
    dir.isPrefixOf e.1 && decide (dir.length < e.1.length) && isMdNotIndex (fileName e.1)

/-- has_child_dir_with_markdown: some immediate child directory not named
in EXCLUDE_DIRS recursively contains Markdown. -/
def has_child_dir_with_markdown (fs : FileSys) (rel : SPath) : Bool :=
  dirExists fs rel &&
  fs.dirs.any fun c =>
    decide (c.dropLast = rel) && decide (c ≠ []) &&
    !(EXCLUDE_DIRS.contains (fileName c)) &&
    has_markdown_files_recursive fs c

/-- Python `x or y` on an optional title (None and "" are falsy). -/
def pyOrStr (a : Option Str) (b : Str) : Str :=
  match a with
  | some t => if t.isEmpty then b else t
  | none => b

/-- get_existing_title_for_dir from src/note_sync.py. -/
def get_existing_title_for_dir (fs : FileSys) (rel_path : SPath) : Option Str :=
  let fallback : Option Str :=
    if rel_path.length = 1 then
      match pyDictGet section_title_map (pyLower (fileName rel_path)) with
      | some m => if m.isEmpty then none else some m
      | none => none
    else none
  match getFile fs ("docs".data :: rel_path ++ ["index.md".data]) with
  | some c =>
      let fm := _extract_front_matter c
      if fm.2 then
        match pyDictGet fm.1 "title".data with
        | some t => if t.isEmpty then fallback else some t
        | none => fallback
      else fallback
  | none => fallback

/-! ## Index composition (src/note_sync.py lines 224-355) -/

/-- _build_index_front_matter from src/note_sync.py. -/
def _build_index_front_matter (title : Str) (nav_order : Nat)
    (parent : Option Str) (has_children toc_false : Bool) : Str :=
  let lines := ["---".data, "title: ".data ++ title]
  let lines := lines ++
    (match parent with
     | some p => if p.isEmpty then [] else ["parent: ".data ++ p]
     | none => [])
  let lines := lines ++ ["nav_order: ".data ++ natToStr nav_order]
  let lines := lines ++ (if has_children then ["has_children: true".data] else [])
  let lines := lines ++ (if toc_false then ["toc: false".data] else [])
  let lines := lines ++ ["---".data]
  pyJoinChar '\n' lines

/-- The skip-existing-TOC loop of create_or_update_index: drop leading
empty lines, markdown list items and TABLE OF CONTENTS headers, keep
everything from the first other line on. -/
def skipTocLines : List Str → List Str
  | [] => []
  | line :: rest =>
      let stripped := pyStrip line
      if stripped ≠ [] ∧ ¬ pyStartsWith "- [".data stripped ∧
          ¬ pyStartsWith "## TABLE OF CONTENTS".data stripped
      then line :: rest
      else skipTocLines rest

/-- The title the index of `rel` is written with, and its parent title
(lines 262-283 of create_or_update_index). -/
def indexTitleParent (fs : FileSys) (rel : SPath) : Str × Option Str :=
  if rel.length = 0 then ("Home".data, none)
  else if rel.length = 1 then
    (pyDictGetD section_title_map (pyLower (fileName rel)) (pyTitle (fileName rel)), none)
  else
    let parent_path := rel.dropLast
    let ptfi :=
      pyOrStr (get_existing_title_for_dir fs parent_path)
        (if parent_path.length = 1 then
           pyDictGetD section_title_map (pyLower (fileName parent_path))
             (pyTitle (fileName parent_path))
         else pyTitle (fileName parent_path))
    ((clean_dir_title (fileName rel) (some ptfi)).1, some ptfi)

/-- The chunk of an existing index that create_or_update_index carries
over: the non-TOC lines found after the sentinel marker (lines 303-330).
Content before the marker, and the whole content when the marker is
absent, contribute nothing. -/
def preservedTail (old : Option Str) : Str :=
  match old with
  | some old_content =>
      if pyContains TOC_MARKER old_content then
        match pySplitMax1 TOC_MARKER old_content with
        | [_, after] =>
            let remaining := pyStrip after
            let non_toc := skipTocLines (pySplitChar '\n' remaining)
            if non_toc ≠ [] then pyJoinChar '\n' non_toc ++ "\n".data
            else []
        | _ => []
      else []
  | none => []

/-- The final assembly of an index file (lines 332-342): inject the
sorted manual TOC when lines were provided, and ensure a trailing
newline. -/
def assembleIndexContent (content_before : Str) (toc_lines : Option (List Str)) : Str :=
  match toc_lines with
  | some l =>
      if l.isEmpty then
        if pyEndsWith "\n".data content_before then content_before
        else content_before ++ "\n".data
      else
        if pyEndsWith "\n".data (content_before ++ TOC_MARKER ++ "\n\n".data
            ++ pyJoinChar '\n' (pySortedByNatKey l) ++ "\n".data)
        then content_before ++ TOC_MARKER ++ "\n\n".data
            ++ pyJoinChar '\n' (pySortedByNatKey l) ++ "\n".data
        else content_before ++ TOC_MARKER ++ "\n\n".data
            ++ pyJoinChar '\n' (pySortedByNatKey l) ++ "\n".data ++ "\n".data
  | none =>
      if pyEndsWith "\n".data content_before then content_before
      else content_before ++ "\n".data

/-- The full content create_or_update_index composes for docs/<rel>/index.md,
given the current filesystem. -/
def composeIndexContent (fs : FileSys) (rel : SPath) (nav_order : Nat)
    (toc_lines : Option (List Str)) : Str :=
  let tp := indexTitleParent fs rel
  let nav_order := if rel.length = 0 then 1 else nav_order
  let has_subdirs := has_child_dir_with_markdown fs rel
  let toc_false := match toc_lines with
                   | some l => !l.isEmpty
                   | none => false
  let front_matter :=
    _build_index_front_matter tp.1 nav_order tp.2 has_subdirs toc_false
  let content_before := front_matter ++ "\n\n".data ++
    preservedTail (getFile fs ("docs".data :: rel ++ ["index.md".data]))
  assembleIndexContent content_before toc_lines

/-! ## The sync pipeline (src/note_sync.py lines 413-608)

The run is modelled as a fold over the directory list recorded in the
filesystem (os.walk yields directories in an OS-defined top-down order;
well-formed worlds list parents before children, and directories created
during a run lie under the excluded "docs" tree, so walking a start-of-run
snapshot is equivalent to the lazy walk). Every action is recorded in an
event log; log… events model the script's change reports, which are
printed in dry and live runs alike. -/

inductive Ev
  | mkdirE (p : SPath)
  | writeFileE (p : SPath) (c : Str)
  | deleteFileE (p : SPath)
  | rmdirE (p : SPath)
  | cacheWriteE
  | cacheDeleteE
  | logSync (p : SPath)
  | logRenameDel (p : SPath)
  | logIndexUpd (p : SPath)
  | logOrphanFile (p : SPath)
  | logOrphanDir (p : SPath)
deriving DecidableEq

/-- Does the event mutate the filesystem or cache file? -/
def Ev.isMutation : Ev → Bool
  | .mkdirE _ | .writeFileE _ _ | .deleteFileE _ | .rmdirE _
  | .cacheWriteE | .cacheDeleteE => true
  | _ => false

/-- The events a dry run reports as its logical change-set. -/
def Ev.isChangeLog : Ev → Bool
  | .logSync _ | .logRenameDel _ | .logIndexUpd _
  | .logOrphanFile _ | .logOrphanDir _ => true
  | _ => false

structure SyncSt where
  fs : FileSys
  updated : List (Str × Str)
  events : List Ev
deriving DecidableEq

/-- target_dir.mkdir(parents=True, exist_ok=True): create the missing
ancestors of `p` (and `p`), shortest first. -/
def mkdirParents (st : SyncSt) (p : SPath) : SyncSt :=
  (p.inits.filter (· ≠ [])).foldl
    (fun s q =>
      if dirExists s.fs q then s
      else { s with fs := { s.fs with dirs := s.fs.dirs ++ [q] },
                    events := s.events ++ [Ev.mkdirE q] })
    st

/-- The per-file front matter (lines 505-518). -/
def file_front_matter (title : Str) (should_exclude : Bool)
    (parent_title : Option Str) (nav_entry : Nat) : Str :=
  let l1 := "---\ntitle: \"".data ++ title ++ "\"\n".data
  if should_exclude then l1 ++ "nav_exclude: true\n".data ++ "---\n\n".data
  else
    let pline :=
      match parent_title with
      | some pt => if pt.isEmpty then [] else "parent: ".data ++ pt ++ "\n".data
      | none => []
    l1 ++ pline ++ "nav_order: ".data ++ natToStr nav_entry ++ "\n".data ++
      "---\n\n".data

/-- One iteration of the per-file sync loop (lines 497-541). -/
def syncOneFile (cache : List (Str × Str)) (dry : Bool) (rel : SPath)
    (should_exclude : Bool) (parent_title : Option Str)
    (st : SyncSt) (i : Nat) (fname : Str) : SyncSt :=
  let src_file := rel ++ [fname]
  let dst_file := "docs".data :: rel ++ [fname]
  let body := (getFile st.fs src_file).getD []
  let ct := parse_chapter_title fname
  let nav_entry := ct.1.getD (i + 1)
  let front_matter := file_front_matter ct.2 should_exclude parent_title nav_entry
  let final := front_matter ++ body
  let file_hash := sha256 final
  let hash_key := joinPath src_file
  let st := { st with updated := st.updated ++ [(hash_key, file_hash)] }
  if pyDictGet cache hash_key ≠ some file_hash then
    let st :=
      match reverseGet cache file_hash with
      | some old_key =>
          let old_path := "docs".data :: splitPath old_key
          if fileExists st.fs old_path then
            { st with fs := if dry then st.fs else delFile st.fs old_path,
                      events := st.events ++
                        (if dry then [] else [Ev.deleteFileE old_path]) ++
                        [Ev.logRenameDel old_path] }
          else st
      | none => st
    { st with fs := if dry then st.fs else setFile st.fs dst_file final,
              events := st.events ++
                (if dry then [] else [Ev.writeFileE dst_file final]) ++
                [Ev.logSync dst_file] }
  else st

/-- The write-if-changed index update (lines 344-355), on top of the
composition in composeIndexContent. -/
def indexUpdateStep (dry : Bool) (st : SyncSt) (rel : SPath)
    (nav_order : Nat) (toc_lines : Option (List Str)) : SyncSt :=
  let index_file := "docs".data :: rel ++ ["index.md".data]
  let content := composeIndexContent st.fs rel nav_order toc_lines
  if getFile st.fs index_file = some content then st
  else
    { st with fs := if dry then st.fs else setFile st.fs index_file content,
              events := st.events ++
                (if dry then [] else [Ev.writeFileE index_file content]) ++
                [Ev.logIndexUpd index_file] }

/-- The depth-based navigation-visibility decision (lines 465-477):
root files are never excluded, depth-1 files are excluded when the
section has a (non-excluded, immediate) child directory recursively
containing Markdown, depth ≥ 2 files are always excluded. -/
def should_exclude_files_from_nav (fs : FileSys) (rel : SPath) : Bool :=
  if rel.length = 0 then false
  else if rel.length = 1 then has_child_dir_with_markdown fs rel
  else true

/-- The parent title resolved for the files of a directory
(lines 484-494). -/
def filesParentTitle (fs : FileSys) (rel : SPath) : Option Str :=
  if rel.length = 0 then none
  else if rel.length = 1 then
    some (pyDictGetD section_title_map (pyLower (fileName rel))
           (pyTitle (fileName rel)))
  else
    some (pyOrStr (get_existing_title_for_dir fs rel.dropLast)
           (pyDictGetD section_title_map (pyLower (fileName rel.dropLast))
             (pyTitle (fileName rel.dropLast))))

/-- The rendered TOC entry for one file (line 562). -/
def tocLineFor (f : Str) : Str :=
  "- [".data ++ (parse_chapter_title f).2 ++ "](".data ++ f ++ ")".data

/-- The manual-TOC decision (lines 550-565): lines are produced only for
directories at depth ≥ 2 without markdown-bearing child directories. -/
def tocToInject (fs : FileSys) (rel : SPath) (md_files : List Str) :
    Option (List Str) :=
  if 2 ≤ rel.length ∧ !has_child_dir_with_markdown fs rel then
    some (md_files.map tocLineFor)
  else none

/-- The nav_order passed to the index update (lines 567-576). -/
def indexNavOrder (fs : FileSys) (rel : SPath) : Nat :=
  if rel.length = 0 then 1
  else if rel.length = 1 then
    pyDictGetD section_order_map (pyLower (fileName rel)) 90
  else
    (clean_dir_title (fileName rel)
      (get_existing_title_for_dir fs rel.dropLast)).2

/-- Processing of one directory of the walk (lines 432-585). -/
def dirStep (cache : List (Str × Str)) (dry : Bool) (st : SyncSt)
    (rel : SPath) : SyncSt :=
  if rel.any (fun seg => EXCLUDE_DIRS.contains seg) then st
  else
    let md_files := pySortedStr ((directFiles st.fs rel).filter isMdNotIndex)
    let has_recursive_md := has_markdown_files_recursive st.fs rel
    if md_files.isEmpty && !has_recursive_md then st
    else
      let st := mkdirParents st ("docs".data :: rel)
      let should_exclude := should_exclude_files_from_nav st.fs rel
      let parent_title := filesParentTitle st.fs rel
      let st := md_files.enum.foldl
        (fun s p => syncOneFile cache dry rel should_exclude parent_title s p.1 p.2)
        st
      indexUpdateStep dry st rel (indexNavOrder st.fs rel)
        (tocToInject st.fs rel md_files)

/-- One iteration of the orphaned-file pass (lines 363-379). -/
def orphanFileStep (dry : Bool) (s : SyncSt) (e : SPath × Str) : SyncSt :=
  let p := e.1
  let fname := fileName p
  if pyEndsWith ".md".data fname then
    if fname = "index.md".data then s
    else
      let relp := p.drop 1
      if !(pathExists s.fs relp) && !(pyDictHasKey s.updated (joinPath relp)) then
        { s with fs := if dry then s.fs else delFile s.fs p,
                 events := s.events ++
                   (if dry then [] else [Ev.deleteFileE p]) ++
                   [Ev.logOrphanFile p] }
      else s
  else s

/-- One iteration of the bottom-up orphaned-directory pass
(lines 382-408): direct files of an orphaned docs directory are deleted
before rmdir is attempted, and a failed rmdir (directory still holds
entries) is swallowed; a dry run only reports. -/
def orphanDirStep (dry : Bool) (s : SyncSt) (d : SPath) : SyncSt :=
  let relp := d.drop 1
  let src_exists := pathExists s.fs relp
  let has_md := s.fs.files.any fun e =>
    relp.isPrefixOf e.1 && decide (relp.length < e.1.length) &&
    pyEndsWith ".md".data (fileName e.1)
  if !src_exists || !has_md then
    if dry then { s with events := s.events ++ [Ev.logOrphanDir d] }
    else
      let directF := s.fs.files.filter (fun e => decide (e.1.dropLast = d))
      let fs2 := directF.foldl (fun f e => delFile f e.1) s.fs
      let evs2 := s.events ++ directF.map (fun e => Ev.deleteFileE e.1)
      let emptyNow :=
        fs2.files.all (fun e => !(d.isPrefixOf e.1) || decide (e.1.length ≤ d.length)) &&
        fs2.dirs.all (fun d2 => !(d.isPrefixOf d2) || decide (d2.length ≤ d.length))
      if emptyNow then
        { s with fs := { fs2 with dirs := fs2.dirs.filter (fun d2 => decide (d2 ≠ d)) },
                 events := evs2 ++ [Ev.rmdirE d, .logOrphanDir d] }
      else { s with fs := fs2, events := evs2 }
  else s

/-- clean_orphaned_files (lines 358-410): the orphaned-file pass over the
docs tree, then the bottom-up orphaned-directory pass. -/
def clean_orphaned_files (dry : Bool) (st : SyncSt) : SyncSt :=
  let docFiles := st.fs.files.filter (fun e => decide (e.1.head? = some "docs".data))
  let st2 := docFiles.foldl (orphanFileStep dry) st
  let docDirs := (st2.fs.dirs.filter
    (fun d => decide (d.head? = some "docs".data) && decide (d ≠ ["docs".data]))).reverse
  docDirs.foldl (orphanDirStep dry) st2

/-- A world: the filesystem plus the parsed hash-cache file (None when
the cache file does not exist). -/
structure World where
  fs : FileSys
  cacheFile : Option (List (Str × Str))
deriving DecidableEq

/-- sync_notes from src/note_sync.py, as a world transformer returning
the event log. -/
def runSync (dry clean : Bool) (w : World) : World × List Ev :=
  let cacheFile0 :=
    if clean ∧ !dry ∧ w.cacheFile.isSome then none else w.cacheFile
  let evs0 : List Ev :=
    if clean ∧ w.cacheFile.isSome then
      (if dry then [] else [Ev.cacheDeleteE]) else []
  let cache := cacheFile0.getD []
  let st0 : SyncSt := ⟨w.fs, [], evs0⟩
  let st1 := w.fs.dirs.foldl (dirStep cache dry) st0
  let st2 := clean_orphaned_files dry st1
  let finalCache := if dry then cacheFile0 else some st2.updated
  let evFinal := st2.events ++ (if dry then [] else [Ev.cacheWriteE])
  (⟨st2.fs, finalCache⟩, evFinal)

/-! ## load_hashes (src/note_sync.py lines 85-90)

load_hashes opens the cache file when it exists and returns json.load's
result with no exception handler, so a JSONDecodeError propagates out of
the function. json.load is modelled for the cache file's schema — a flat
JSON object from path strings to hex-digest strings, the only shape the
tool ever writes — with string literals taken verbatim (escape sequences
do not occur in the keys and values the tool produces). -/

def jsonWsChar (c : Char) : Bool := c = ' ' || c = '\t' || c = '\n' || c = '\r'

def jsonWs (s : Str) : Str := s.dropWhile jsonWsChar

def braceL : Char := Char.ofNat 123

def braceR : Char := Char.ofNat 125

/-- Parse a JSON string literal, returning its content and the remainder. -/
def parseJStr (s : Str) : Option (Str × Str) :=
  match s with
  | [] => none
  | c :: cs =>
      if c = '\"' then
        let content := cs.takeWhile (· ≠ '\"')
        match cs.drop content.length with
        | q :: r => if q = '\"' then some (content, r) else none
        | [] => none
      else none

/-- Parse the remaining `"k": "v"` entries of a JSON object, up to and
including the closing brace. -/
def parseJEntries : Nat → Str → Option (List (Str × Str) × Str)
  | 0, _ => none
  | fuel + 1, s =>
      match parseJStr (jsonWs s) with
      | none => none
      | some (k, r1) =>
          match jsonWs r1 with
          | ':' :: r3 =>
              match parseJStr (jsonWs r3) with
              | none => none
              | some (v, r4) =>
                  match jsonWs r4 with
                  | ',' :: r6 =>
                      (parseJEntries fuel r6).map (fun er => ((k, v) :: er.1, er.2))
                  | c :: r6 =>
                      if c = braceR then some ([(k, v)], r6) else none
                  | [] => none
          | _ => none

/-- json.load for the cache file's flat string-to-string object schema. -/
def pyJsonLoadDict (raw : Str) : Except Str (List (Str × Str)) :=
  match jsonWs raw with
  | [] => .error "Expecting value".data
  | c :: cs =>
      if c = braceL then
        match jsonWs cs with
        | d :: ds =>
            if d = braceR then
              if (jsonWs ds).isEmpty then .ok []
              else .error "Extra data".data
            else
              match parseJEntries (raw.length + 1) (d :: ds) with
              | some (es, r) =>
                  if (jsonWs r).isEmpty then .ok es
                  else .error "Extra data".data
              | none => .error "Invalid JSON object".data
        | [] => .error "Expecting property name".data
      else .error "Expecting value".data

/-- load_hashes from src/note_sync.py: a missing cache file yields the
empty dict; an existing file is handed to json.load, whose failure
propagates (there is no exception handler in the source). -/
def load_hashes (hashFileContent : Option Str) :
    Except Str (List (Str × Str)) :=
  match hashFileContent with
  | none => .ok []
  | some raw => pyJsonLoadDict raw

/-! ## Concrete worlds used by counterexamples and witnesses -/

/-- A docs tree whose index for section a holds user prose and no
sentinel marker. -/
def cex5fs : FileSys :=
  ⟨[(["docs".data, "a".data, "index.md".data], "My notes.\n".data)],
   [[], ["a".data], ["docs".data], ["docs".data, "a".data]]⟩

/-- A docs tree whose index for section a holds prose before the
sentinel marker and prose after it. -/
def cex5fsB : FileSys :=
  ⟨[(["docs".data, "a".data, "index.md".data],
     "My notes.\n<!-- TOC:DO-NOT-EDIT -->\nAfter prose\n".data)],
   [[], ["a".data], ["docs".data], ["docs".data, "a".data]]⟩

/-- A source tree whose only markdown below the terraform section sits
inside a child directory named docs (an excluded name). -/
def w3 : World :=
  ⟨⟨[(["terraform".data, "a.md".data], "body\n".data),
     (["terraform".data, "docs".data, "x.md".data], "hidden\n".data)],
    [[], ["terraform".data], ["terraform".data, "docs".data]]⟩, none⟩

/-- A depth-2 directory whose only subdirectory is named docs (an
excluded name) and carries markdown. -/
def w7 : World :=
  ⟨⟨[(["t".data, "b".data, "a.md".data], "body\n".data),
     (["t".data, "b".data, "docs".data, "x.md".data], "hidden\n".data)],
    [[], ["t".data], ["t".data, "b".data], ["t".data, "b".data, "docs".data]]⟩,
   none⟩

/-- A world whose stale cache makes the rename detector's behaviour
depend on output files written earlier in the same run: the live run
logs a rename deletion that a dry run cannot see. -/
def w2 : World :=
  ⟨⟨[(["a".data, "c".data, "x.md".data], "P\n".data),
     (["b".data, "c".data, "y.md".data], "Q\n".data)],
    [[], ["a".data], ["a".data, "c".data], ["b".data], ["b".data, "c".data]]⟩,
   some [("a/c/x.md".data,
     "---\ntitle: \"Y\"\nnav_exclude: true\n---\n\nQ\n".data)]⟩

/-- A world just after a rename: the source n/a.md has become n/b.md,
the stale output docs/n/a.md is still present, and the cache still
records the old path. -/
def w4 : World :=
  ⟨⟨[(["n".data, "b.md".data], "B\n".data),
     (["docs".data, "n".data, "a.md".data], "old\n".data)],
    [[], ["n".data], ["docs".data], ["docs".data, "n".data]]⟩,
   some [("n/a.md".data, "X".data)]⟩

/-! ## Rename-scenario invariants (claim C4)

A live run only ever writes or deletes below docs/: `liveFrame` states
that the files and directories outside docs/ are exactly the world's,
and `renameInv` adds that no hash recorded during the run carries the
renamed-away source path. -/

/-- Is the path inside the generated docs/ output tree? -/
def inDocs (p : SPath) : Bool := decide (p.head? = some "docs".data)

/-- The source tree (everything outside docs/) is untouched. -/
def liveFrame (w : World) (s : SyncSt) : Prop :=
  s.fs.files.filter (fun e => !inDocs e.1)
    = w.fs.files.filter (fun e => !inDocs e.1) ∧
  ∀ d : SPath, inDocs d = false → (d ∈ s.fs.dirs ↔ d ∈ w.fs.dirs)

/-- liveFrame plus: no hash recorded in this run is keyed by the
renamed-away source path. -/
def renameInv (w : World) (oldRel : SPath) (s : SyncSt) : Prop :=
  liveFrame w s ∧ ∀ kv ∈ s.updated, kv.1 ≠ joinPath oldRel

/-- `s` avoids the character `x` (used to track that titles and front
matter stay free of the marker's characters). -/
def NoChar (x : Char) (s : Str) : Prop := ∀ c ∈ s, c ≠ x

/-- The content create_or_update_index composes for an index that does
not yet exist: composeIndexContent with an empty preserved tail. This is
the content a from-empty run writes. -/
def freshIndexContent (fs : FileSys) (rel : SPath) (nav_order : Nat)
    (toc_lines : Option (List Str)) : Str :=
  let tp := indexTitleParent fs rel
  let nav_order := if rel.length = 0 then 1 else nav_order
  let has_subdirs := has_child_dir_with_markdown fs rel
  let toc_false := match toc_lines with
                   | some l => !l.isEmpty
                   | none => false
  let front_matter :=
    _build_index_front_matter tp.1 nav_order tp.2 has_subdirs toc_false
  assembleIndexContent (front_matter ++ "\n\n".data) toc_lines

/-- The build-TOC boolean of create_or_update_index, as a named function
(used to state lemmas about the two composition paths above). -/
def tocFlag (toc_lines : Option (List Str)) : Bool :=
  match toc_lines with
  | some l => !l.isEmpty
  | none => false

instance noCharDec (x : Char) (s : Str) : Decidable (NoChar x s) :=
  List.decidableBAll (fun c => c ≠ x) s

/-- Does the event write a file? (observer used to state the original
idempotence claim's failure). -/
def Ev.isFileWrite : Ev → Bool
  | .writeFileE _ _ => true
  | _ => false

/-- One step of mkdir(parents=True): the body of the fold inside
mkdirParents, named for the proofs below. -/
def mkdirStep (s : SyncSt) (q : SPath) : SyncSt :=
  if dirExists s.fs q then s
  else { s with fs := { s.fs with dirs := s.fs.dirs ++ [q] },
                events := s.events ++ [Ev.mkdirE q] }

/-- The sorted non-index Markdown files of a directory (line 445-452 of
sync_notes, the md_files list of dirStep). -/
def mdFiles (fs : FileSys) (rel : SPath) : List Str :=
  pySortedStr ((directFiles fs rel).filter isMdNotIndex)

/-- Whether dirStep actually processes a directory: not excluded, and
holding direct or recursive Markdown. -/
def dirProcessed (fs : FileSys) (rel : SPath) : Bool :=
  !(rel.any fun seg => EXCLUDE_DIRS.contains seg) &&
  !((mdFiles fs rel).isEmpty && !has_markdown_files_recursive fs rel)

/-- The final content syncOneFile writes for the i-th Markdown file of a
directory, evaluated over a reference filesystem. -/
def mdOut (fs : FileSys) (rel : SPath) (i : Nat) (fname : Str) : Str :=
  file_front_matter (parse_chapter_title fname).2
    (should_exclude_files_from_nav fs rel) (filesParentTitle fs rel)
    ((parse_chapter_title fname).1.getD (i + 1)) ++
  (getFile fs (rel ++ [fname])).getD []

/-- The output files a processed directory contributes, in write order:
its Markdown outputs then its index. -/
def secOutFiles (fs : FileSys) (rel : SPath) : List (SPath × Str) :=
  (mdFiles fs rel).enum.map
    (fun p => ("docs".data :: rel ++ [p.2], mdOut fs rel p.1 p.2)) ++
  [("docs".data :: rel ++ ["index.md".data],
    freshIndexContent fs rel (indexNavOrder fs rel) none)]

/-- The hash-cache entries a processed directory contributes. -/
def secUpd (fs : FileSys) (rel : SPath) : List (Str × Str) :=
  (mdFiles fs rel).enum.map
    (fun p => (joinPath (rel ++ [p.2]), mdOut fs rel p.1 p.2))

/-- The output files contributed by a walked directory list. -/
def outBlocks (fs : FileSys) (done : List SPath) : List (SPath × Str) :=
  done.flatMap (fun rel => if dirProcessed fs rel then secOutFiles fs rel else [])

/-- The cache entries contributed by a walked directory list. -/
def updBlocks (fs : FileSys) (done : List SPath) : List (Str × Str) :=
  done.flatMap (fun rel => if dirProcessed fs rel then secUpd fs rel else [])

/-- Well-formedness of a clean-slate world at nesting depth at most one:
no pre-existing output tree, no cache file, unique shallow paths, and
segment names free of the path separator and the sentinel-opening
character. -/
def C1WF (w : World) : Prop :=
  (∀ e ∈ w.fs.files, e.1.head? ≠ some "docs".data) ∧
  (∀ d ∈ w.fs.dirs, d.head? ≠ some "docs".data) ∧
  w.cacheFile = none ∧
  w.fs.dirs.Nodup ∧
  (w.fs.files.map Prod.fst).Nodup ∧
  (∀ e ∈ w.fs.files, e.1 ≠ [] ∧ e.1.length ≤ 2) ∧
  (∀ d ∈ w.fs.dirs, d.length ≤ 1) ∧
  (∀ e ∈ w.fs.files, ∀ seg ∈ e.1,
    seg ≠ [] ∧ NoChar '/' seg ∧ NoChar '<' seg) ∧
  (∀ d ∈ w.fs.dirs, ∀ seg ∈ d,
    seg ≠ [] ∧ NoChar '/' seg ∧ NoChar '<' seg)

instance c1wfDec (w : World) : Decidable (C1WF w) := by
  unfold C1WF
  infer_instance

/-- The invariant maintained while the first live run walks the source
directory list: files and cache entries are the initial ones plus the
blocks of the processed prefix, created directories all lie under docs/
with a Markdown-bearing source counterpart, and the docs/ ancestors of
every processed directory exist. -/
def run1Inv (w : World) (done : List SPath) (s : SyncSt) : Prop :=
  s.fs.files = w.fs.files ++ outBlocks w.fs done ∧
  s.updated = updBlocks w.fs done ∧
  (∃ dex, s.fs.dirs = w.fs.dirs ++ dex ∧
    ∀ d ∈ dex, d.head? = some "docs".data ∧
      (d = ["docs".data] ∨
       ∃ s1 f c, d = ["docs".data, s1] ∧ [s1] ∈ w.fs.dirs ∧
         ([s1, f], c) ∈ w.fs.files ∧ pyEndsWith ".md".data f = true)) ∧
  (∀ rel ∈ done, dirProcessed w.fs rel = true →
    ∀ q ∈ ("docs".data :: rel).inits, q ≠ [] → q ∈ s.fs.dirs)

/-- A world whose pre-existing index file under docs/ holds prose after
the sentinel marker. -/
def w1c : World :=
  ⟨⟨[(["a".data, "x.md".data], "B\n".data),
     (["docs".data, "a".data, "index.md".data],
      "<!-- TOC:DO-NOT-EDIT -->\nprose\n".data)],
    [[], ["a".data], ["docs".data], ["docs".data, "a".data]]⟩,
   none⟩

/-- A clean-slate world with a root file and one section. -/
def w1w : World :=
  ⟨⟨[(["notes.md".data], "hi\n".data),
     (["sec".data, "a.md".data], "x\n".data)],
    [[], ["sec".data]]⟩,
   none⟩

/-! # Theorems -/

/-! ## Dictionary lemmas -/

theorem pyDictGet_eq_none_of_not_mem {α : Type} {d : List (Str × α)} {k : Str}
    (h : k ∉ d.map Prod.fst) : pyDictGet d k = none := by
  induction d with
  | nil => rfl
  | cons e rest ih =>
      simp only [List.map_cons, List.mem_cons] at h
      push_neg at h
      simp only [pyDictGet, ih h.2]
      simp [h.1.symm]

theorem pyDictGet_eq_of_mem_nodup {d : List (Str × Str)} {k v : Str}
    (hnd : (d.map Prod.fst).Nodup) (hm : (k, v) ∈ d) :
    pyDictGet d k = some v := by
  induction d with
  | nil => cases hm
  | cons e rest ih =>
      simp only [List.map_cons, List.nodup_cons] at hnd
      rcases List.mem_cons.mp hm with he | hr
      · subst he
        simp only [pyDictGet]
        rw [pyDictGet_eq_none_of_not_mem (by simpa using hnd.1)]
        simp
      · simp only [pyDictGet, ih hnd.2 hr]

theorem reverseGet_mem {cache : List (Str × Str)} {h k : Str}
    (hr : reverseGet cache h = some k) : (k, h) ∈ cache := by
  induction cache with
  | nil => cases hr
  | cons e rest ih =>
      obtain ⟨k1, v1⟩ := e
      simp only [reverseGet] at hr
      rcases hg : reverseGet rest h with _ | k2
      · rw [hg] at hr
        by_cases hv : v1 = h
        · subst hv
          simp only [if_pos rfl] at hr
          cases hr
          exact List.mem_cons_self _ _
        · simp [hv] at hr
      · rw [hg] at hr
        cases hr
        exact List.mem_cons_of_mem _ (ih hg)

/-! ## Path join/split lemmas -/

theorem pySplitChar_ne_nil (sep : Char) (s : Str) : pySplitChar sep s ≠ [] := by
  cases s with
  | nil => simp [pySplitChar]
  | cons c cs =>
      simp only [pySplitChar]
      by_cases hc : c = sep
      · simp [hc]
      · simp only [if_neg hc]
        cases pySplitChar sep cs <;> simp

theorem pyJoinChar_pySplitChar (sep : Char) (s : Str) :
    pyJoinChar sep (pySplitChar sep s) = s := by
  induction s with
  | nil => rfl
  | cons c cs ih =>
      simp only [pySplitChar]
      rcases hs : pySplitChar sep cs with _ | ⟨r, rs⟩
      · exact absurd hs (pySplitChar_ne_nil sep cs)
      · rw [hs] at ih
        by_cases hc : c = sep
        · subst hc
          simp only [if_pos rfl, pyJoinChar, List.nil_append]
          rw [ih]
        · simp only [if_neg hc]
          cases rs with
          | nil =>
              simp only [pyJoinChar] at ih ⊢
              rw [ih]
          | cons r2 rs2 =>
              simp only [pyJoinChar] at ih ⊢
              rw [List.cons_append, ih]

theorem splitPath_injective {a b : Str} (h : splitPath a = splitPath b) :
    a = b := by
  have ha := pyJoinChar_pySplitChar '/' a
  have hb := pyJoinChar_pySplitChar '/' b
  rw [← ha, ← hb]
  unfold splitPath at h
  rw [h]

/-! ## Claim C9 -/

/-- C9: parse_chapter_title maps "chapter-03-intro-to-testing.md" to
chapter 3 titled "Chapter 3 — Intro To Testing", "notes.md" to no
chapter and "Notes", and any casing of "readme.md" to no chapter and the
fixed title "README". -/
theorem C9_chapter_title :
    parse_chapter_title "chapter-03-intro-to-testing.md".data
        = (some 3, "Chapter 3 — Intro To Testing".data) ∧
    parse_chapter_title "notes.md".data = (none, "Notes".data) ∧
    parse_chapter_title "readme.md".data = (none, "README".data) ∧
    parse_chapter_title "README.md".data = (none, "README".data) ∧
    parse_chapter_title "ReadMe.MD".data = (none, "README".data) := by
  refine ⟨by decide, by decide, by decide, by decide, by decide⟩

/-! ## Claim C6 -/

/-- C6 counterexample: a cache file holding an invalid structure is not
treated as an empty cache — json.load's failure propagates out of
load_hashes (there is no handler), so the load is fatal rather than a
full resync. -/
theorem C6_malformed_cache_counterexample :
    load_hashes (some "garbage".data) = .error "Expecting value".data ∧
    ∀ d, load_hashes (some "garbage".data) ≠ .ok d := by
  refine ⟨rfl, fun d h => ?_⟩
  rw [show load_hashes (some "garbage".data)
        = .error "Expecting value".data from rfl] at h
  exact Except.noConfusion h

/-- C6 amended: only a missing cache file is treated as the empty cache;
when the cache file exists but holds an invalid structure, json.load's
error propagates out of load_hashes and the run aborts. -/
theorem C6_malformed_cache (raw err : Str)
    (h : pyJsonLoadDict raw = .error err) :
    load_hashes (some raw) = .error err ∧ load_hashes none = .ok [] :=
  ⟨h, rfl⟩

/-- C6 witness: the amended behaviour at a concrete malformed cache. -/
theorem C6_malformed_cache_witness :
    load_hashes (some "\x7b broken".data) = .error "Invalid JSON object".data ∧
    load_hashes none = .ok [] :=
  C6_malformed_cache "\x7b broken".data "Invalid JSON object".data rfl

/-! ## Claim C10 -/

/-- C10: whenever the rename-deletion branch fires — the new content
hash differs from the cached hash for the file's own path while the
reverse map yields an old key — the old key is a different path from the
file's own, so the branch never unlinks the output file about to be
written. -/
theorem C10_rename_self_delete_safety (cache : List (Str × Str))
    (hash_key file_hash old_key : Str)
    (hnodup : (cache.map Prod.fst).Nodup)
    (hmiss : pyDictGet cache hash_key ≠ some file_hash)
    (hrev : reverseGet cache file_hash = some old_key) :
    old_key ≠ hash_key ∧
      ("docs".data :: splitPath old_key) ≠ ("docs".data :: splitPath hash_key) := by
  have hmem : (old_key, file_hash) ∈ cache := reverseGet_mem hrev
  have hne : old_key ≠ hash_key := by
    intro he
    subst he
    exact hmiss (pyDictGet_eq_of_mem_nodup hnodup hmem)
  refine ⟨hne, fun hp => ?_⟩
  have := List.cons_injective hp
  exact hne (splitPath_injective this)

/-- C10 witness: the safety conclusion at a concrete cache. -/
theorem C10_rename_self_delete_safety_witness :
    "b.md".data ≠ "a.md".data ∧
      ("docs".data :: splitPath "b.md".data) ≠
        ("docs".data :: splitPath "a.md".data) :=
  C10_rename_self_delete_safety
    [("a.md".data, "h1".data), ("b.md".data, "h2".data)]
    "a.md".data "h2".data "b.md".data
    (by decide) (by decide) (by decide)

/-! ## Strict-weak-order lemmas for the natural sort -/

theorem lexLt_asymm {α : Type} {lt : α → α → Bool}
    (hasym : ∀ a b, lt a b = true → lt b a = false) :
    ∀ a b, lexLt lt a b = true → lexLt lt b a = false := by
  intro a
  induction a with
  | nil => intro b h; cases b <;> simp_all [lexLt]
  | cons x xs ih =>
      intro b h
      cases b with
      | nil => simp [lexLt] at h
      | cons y ys =>
          simp only [lexLt] at h ⊢
          by_cases h1 : lt x y = true
          · rw [hasym _ _ h1]
            simp [h1]
          · rw [if_neg h1] at h
            by_cases h2 : lt y x = true
            · rw [if_pos h2] at h; cases h
            · rw [if_neg h2] at h
              rw [if_neg h2, if_neg h1]
              exact ih _ h

theorem lexLt_eq_of_not {α : Type} {lt : α → α → Bool}
    (heq : ∀ a b, lt a b = false → lt b a = false → a = b) :
    ∀ a b, lexLt lt a b = false → lexLt lt b a = false → a = b := by
  intro a
  induction a with
  | nil => intro b hab hba; cases b <;> simp_all [lexLt]
  | cons x xs ih =>
      intro b hab hba
      cases b with
      | nil => simp [lexLt] at hba
      | cons y ys =>
          simp only [lexLt] at hab hba
          by_cases h1 : lt x y = true
          · rw [if_pos h1] at hab; cases hab
          · by_cases h2 : lt y x = true
            · rw [if_pos h2] at hba; cases hba
            · rw [if_neg h1, if_neg h2] at hab
              rw [if_neg h2, if_neg h1] at hba
              rw [heq _ _ (Bool.eq_false_iff.mpr h1) (Bool.eq_false_iff.mpr h2),
                ih _ hab hba]

theorem lexLt_trans {α : Type} {lt : α → α → Bool}
    (htr : ∀ a b c, lt a b = true → lt b c = true → lt a c = true)
    (heq : ∀ a b, lt a b = false → lt b a = false → a = b) :
    ∀ a b c, lexLt lt a b = true → lexLt lt b c = true → lexLt lt a c = true := by
  intro a
  induction a with
  | nil =>
      intro b c hab hbc
      cases b with
      | nil => simp [lexLt] at hab
      | cons y ys => cases c <;> simp_all [lexLt]
  | cons x xs ih =>
      intro b c hab hbc
      cases b with
      | nil => simp [lexLt] at hab
      | cons y ys =>
          cases c with
          | nil => simp [lexLt] at hbc
          | cons z zs =>
              simp only [lexLt] at hab hbc ⊢
              by_cases h1 : lt x y = true
              · by_cases h2 : lt y z = true
                · simp [htr _ _ _ h1 h2]
                · rw [if_neg h2] at hbc
                  by_cases h3 : lt z y = true
                  · rw [if_pos h3] at hbc; cases hbc
                  · have hyz := heq _ _ (Bool.eq_false_iff.mpr h2)
                      (Bool.eq_false_iff.mpr h3)
                    subst hyz
                    simp [h1]
              · rw [if_neg h1] at hab
                by_cases h2 : lt y x = true
                · rw [if_pos h2] at hab; cases hab
                · rw [if_neg h2] at hab
                  have hxy := heq _ _ (Bool.eq_false_iff.mpr h1)
                    (Bool.eq_false_iff.mpr h2)
                  subst hxy
                  by_cases h3 : lt x z = true
                  · simp [h3]
                  · rw [if_neg h3] at hbc ⊢
                    by_cases h4 : lt z x = true
                    · rw [if_pos h4] at hbc; cases hbc
                    · rw [if_neg h4] at hbc ⊢
                      exact ih _ _ hab hbc

theorem charLtB_asymm (a b : Char) (h : charLtB a b = true) :
    charLtB b a = false := by
  simp only [charLtB, decide_eq_true_eq] at h
  simp only [charLtB, decide_eq_false_iff_not]
  omega

theorem charLtB_trans (a b c : Char) (hab : charLtB a b = true)
    (hbc : charLtB b c = true) : charLtB a c = true := by
  simp only [charLtB, decide_eq_true_eq] at hab hbc ⊢
  omega

theorem charLtB_eq_of_not (a b : Char) (hab : charLtB a b = false)
    (hba : charLtB b a = false) : a = b := by
  simp only [charLtB, decide_eq_false_iff_not] at hab hba
  have hn : a.toNat = b.toNat := by omega
  have := congrArg Char.ofNat hn
  rwa [Char.ofNat_toNat, Char.ofNat_toNat] at this

theorem nkeLt_asymm (a b : NKElem) (h : nkeLt a b = true) :
    nkeLt b a = false := by
  cases a with
  | num m =>
      cases b with
      | num n =>
          simp only [nkeLt, decide_eq_true_eq] at h
          simp only [nkeLt, decide_eq_false_iff_not]
          omega
      | str t => simp [nkeLt]
  | str s =>
      cases b with
      | num n => simp [nkeLt] at h
      | str t =>
          simp only [nkeLt] at h ⊢
          exact lexLt_asymm charLtB_asymm s t h

theorem nkeLt_trans (a b c : NKElem) (hab : nkeLt a b = true)
    (hbc : nkeLt b c = true) : nkeLt a c = true := by
  cases a with
  | num m =>
      cases b with
      | num n =>
          cases c with
          | num p =>
              simp only [nkeLt, decide_eq_true_eq] at hab hbc ⊢
              omega
          | str t => simp [nkeLt]
      | str t =>
          cases c with
          | num p => simp [nkeLt] at hbc
          | str u => simp [nkeLt]
  | str s =>
      cases b with
      | num n => simp [nkeLt] at hab
      | str t =>
          cases c with
          | num p => simp [nkeLt] at hbc
          | str u =>
              simp only [nkeLt] at hab hbc ⊢
              exact lexLt_trans charLtB_trans charLtB_eq_of_not s t u hab hbc

theorem nkeLt_eq_of_not (a b : NKElem) (hab : nkeLt a b = false)
    (hba : nkeLt b a = false) : a = b := by
  cases a with
  | num m =>
      cases b with
      | num n =>
          simp only [nkeLt, decide_eq_false_iff_not] at hab hba
          have : m = n := by omega
          rw [this]
      | str t => simp [nkeLt] at hab
  | str s =>
      cases b with
      | num n => simp [nkeLt] at hba
      | str t =>
          simp only [nkeLt] at hab hba
          rw [lexLt_eq_of_not charLtB_eq_of_not s t hab hba]

theorem natKeyLe_trans (a b c : Str) (hab : natKeyLe a b)
    (hbc : natKeyLe b c) : natKeyLe a c := by
  simp only [natKeyLe, nkLt, Bool.not_eq_true', Bool.not_eq_false] at hab hbc ⊢
  by_contra hca
  rw [Bool.not_eq_false] at hca
  by_cases h1 : lexLt nkeLt (natural_title_key a) (natural_title_key b) = true
  · have := lexLt_trans nkeLt_trans nkeLt_eq_of_not _ _ _ hca h1
    rw [this] at hbc
    cases hbc
  · have heqk := lexLt_eq_of_not nkeLt_eq_of_not _ _
      (Bool.eq_false_iff.mpr h1) hab
    rw [← heqk] at hbc
    rw [hca] at hbc
    cases hbc

theorem natKeyLe_total (a b : Str) : natKeyLe a b || natKeyLe b a := by
  simp only [natKeyLe, nkLt, Bool.or_eq_true, Bool.not_eq_true']
  rcases h : lexLt nkeLt (natural_title_key b) (natural_title_key a) with _ | _
  · exact Or.inl rfl
  · exact Or.inr (lexLt_asymm nkeLt_asymm _ _ h)

/-! ## Claim C8 -/

/-- C8: the injected manual TOC is the sort of the per-file link lines by
the natural-title key — a permutation of the rendered lines, pairwise
ordered by the key comparison (digit runs numerically, text runs
case-insensitively) — and equals its own exact-text de-duplication when
the rendered lines are distinct; concretely, lines titled Chapter 2,
Chapter 10, Chapter 1 sort into the numeric order 1, 2, 10. -/
theorem C8_toc_contents (fnames : List Str)
    (hnd : (fnames.map tocLineFor).Nodup) :
    (pySortedByNatKey (fnames.map tocLineFor)).Perm (fnames.map tocLineFor) ∧
    (pySortedByNatKey (fnames.map tocLineFor)).Pairwise
      (fun a b => natKeyLe a b = true) ∧
    (pySortedByNatKey (fnames.map tocLineFor)).dedup
      = pySortedByNatKey (fnames.map tocLineFor) ∧
    pySortedByNatKey
      ["- [Chapter 2 — State](chapter-2-state.md)".data,
       "- [Chapter 10 — Extra](chapter-10-extra.md)".data,
       "- [Chapter 1 — Basics](chapter-1-basics.md)".data]
      = ["- [Chapter 1 — Basics](chapter-1-basics.md)".data,
         "- [Chapter 2 — State](chapter-2-state.md)".data,
         "- [Chapter 10 — Extra](chapter-10-extra.md)".data] := by
  have hperm := List.perm_insertionSort
    (fun a b : Str => natKeyLe a b = true) (fnames.map tocLineFor)
  refine ⟨hperm, ?_, ?_, by decide⟩
  · haveI : IsTotal Str (fun a b => natKeyLe a b = true) :=
      ⟨fun a b => (Bool.or_eq_true _ _).mp (natKeyLe_total a b)⟩
    haveI : IsTrans Str (fun a b => natKeyLe a b = true) :=
      ⟨fun a b c => natKeyLe_trans a b c⟩
    exact List.sorted_insertionSort _ _
  · exact List.Nodup.dedup (hperm.nodup_iff.mpr hnd)

/-- C8 witness: the sorted-and-deduplicated conclusion at a concrete
file list. -/
theorem C8_toc_contents_witness :
    (pySortedByNatKey (["chapter-2-state.md".data, "chapter-10-extra.md".data,
       "chapter-1-basics.md".data].map tocLineFor)).dedup
      = pySortedByNatKey (["chapter-2-state.md".data, "chapter-10-extra.md".data,
          "chapter-1-basics.md".data].map tocLineFor) :=
  (C8_toc_contents
    ["chapter-2-state.md".data, "chapter-10-extra.md".data,
     "chapter-1-basics.md".data] (by decide)).2.2.1

/-! ## Filesystem frame lemmas -/

theorem anyCongr {α : Type} {l : List α} {p q : α → Bool}
    (h : ∀ a ∈ l, p a = q a) : l.any p = l.any q := by
  induction l with
  | nil => rfl
  | cons a t ih =>
      simp only [List.any_cons]
      rw [h a (List.mem_cons_self a t), ih (fun b hb => h b (List.mem_cons_of_mem a hb))]

theorem any_eq_of_map_fst_eq {l₁ l₂ : List (SPath × Str)}
    (h : l₁.map Prod.fst = l₂.map Prod.fst) (f : SPath → Bool) :
    l₁.any (fun e => f e.1) = l₂.any (fun e => f e.1) := by
  induction l₁ generalizing l₂ with
  | nil => cases l₂ with
      | nil => rfl
      | cons b t => cases h
  | cons a t ih =>
      cases l₂ with
      | nil => cases h
      | cons b t2 =>
          simp only [List.map_cons] at h
          injection h with h1 h2
          simp only [List.any_cons, h1, ih h2]

theorem setFile_dirs (fs : FileSys) (p : SPath) (c : Str) :
    (setFile fs p c).dirs = fs.dirs := by
  unfold setFile
  split <;> rfl

theorem setFile_map_fst (fs : FileSys) (p : SPath) (c c2 : Str) :
    (setFile fs p c).files.map Prod.fst = (setFile fs p c2).files.map Prod.fst := by
  unfold setFile
  by_cases h : fileExists fs p
  · simp only [if_pos h, List.map_map]
    congr 1
    funext e
    by_cases he : e.1 = p <;> simp [he]
  · simp [if_neg h]

theorem find?_replace {l : List (SPath × Str)} {p : SPath} {c : Str}
    (h : (l.find? (fun e => decide (e.1 = p))).isSome) :
    (l.map (fun e => if e.1 = p then (p, c) else e)).find?
        (fun e => decide (e.1 = p)) = some (p, c) := by
  induction l with
  | nil => simp [List.find?] at h
  | cons e t ih =>
      by_cases he : e.1 = p
      · simp only [List.map_cons, if_pos he, List.find?_cons]
        simp
      · simp only [List.find?_cons] at h
        rw [decide_eq_false he] at h
        simp only at h
        simp only [List.map_cons, if_neg he, List.find?_cons]
        rw [decide_eq_false he]
        simpa using ih h

theorem fileExists_iff_find (fs : FileSys) (p : SPath) :
    fileExists fs p = (fs.files.find? (fun e => decide (e.1 = p))).isSome := by
  unfold fileExists getFile
  cases fs.files.find? (fun e => decide (e.1 = p)) <;> rfl

theorem getFile_setFile_self (fs : FileSys) (p : SPath) (c : Str) :
    getFile (setFile fs p c) p = some c := by
  unfold setFile
  by_cases h : fileExists fs p
  · rw [if_pos h]
    rw [fileExists_iff_find] at h
    unfold getFile
    rw [find?_replace h]
    rfl
  · rw [if_neg h]
    rw [fileExists_iff_find] at h
    unfold getFile
    rw [List.find?_append]
    have hnone : fs.files.find? (fun e => decide (e.1 = p)) = none := by
      cases hf : fs.files.find? (fun e => decide (e.1 = p)) with
      | none => rfl
      | some e => rw [hf] at h; simp at h
    rw [hnone]
    simp [List.find?]

theorem find?_map_replace_ne {l : List (SPath × Str)} {p q : SPath} {c : Str}
    (hq : q ≠ p) :
    (l.map (fun e => if e.1 = p then (p, c) else e)).find?
        (fun e => decide (e.1 = q))
      = l.find? (fun e => decide (e.1 = q)) := by
  induction l with
  | nil => rfl
  | cons e t ih =>
      by_cases he : e.1 = p
      · have hne : (e.1 = q) = False := by
          simp only [eq_iff_iff, iff_false]
          intro hc
          exact hq (hc ▸ he ▸ rfl)
        simp only [List.map_cons, if_pos he, List.find?_cons]
        have : (decide (p = q)) = false := by
          simp only [decide_eq_false_iff_not]
          exact fun hc => hq hc.symm
        rw [this]
        have : (decide (e.1 = q)) = false := by
          simp only [decide_eq_false_iff_not]
          simp only [eq_iff_iff, iff_false] at hne
          exact hne
        rw [this]
        exact ih
      · simp only [List.map_cons, if_neg he, List.find?_cons]
        cases hd : decide (e.1 = q) <;> simp [ih]

theorem getFile_setFile_ne (fs : FileSys) {p q : SPath} (c : Str)
    (hq : q ≠ p) : getFile (setFile fs p c) q = getFile fs q := by
  unfold setFile
  by_cases h : fileExists fs p
  · rw [if_pos h]
    unfold getFile
    rw [find?_map_replace_ne hq]
  · rw [if_neg h]
    unfold getFile
    rw [List.find?_append]
    have hone : [(p, c)].find? (fun e => decide (e.1 = q)) = none := by
      simp only [List.find?_cons, List.find?_nil]
      rw [decide_eq_false (fun hc : (p, c).1 = q => hq hc.symm)]
    rw [hone]
    cases fs.files.find? (fun e => decide (e.1 = q)) <;> rfl

theorem has_markdown_files_recursive_congr {fs₁ fs₂ : FileSys}
    (h : fs₁.files.map Prod.fst = fs₂.files.map Prod.fst) (d : SPath) :
    has_markdown_files_recursive fs₁ d = has_markdown_files_recursive fs₂ d := by
  unfold has_markdown_files_recursive
  exact any_eq_of_map_fst_eq h
    (fun q => d.isPrefixOf q && decide (d.length < q.length) && isMdNotIndex (fileName q))

theorem has_child_dir_with_markdown_congr {fs₁ fs₂ : FileSys}
    (hf : fs₁.files.map Prod.fst = fs₂.files.map Prod.fst)
    (hd : fs₁.dirs = fs₂.dirs) (rel : SPath) :
    has_child_dir_with_markdown fs₁ rel = has_child_dir_with_markdown fs₂ rel := by
  unfold has_child_dir_with_markdown dirExists
  rw [hd]
  congr 1
  exact anyCongr fun c _ => by
    rw [has_markdown_files_recursive_congr hf]

theorem indexTitleParent_congr {fs₁ fs₂ : FileSys} (rel : SPath)
    (hparent : 2 ≤ rel.length →
      getFile fs₁ ("docs".data :: rel.dropLast ++ ["index.md".data])
        = getFile fs₂ ("docs".data :: rel.dropLast ++ ["index.md".data])) :
    indexTitleParent fs₁ rel = indexTitleParent fs₂ rel := by
  unfold indexTitleParent
  by_cases h0 : rel.length = 0
  · simp [h0]
  · by_cases h1 : rel.length = 1
    · simp [h0, h1]
    · have h2 : 2 ≤ rel.length := by omega
      simp only [h0, h1, if_false]
      unfold get_existing_title_for_dir
      rw [hparent h2]

theorem composeIndexContent_congr {fs₁ fs₂ : FileSys} (rel : SPath)
    (nav : Nat) (toc : Option (List Str))
    (hf : fs₁.files.map Prod.fst = fs₂.files.map Prod.fst)
    (hd : fs₁.dirs = fs₂.dirs)
    (hparent : 2 ≤ rel.length →
      getFile fs₁ ("docs".data :: rel.dropLast ++ ["index.md".data])
        = getFile fs₂ ("docs".data :: rel.dropLast ++ ["index.md".data]))
    (hown : preservedTail (getFile fs₁ ("docs".data :: rel ++ ["index.md".data]))
        = preservedTail (getFile fs₂ ("docs".data :: rel ++ ["index.md".data]))) :
    composeIndexContent fs₁ rel nav toc = composeIndexContent fs₂ rel nav toc := by
  unfold composeIndexContent
  rw [indexTitleParent_congr rel hparent,
    has_child_dir_with_markdown_congr hf hd, hown]

/-! ## Leftmost-split lemmas -/

theorem head_eq_of_isPrefixOf {pat : Str} {h0 c : Char} {t : Str}
    (hh : pat.head? = some h0) (hp : pat.isPrefixOf (c :: t) = true) :
    c = h0 := by
  cases pat with
  | nil => cases hh
  | cons p0 ps =>
      cases hh
      simp only [List.isPrefixOf, Bool.and_eq_true, beq_iff_eq] at hp
      exact hp.1.symm

theorem pySplitFirst_of_head_not_mem {pat pre rest : Str} {h0 : Char}
    (hh : pat.head? = some h0) (hnm : h0 ∉ pre) :
    pySplitFirst pat (pre ++ pat ++ rest) = some (pre, rest) := by
  induction pre with
  | nil =>
      rw [List.nil_append]
      unfold pySplitFirst
      rw [if_pos (List.isPrefixOf_iff_prefix.mpr (List.prefix_append pat rest))]
      rw [List.drop_left]
  | cons c pre ih =>
      have hcn : c ≠ h0 := fun hc => hnm (hc ▸ List.mem_cons_self c pre)
      have hpre : pySplitFirst pat (pre ++ pat ++ rest) = some (pre, rest) :=
        ih (fun hm => hnm (List.mem_cons_of_mem c hm))
      rw [List.cons_append, List.cons_append]
      unfold pySplitFirst
      rw [if_neg (fun hp => hcn (head_eq_of_isPrefixOf hh hp))]
      simp only [hpre]

theorem pyContains_sandwich {pat pre rest : Str} {h0 : Char}
    (hh : pat.head? = some h0) (hnm : h0 ∉ pre) :
    pyContains pat (pre ++ pat ++ rest) = true := by
  unfold pyContains
  rw [pySplitFirst_of_head_not_mem hh hnm]
  rfl

/-! ## Claim C5 -/

/-- C5 counterexample: regenerating an existing index does not preserve
the content before the sentinel marker, and a marker-less index is not
treated as preserved prose. With prose on both sides of the marker, the
pre-marker prose is dropped and only the post-marker prose survives; with
no marker at all, the whole existing content is discarded. -/
theorem C5_index_prose_counterexample :
    composeIndexContent cex5fsB ["a".data] 90 none
      = "---\ntitle: A\nnav_order: 90\n---\n\nAfter prose\n".data ∧
    pyContains "My notes.".data
      (composeIndexContent cex5fsB ["a".data] 90 none) = false ∧
    composeIndexContent cex5fs ["a".data] 90 none
      = "---\ntitle: A\nnav_order: 90\n---\n\n".data ∧
    pyContains "My notes.".data
      (composeIndexContent cex5fs ["a".data] 90 none) = false := by
  refine ⟨by decide, by decide, by decide, by decide⟩

/-- C5 amended: regeneration replaces everything before the sentinel
marker with freshly built front matter — the composed index does not
depend on the pre-marker content at all — and preserves only the non-TOC
content found after the marker; when the marker is missing the whole
existing content is discarded (again the composition does not depend on
it), with only the front matter (and any injected TOC) emitted. -/
theorem C5_index_prose (fs : FileSys) (rel : SPath) (nav : Nat)
    (toc : Option (List Str)) (pre pre2 rest c c2 : Str)
    (hp : '<' ∉ pre) (hp2 : '<' ∉ pre2)
    (hc : pyContains TOC_MARKER c = false)
    (hc2 : pyContains TOC_MARKER c2 = false) :
    composeIndexContent
        (setFile fs ("docs".data :: rel ++ ["index.md".data])
          (pre ++ TOC_MARKER ++ rest)) rel nav toc
      = composeIndexContent
        (setFile fs ("docs".data :: rel ++ ["index.md".data])
          (pre2 ++ TOC_MARKER ++ rest)) rel nav toc ∧
    composeIndexContent
        (setFile fs ("docs".data :: rel ++ ["index.md".data]) c) rel nav toc
      = composeIndexContent
        (setFile fs ("docs".data :: rel ++ ["index.md".data]) c2) rel nav toc := by
  have hlen : ∀ h2 : 2 ≤ rel.length,
      ("docs".data :: rel.dropLast ++ ["index.md".data])
        ≠ ("docs".data :: rel ++ ["index.md".data]) := by
    intro h2 he
    have := congrArg List.length he
    simp only [List.length_append, List.length_cons, List.length_dropLast] at this
    omega
  have hm : TOC_MARKER.head? = some '<' := rfl
  constructor
  · apply composeIndexContent_congr rel nav toc (setFile_map_fst ..)
      (by rw [setFile_dirs, setFile_dirs])
    · intro h2
      rw [getFile_setFile_ne _ _ (hlen h2), getFile_setFile_ne _ _ (hlen h2)]
    · rw [getFile_setFile_self, getFile_setFile_self]
      simp only [preservedTail]
      rw [pyContains_sandwich hm hp, pyContains_sandwich hm hp2]
      unfold pySplitMax1
      rw [pySplitFirst_of_head_not_mem hm hp, pySplitFirst_of_head_not_mem hm hp2]
  · apply composeIndexContent_congr rel nav toc (setFile_map_fst ..)
      (by rw [setFile_dirs, setFile_dirs])
    · intro h2
      rw [getFile_setFile_ne _ _ (hlen h2), getFile_setFile_ne _ _ (hlen h2)]
    · rw [getFile_setFile_self, getFile_setFile_self]
      simp only [preservedTail]
      rw [hc, hc2]
      rfl

/-- C5 witness: the amended independence at concrete contents. -/
theorem C5_index_prose_witness :
    composeIndexContent
        (setFile cex5fs ("docs".data :: ["a".data] ++ ["index.md".data])
          ("One\n".data ++ TOC_MARKER ++ "\nKeep\n".data)) ["a".data] 90 none
      = composeIndexContent
        (setFile cex5fs ("docs".data :: ["a".data] ++ ["index.md".data])
          ("Two two\n".data ++ TOC_MARKER ++ "\nKeep\n".data)) ["a".data] 90 none ∧
    composeIndexContent
        (setFile cex5fs ("docs".data :: ["a".data] ++ ["index.md".data])
          "Alpha\n".data) ["a".data] 90 none
      = composeIndexContent
        (setFile cex5fs ("docs".data :: ["a".data] ++ ["index.md".data])
          "Beta\n".data) ["a".data] 90 none :=
  C5_index_prose cex5fs ["a".data] 90 none
    "One\n".data "Two two\n".data "\nKeep\n".data
    "Alpha\n".data "Beta\n".data
    (by decide) (by decide) (by decide) (by decide)

/-! ## Claim C3 -/

/-- The characterization of has_child_dir_with_markdown as an existential
over child directories and descendant files. -/
theorem has_child_dir_with_markdown_iff (fs : FileSys) (rel : SPath) :
    has_child_dir_with_markdown fs rel = true ↔
      (dirExists fs rel = true ∧
       ∃ c ∈ fs.dirs, c.dropLast = rel ∧ c ≠ [] ∧
         fileName c ∉ EXCLUDE_DIRS ∧
         ∃ e ∈ fs.files, c <+: e.1 ∧ c.length < e.1.length ∧
           isMdNotIndex (fileName e.1) = true) := by
  unfold has_child_dir_with_markdown has_markdown_files_recursive
  simp only [Bool.and_eq_true, List.any_eq_true, decide_eq_true_eq,
    Bool.not_eq_true', List.contains, List.elem_eq_mem,
    decide_eq_false_iff_not, List.isPrefixOf_iff_prefix]
  constructor
  · rintro ⟨hex, c, hc, ⟨⟨⟨hdl, hne⟩, hnm⟩, e, he, ⟨hpre, hlt⟩, hmd⟩⟩
    exact ⟨hex, c, hc, hdl, hne, hnm, e, he, hpre, hlt, hmd⟩
  · rintro ⟨hex, c, hc, hdl, hne, hnm, e, he, hpre, hlt, hmd⟩
    exact ⟨hex, c, hc, ⟨⟨⟨hdl, hne⟩, hnm⟩, e, he, ⟨hpre, hlt⟩, hmd⟩⟩

/-- C3 counterexample: in w3 the terraform section has a descendant
directory (terraform/docs) containing a Markdown file, yet its depth-1
file a.md is not hidden — the synced output carries parent and nav_order
and no nav_exclude, because the child is skipped by name in
has_child_dir_with_markdown. -/
theorem C3_nav_visibility_counterexample :
    (["terraform".data, "docs".data] ∈ w3.fs.dirs ∧
     ["terraform".data] <+: ["terraform".data, "docs".data] ∧
     (∃ e ∈ w3.fs.files, e.1.dropLast = ["terraform".data, "docs".data] ∧
        pyEndsWith ".md".data (fileName e.1) = true)) ∧
    should_exclude_files_from_nav w3.fs ["terraform".data] = false ∧
    getFile (runSync false false w3).1.fs
        ["docs".data, "terraform".data, "a.md".data]
      = some "---\ntitle: \"A\"\nparent: Terraform\nnav_order: 1\n---\n\nbody\n".data := by
  refine ⟨⟨by decide, by decide, ?_⟩, by decide, by decide⟩
  exact ⟨(["terraform".data, "docs".data, "x.md".data], "hidden\n".data),
    by decide, by decide, by decide⟩

/-- C3 amended: root files are never hidden; a depth-1 file is hidden iff
its section has an immediate child directory, not named docs, .git or
__pycache__, whose subtree (with no further name exclusions) contains a
Markdown file other than an index page; depth ≥ 2 files are always
hidden. Hidden files get exactly a quoted title plus nav_exclude: true;
visible files get the quoted title, a parent line when one resolves to a
nonempty title, and nav_order. -/
theorem C3_nav_visibility (fs : FileSys) (rel : SPath) :
    (rel.length = 0 → should_exclude_files_from_nav fs rel = false) ∧
    (rel.length = 1 →
      (should_exclude_files_from_nav fs rel = true ↔
        (dirExists fs rel = true ∧
         ∃ c ∈ fs.dirs, c.dropLast = rel ∧ c ≠ [] ∧
           fileName c ∉ EXCLUDE_DIRS ∧
           ∃ e ∈ fs.files, c <+: e.1 ∧ c.length < e.1.length ∧
             isMdNotIndex (fileName e.1) = true))) ∧
    (2 ≤ rel.length → should_exclude_files_from_nav fs rel = true) ∧
    (∀ t pt nav, file_front_matter t true pt nav
      = "---\ntitle: \"".data ++ t ++ "\"\n".data
          ++ "nav_exclude: true\n".data ++ "---\n\n".data) ∧
    (∀ t pt nav, pt.isEmpty = false →
      file_front_matter t false (some pt) nav
        = "---\ntitle: \"".data ++ t ++ "\"\n".data
            ++ "parent: ".data ++ pt ++ "\n".data
            ++ "nav_order: ".data ++ natToStr nav ++ "\n".data
            ++ "---\n\n".data) := by
  refine ⟨?_, ?_, ?_, ?_, ?_⟩
  · intro h0
    unfold should_exclude_files_from_nav
    rw [if_pos h0]
  · intro h1
    unfold should_exclude_files_from_nav
    rw [if_neg (by omega), if_pos h1]
    exact has_child_dir_with_markdown_iff fs rel
  · intro h2
    unfold should_exclude_files_from_nav
    rw [if_neg (by omega), if_neg (by omega)]
  · intro t pt nav
    simp [file_front_matter, List.append_assoc]
  · intro t pt nav hpt
    simp [file_front_matter, hpt, List.append_assoc]

/-- C3 witness: the amended rule applied to the w3 section directory. -/
theorem C3_nav_visibility_witness :
    should_exclude_files_from_nav w3.fs ["terraform".data] = true ↔
      (dirExists w3.fs ["terraform".data] = true ∧
       ∃ c ∈ w3.fs.dirs, c.dropLast = ["terraform".data] ∧ c ≠ [] ∧
         fileName c ∉ EXCLUDE_DIRS ∧
         ∃ e ∈ w3.fs.files, c <+: e.1 ∧ c.length < e.1.length ∧
           isMdNotIndex (fileName e.1) = true) :=
  (C3_nav_visibility w3.fs ["terraform".data]).2.1 rfl

/-! ## Claim C7 -/

/-- Substring containment holds wherever an occurrence sits. -/
theorem pyContains_append_mid (pat a b : Str) :
    pyContains pat (a ++ (pat ++ b)) = true := by
  induction a with
  | nil =>
      unfold pyContains pySplitFirst
      rw [List.nil_append,
        if_pos (List.isPrefixOf_iff_prefix.mpr (List.prefix_append pat b))]
      rfl
  | cons c a ih =>
      unfold pyContains at ih ⊢
      rw [List.cons_append]
      unfold pySplitFirst
      by_cases hp : pat.isPrefixOf (c :: (a ++ (pat ++ b))) = true
      · rw [if_pos hp]
        rfl
      · rw [if_neg hp]
        obtain ⟨pr, hpr⟩ := Option.isSome_iff_exists.mp ih
        obtain ⟨x, y⟩ := pr
        simp only [hpr]
        rfl

/-- When TOC lines are present, the assembled index contains the
sentinel marker. -/
theorem pyContains_marker_assemble (cb : Str) (l : List Str)
    (hne : l.isEmpty = false) :
    pyContains TOC_MARKER (assembleIndexContent cb (some l)) = true := by
  simp only [assembleIndexContent]
  rw [hne]
  rw [if_neg (fun hc : (false = true) => Bool.noConfusion hc)]
  have hend : ∀ x : Str, pyEndsWith "\n".data (x ++ "\n".data) = true := by
    intro x
    unfold pyEndsWith
    exact List.isSuffixOf_iff_suffix.mpr (List.suffix_append x "\n".data)
  rw [if_pos (hend _)]
  simp only [List.append_assoc]
  exact pyContains_append_mid TOC_MARKER _ _

/-- C7 counterexample: in w7 the depth-2 directory t/b has a descendant
directory (t/b/docs) containing a Markdown file, yet a manual TOC is
injected into its index, because the excluded-name child is skipped when
deciding leafness. -/
theorem C7_toc_gating_counterexample :
    (["t".data, "b".data, "docs".data] ∈ w7.fs.dirs ∧
     ["t".data, "b".data] <+: ["t".data, "b".data, "docs".data] ∧
     (∃ e ∈ w7.fs.files,
        e.1.dropLast = ["t".data, "b".data, "docs".data] ∧
        pyEndsWith ".md".data (fileName e.1) = true)) ∧
    pyContains TOC_MARKER
      ((getFile (runSync false false w7).1.fs
          ["docs".data, "t".data, "b".data, "index.md".data]).getD []) = true := by
  refine ⟨⟨by decide, by decide, ?_⟩, by decide⟩
  exact ⟨(["t".data, "b".data, "docs".data, "x.md".data], "hidden\n".data),
    by decide, by decide, by decide⟩

/-- C7 amended: manual-TOC lines are produced for a directory iff it is
at depth ≥ 2, has no immediate child directory outside the excluded
names whose subtree contains non-index Markdown, and has direct non-index
Markdown files of its own; when lines are produced the composed index
contains the sentinel marker. Directories at depth 0 or 1 never get
lines. -/
theorem C7_toc_gating (fs : FileSys) (rel : SPath) (md_files : List Str)
    (nav : Nat) :
    ((tocToInject fs rel md_files).getD [] ≠ [] ↔
      (2 ≤ rel.length ∧ has_child_dir_with_markdown fs rel = false ∧
        md_files ≠ [])) ∧
    (rel.length ≤ 1 → tocToInject fs rel md_files = none) ∧
    (2 ≤ rel.length → has_child_dir_with_markdown fs rel = false →
      md_files ≠ [] →
      pyContains TOC_MARKER
        (composeIndexContent fs rel nav (tocToInject fs rel md_files)) = true) := by
  refine ⟨?_, ?_, ?_⟩
  · unfold tocToInject
    by_cases h2 : 2 ≤ rel.length
    · by_cases hsub : has_child_dir_with_markdown fs rel = true
      · rw [if_neg (fun hc => by rw [hsub] at hc; exact Bool.noConfusion hc.2)]
        refine iff_of_false (by simp) ?_
        rintro ⟨_, hfalse, _⟩
        rw [hfalse] at hsub
        exact Bool.noConfusion hsub
      · have hsub2 : has_child_dir_with_markdown fs rel = false :=
          Bool.eq_false_iff.mpr hsub
        rw [if_pos ⟨h2, by rw [hsub2]; rfl⟩]
        simp only [Option.getD_some, ne_eq]
        constructor
        · intro h
          refine ⟨h2, hsub2, fun hmd => h ?_⟩
          rw [hmd]
          rfl
        · rintro ⟨_, _, hmd⟩ hmap
          exact hmd (List.map_eq_nil_iff.mp hmap)
    · rw [if_neg (fun hc => h2 hc.1)]
      refine iff_of_false (by simp) (fun h => h2 h.1)
  · intro h1
    unfold tocToInject
    rw [if_neg (by intro hc; omega)]
  · intro h2 hsub hmd
    have hne : (md_files.map tocLineFor).isEmpty = false := by
      cases md_files with
      | nil => exact absurd rfl hmd
      | cons a t => rfl
    unfold tocToInject
    rw [if_pos ⟨h2, by rw [hsub]; rfl⟩]
    unfold composeIndexContent
    exact pyContains_marker_assemble _ _ hne

/-- C7 witness: the amended gating at the w7 leaf directory. -/
theorem C7_toc_gating_witness :
    pyContains TOC_MARKER
      (composeIndexContent w7.fs ["t".data, "b".data] 10
        (tocToInject w7.fs ["t".data, "b".data] ["a.md".data])) = true :=
  (C7_toc_gating w7.fs ["t".data, "b".data] ["a.md".data] 10).2.2
    (by decide) (by decide) (by decide)

/-! ## Claim C2 -/

theorem foldl_st_inv (P : Ev → Prop) {β : Type} (f : SyncSt → β → SyncSt)
    (hf : ∀ s b, (f s b).fs.files = s.fs.files ∧
      ∀ e ∈ (f s b).events, e ∈ s.events ∨ P e)
    (l : List β) (st : SyncSt) :
    (l.foldl f st).fs.files = st.fs.files ∧
    ∀ e ∈ (l.foldl f st).events, e ∈ st.events ∨ P e := by
  induction l generalizing st with
  | nil => exact ⟨rfl, fun e he => Or.inl he⟩
  | cons b t ih =>
      simp only [List.foldl_cons]
      obtain ⟨hfs, hev⟩ := ih (f st b)
      refine ⟨hfs.trans (hf st b).1, fun e he => ?_⟩
      rcases hev e he with h | h
      · exact (hf st b).2 e h
      · exact Or.inr h

theorem mkdirParents_st_inv (st : SyncSt) (p : SPath) :
    (mkdirParents st p).fs.files = st.fs.files ∧
    ∀ e ∈ (mkdirParents st p).events, e ∈ st.events ∨
      (e.isMutation = true → ∃ q, e = Ev.mkdirE q) := by
  unfold mkdirParents
  refine foldl_st_inv _ _ (fun s q => ?_) _ st
  by_cases h : dirExists s.fs q
  · rw [if_pos h]
    exact ⟨rfl, fun e he => Or.inl he⟩
  · rw [if_neg h]
    refine ⟨rfl, fun e he => ?_⟩
    rcases List.mem_append.mp he with h1 | h1
    · exact Or.inl h1
    · rcases List.mem_singleton.mp h1 with rfl
      exact Or.inr fun _ => ⟨q, rfl⟩

theorem syncOneFile_dry (cache : List (Str × Str)) (rel : SPath) (se : Bool)
    (pt : Option Str) (st : SyncSt) (i : Nat) (f : Str) :
    (syncOneFile cache true rel se pt st i f).fs.files = st.fs.files ∧
    ∀ e ∈ (syncOneFile cache true rel se pt st i f).events,
      e ∈ st.events ∨ (e.isMutation = true → ∃ q, e = Ev.mkdirE q) := by
  simp only [syncOneFile, if_true, List.append_nil]
  split
  · split
    · split
      · refine ⟨rfl, fun e he => ?_⟩
        simp only [List.mem_append, List.mem_singleton, or_assoc] at he
        rcases he with h | rfl | rfl
        · exact Or.inl h
        · exact Or.inr fun hm => Bool.noConfusion hm
        · exact Or.inr fun hm => Bool.noConfusion hm
      · refine ⟨rfl, fun e he => ?_⟩
        simp only [List.mem_append, List.mem_singleton] at he
        rcases he with h | rfl
        · exact Or.inl h
        · exact Or.inr fun hm => Bool.noConfusion hm
    · refine ⟨rfl, fun e he => ?_⟩
      simp only [List.mem_append, List.mem_singleton] at he
      rcases he with h | rfl
      · exact Or.inl h
      · exact Or.inr fun hm => Bool.noConfusion hm
  · exact ⟨rfl, fun e he => Or.inl he⟩

theorem indexUpdateStep_dry (st : SyncSt) (rel : SPath) (nav : Nat)
    (toc : Option (List Str)) :
    (indexUpdateStep true st rel nav toc).fs.files = st.fs.files ∧
    ∀ e ∈ (indexUpdateStep true st rel nav toc).events,
      e ∈ st.events ∨ (e.isMutation = true → ∃ q, e = Ev.mkdirE q) := by
  simp only [indexUpdateStep, if_true, List.append_nil]
  split
  · exact ⟨rfl, fun e he => Or.inl he⟩
  · refine ⟨rfl, fun e he => ?_⟩
    simp only [List.mem_append, List.mem_singleton] at he
    rcases he with h | rfl
    · exact Or.inl h
    · exact Or.inr fun hm => Bool.noConfusion hm

theorem dirStep_dry (cache : List (Str × Str)) (st : SyncSt) (rel : SPath) :
    (dirStep cache true st rel).fs.files = st.fs.files ∧
    ∀ e ∈ (dirStep cache true st rel).events,
      e ∈ st.events ∨ (e.isMutation = true → ∃ q, e = Ev.mkdirE q) := by
  simp only [dirStep]
  split
  · exact ⟨rfl, fun e he => Or.inl he⟩
  · split
    · exact ⟨rfl, fun e he => Or.inl he⟩
    · constructor
      · exact (indexUpdateStep_dry _ _ _ _).1.trans
          (((foldl_st_inv (fun e => e.isMutation = true → ∃ q, e = Ev.mkdirE q) _
            (fun s (b : Nat × Str) => syncOneFile_dry _ _ _ _ s b.1 b.2) _ _).1).trans
            (mkdirParents_st_inv st _).1)
      · intro e he
        rcases (indexUpdateStep_dry _ _ _ _).2 e he with h | h
        · rcases (foldl_st_inv (fun e => e.isMutation = true → ∃ q, e = Ev.mkdirE q) _
              (fun s (b : Nat × Str) => syncOneFile_dry _ _ _ _ s b.1 b.2) _ _).2 e h with h2 | h2
          · rcases (mkdirParents_st_inv st _).2 e h2 with h3 | h3
            · exact Or.inl h3
            · exact Or.inr h3
          · exact Or.inr h2
        · exact Or.inr h

theorem orphanFileStep_dry (s : SyncSt) (b : SPath × Str) :
    (orphanFileStep true s b).fs.files = s.fs.files ∧
    ∀ e ∈ (orphanFileStep true s b).events,
      e ∈ s.events ∨ (e.isMutation = true → ∃ q, e = Ev.mkdirE q) := by
  simp only [orphanFileStep, if_true, List.append_nil]
  split
  · split
    · exact ⟨rfl, fun e he => Or.inl he⟩
    · split
      · refine ⟨rfl, fun e he => ?_⟩
        simp only [List.mem_append, List.mem_singleton] at he
        rcases he with h | rfl
        · exact Or.inl h
        · exact Or.inr fun hm => Bool.noConfusion hm
      · exact ⟨rfl, fun e he => Or.inl he⟩
  · exact ⟨rfl, fun e he => Or.inl he⟩

theorem orphanDirStep_dry (s : SyncSt) (d : SPath) :
    (orphanDirStep true s d).fs.files = s.fs.files ∧
    ∀ e ∈ (orphanDirStep true s d).events,
      e ∈ s.events ∨ (e.isMutation = true → ∃ q, e = Ev.mkdirE q) := by
  simp only [orphanDirStep, if_true]
  split
  · refine ⟨rfl, fun e he => ?_⟩
    simp only [List.mem_append, List.mem_singleton] at he
    rcases he with h | rfl
    · exact Or.inl h
    · exact Or.inr fun hm => Bool.noConfusion hm
  · exact ⟨rfl, fun e he => Or.inl he⟩

theorem clean_orphaned_files_dry (st : SyncSt) :
    (clean_orphaned_files true st).fs.files = st.fs.files ∧
    ∀ e ∈ (clean_orphaned_files true st).events,
      e ∈ st.events ∨ (e.isMutation = true → ∃ q, e = Ev.mkdirE q) := by
  simp only [clean_orphaned_files]
  obtain ⟨h1f, h1e⟩ := foldl_st_inv
    (fun e => e.isMutation = true → ∃ q, e = Ev.mkdirE q)
    (orphanFileStep true) orphanFileStep_dry
    (st.fs.files.filter (fun e => decide (e.1.head? = some "docs".data))) st
  obtain ⟨h2f, h2e⟩ := foldl_st_inv
    (fun e => e.isMutation = true → ∃ q, e = Ev.mkdirE q)
    (orphanDirStep true) orphanDirStep_dry
    ((((st.fs.files.filter (fun e => decide (e.1.head? = some "docs".data))).foldl
        (orphanFileStep true) st).fs.dirs.filter
      (fun d => decide (d.head? = some "docs".data) &&
        decide (d ≠ ["docs".data]))).reverse)
    ((st.fs.files.filter (fun e => decide (e.1.head? = some "docs".data))).foldl
      (orphanFileStep true) st)
  refine ⟨h2f.trans h1f, fun e he => ?_⟩
  rcases h2e e he with h | h
  · exact h1e e h
  · exact Or.inr h

/-- C2 amended: a dry run performs no file writes, no file deletions, no
directory removals and leaves the hash-cache file untouched; it does,
however, create missing output directories (target_dir.mkdir is not
guarded by the dry-run flag), and its logged change-set can differ from
a live run's because later decisions read output files that only a live
run writes. -/
theorem C2_dry_run_no_writes (w : World) (clean : Bool) :
    (runSync true clean w).1.fs.files = w.fs.files ∧
    (runSync true clean w).1.cacheFile = w.cacheFile ∧
    ∀ e ∈ (runSync true clean w).2,
      e.isMutation = true → ∃ p, e = Ev.mkdirE p := by
  simp only [runSync, Bool.not_true, Bool.false_eq_true, and_false, false_and,
    if_false, ite_self, if_true, List.append_nil]
  refine ⟨?_, trivial, ?_⟩
  · exact (clean_orphaned_files_dry _).1.trans
      ((foldl_st_inv (fun e => e.isMutation = true → ∃ q, e = Ev.mkdirE q) _
        (fun s b => dirStep_dry _ s b) _ _).1)
  · intro e he
    rcases (clean_orphaned_files_dry _).2 e he with h | h
    · rcases (foldl_st_inv (fun e => e.isMutation = true → ∃ q, e = Ev.mkdirE q) _
          (fun s b => dirStep_dry _ s b) _ _).2 e h with h2 | h2
      · exact absurd h2 (List.not_mem_nil e)
      · exact h2
    · exact h

/-- C2 counterexample: a dry run is not free of filesystem mutation — it
creates output directories — and its logged change-set differs from the
live run's on w2, where the live run's rename deletion depends on an
output file written earlier in the same run. -/
theorem C2_dry_run_counterexample :
    Ev.mkdirE ["docs".data] ∈ (runSync true false w2).2 ∧
    (runSync true false w2).1.fs.dirs ≠ w2.fs.dirs ∧
    ((runSync true false w2).2.filter Ev.isChangeLog)
      ≠ ((runSync false false w2).2.filter Ev.isChangeLog) := by
  refine ⟨by decide, by decide, by decide⟩

/-- C2 witness: the amended dry-run guarantee at the concrete world w2. -/
theorem C2_dry_run_no_writes_witness :
    (runSync true false w2).1.fs.files = w2.fs.files ∧
    (runSync true false w2).1.cacheFile = w2.cacheFile ∧
    ∀ e ∈ (runSync true false w2).2,
      e.isMutation = true → ∃ p, e = Ev.mkdirE p :=
  C2_dry_run_no_writes w2 false

/-! ## Claim C4: filesystem frame lemmas -/

theorem find?_isSome_eq_any {α : Type} (q : α → Bool) (l : List α) :
    (l.find? q).isSome = l.any q := by
  induction l with
  | nil => rfl
  | cons a t ih =>
      rw [List.find?_cons, List.any_cons]
      cases q a <;> simp [ih]

theorem fileExists_eq_any (fs : FileSys) (p : SPath) :
    fileExists fs p = fs.files.any (fun e => decide (e.1 = p)) := by
  rw [fileExists_iff_find, find?_isSome_eq_any]

theorem dirExists_iff (fs : FileSys) (p : SPath) :
    dirExists fs p = true ↔ p ∈ fs.dirs := by
  simp [dirExists]

theorem any_filter_keep {α : Type} (keep pb : α → Bool) (l : List α)
    (h : ∀ a, pb a = true → keep a = true) :
    (l.filter keep).any pb = l.any pb := by
  induction l with
  | nil => rfl
  | cons a t ih =>
      rw [List.filter_cons]
      cases hk : keep a with
      | true => rw [if_pos rfl, List.any_cons, List.any_cons, ih]
      | false =>
          rw [if_neg (by simp), List.any_cons, ih]
          cases hp : pb a with
          | false => rfl
          | true => rw [h a hp] at hk; cases hk

theorem inDocs_cons_docs (t : SPath) : inDocs ("docs".data :: t) = true := by
  simp [inDocs]

theorem fileExists_congr_frame {w : World} {s : SyncSt}
    (hf : liveFrame w s) {p : SPath} (hp : inDocs p = false) :
    fileExists s.fs p = fileExists w.fs p := by
  have h1 : ∀ e : SPath × Str, decide (e.1 = p) = true → (!inDocs e.1) = true := by
    intro e he
    rw [of_decide_eq_true he, hp]
    rfl
  rw [fileExists_eq_any, fileExists_eq_any, ← any_filter_keep _ _ s.fs.files h1,
    hf.1, any_filter_keep _ _ w.fs.files h1]

theorem mem_of_frame {w : World} {s : SyncSt} (hf : liveFrame w s)
    {e : SPath × Str} (he : e ∈ w.fs.files) (hp : inDocs e.1 = false) :
    e ∈ s.fs.files := by
  have hm : e ∈ s.fs.files.filter (fun x => !inDocs x.1) := by
    rw [hf.1]
    exact List.mem_filter.mpr ⟨he, by rw [hp]; rfl⟩
  exact (List.mem_filter.mp hm).1

theorem filter_notDocs_map_replace (l : List (SPath × Str)) (p : SPath) (c : Str)
    (hp : inDocs p = true) :
    (l.map (fun e => if e.1 = p then (p, c) else e)).filter (fun e => !inDocs e.1)
      = l.filter (fun e => !inDocs e.1) := by
  induction l with
  | nil => rfl
  | cons e t ih =>
      by_cases hep : e.1 = p
      · have h1 : (!inDocs ((p, c) : SPath × Str).1) = false := by
          show (!inDocs p) = false
          rw [hp]; rfl
        have h2 : (!inDocs e.1) = false := by rw [hep, hp]; rfl
        rw [List.map_cons, if_pos hep, List.filter_cons, List.filter_cons, h1, h2]
        rw [if_neg (by simp), if_neg (by simp)]
        exact ih
      · rw [List.map_cons, if_neg hep, List.filter_cons, List.filter_cons]
        cases hq : (!inDocs e.1) with
        | true => rw [if_pos rfl, if_pos rfl, ih]
        | false => rw [if_neg (by simp), if_neg (by simp), ih]

theorem filter_notDocs_setFile (fs : FileSys) {p : SPath} (c : Str)
    (hp : inDocs p = true) :
    (setFile fs p c).files.filter (fun e => !inDocs e.1)
      = fs.files.filter (fun e => !inDocs e.1) := by
  unfold setFile
  by_cases h : fileExists fs p
  · rw [if_pos h]
    exact filter_notDocs_map_replace fs.files p c hp
  · rw [if_neg h]
    dsimp only
    rw [List.filter_append]
    have h1 : [(p, c)].filter (fun e : SPath × Str => !inDocs e.1) = [] := by
      have hb : (!inDocs ((p, c) : SPath × Str).1) = false := by
        show (!inDocs p) = false
        rw [hp]; rfl
      rw [List.filter_cons, hb, if_neg (by simp), List.filter_nil]
    rw [h1, List.append_nil]

theorem filter_notDocs_filter_ne (l : List (SPath × Str)) (p : SPath)
    (hp : inDocs p = true) :
    (l.filter (fun e => decide (e.1 ≠ p))).filter (fun e => !inDocs e.1)
      = l.filter (fun e => !inDocs e.1) := by
  induction l with
  | nil => rfl
  | cons e t ih =>
      by_cases hep : e.1 = p
      · have h2 : (!inDocs e.1) = false := by rw [hep, hp]; rfl
        have hd : decide (e.1 ≠ p) = false := by simp [hep]
        rw [List.filter_cons, hd, if_neg (by simp), List.filter_cons, h2,
          if_neg (by simp), ih]
      · have hd : decide (e.1 ≠ p) = true := by simp [hep]
        rw [List.filter_cons, hd, if_pos rfl, List.filter_cons, List.filter_cons]
        cases hq : (!inDocs e.1) with
        | true => rw [if_pos rfl, if_pos rfl, ih]
        | false => rw [if_neg (by simp), if_neg (by simp), ih]

theorem filter_notDocs_delFile (fs : FileSys) {p : SPath}
    (hp : inDocs p = true) :
    (delFile fs p).files.filter (fun e => !inDocs e.1)
      = fs.files.filter (fun e => !inDocs e.1) := by
  unfold delFile
  dsimp only
  exact filter_notDocs_filter_ne fs.files p hp

theorem delFile_dirs (fs : FileSys) (p : SPath) : (delFile fs p).dirs = fs.dirs := rfl

theorem fileExists_setFile_self (fs : FileSys) (p : SPath) (c : Str) :
    fileExists (setFile fs p c) p = true := by
  unfold fileExists
  rw [getFile_setFile_self]
  rfl

theorem fileExists_setFile_mono (fs : FileSys) {p q : SPath} (c : Str)
    (h : fileExists fs q = true) : fileExists (setFile fs p c) q = true := by
  by_cases hqp : q = p
  · subst hqp
    exact fileExists_setFile_self fs q c
  · unfold fileExists at h ⊢
    rw [getFile_setFile_ne fs c hqp]
    exact h

theorem fileExists_delFile_ne (fs : FileSys) {p q : SPath} (h : q ≠ p) :
    fileExists (delFile fs p) q = fileExists fs q := by
  rw [fileExists_eq_any, fileExists_eq_any]
  unfold delFile
  dsimp only
  refine any_filter_keep _ _ _ (fun e he => ?_)
  rw [of_decide_eq_true he]
  exact decide_eq_true h

theorem fileExists_delFile_self (fs : FileSys) (p : SPath) :
    fileExists (delFile fs p) p = false := by
  rw [fileExists_eq_any]
  unfold delFile
  dsimp only
  cases hx : (fs.files.filter fun e => decide (e.1 ≠ p)).any
      (fun e => decide (e.1 = p)) with
  | false => rfl
  | true =>
      obtain ⟨e, hmem, hq⟩ := List.any_eq_true.mp hx
      have hk := (List.mem_filter.mp hmem).2
      exact absurd (of_decide_eq_true hq) (of_decide_eq_true hk)

theorem fileExists_delFile_false (fs : FileSys) (p q : SPath)
    (h : fileExists fs q = false) : fileExists (delFile fs p) q = false := by
  by_cases hqp : q = p
  · subst hqp
    exact fileExists_delFile_self fs q
  · rw [fileExists_delFile_ne fs hqp]
    exact h

/-! ## Claim C4: the md-file scan only reads the source tree -/

theorem fileName_concat (l : SPath) (x : Str) : fileName (l ++ [x]) = x := by
  unfold fileName
  exact List.getLastD_concat _ _ _

theorem mdFilter_factor (l : List (SPath × Str)) (rel : SPath) :
    (l.filterMap (fun e =>
        if e.1.dropLast = rel ∧ e.1 ≠ [] then some (fileName e.1) else none)).filter
      isMdNotIndex
    = l.filterMap (fun e =>
        if e.1.dropLast = rel ∧ e.1 ≠ [] ∧ isMdNotIndex (fileName e.1) = true
        then some (fileName e.1) else none) := by
  rw [List.filter_filterMap]
  refine List.filterMap_congr (fun e _ => ?_)
  by_cases h1 : e.1.dropLast = rel ∧ e.1 ≠ []
  · rw [if_pos h1]
    cases h2 : isMdNotIndex (fileName e.1) with
    | true =>
        rw [if_pos ⟨h1.1, h1.2, rfl⟩]
        simp [Option.filter, h2]
    | false =>
        rw [if_neg (fun hc => Bool.noConfusion hc.2.2)]
        simp [Option.filter, h2]
  · rw [if_neg h1, if_neg (fun hc => h1 ⟨hc.1, hc.2.1⟩)]
    rfl

theorem filterMap_vanish_docs (g : SPath × Str → Option Str)
    (hg : ∀ e, inDocs e.1 = true → g e = none) (l : List (SPath × Str)) :
    l.filterMap g = (l.filter (fun e => !inDocs e.1)).filterMap g := by
  induction l with
  | nil => rfl
  | cons e t ih =>
      cases hd : inDocs e.1 with
      | true =>
          rw [List.filter_cons, hd, if_neg (by simp)]
          simp only [List.filterMap_cons]
          rw [hg e hd]
          exact ih
      | false =>
          have hkeep : (!inDocs e.1) = true := by rw [hd]; rfl
          rw [List.filter_cons, hkeep, if_pos rfl]
          simp only [List.filterMap_cons]
          rw [ih]

theorem mdFilter_congr {w : World} {s : SyncSt} (hf : liveFrame w s)
    {rel : SPath} (hrel : rel = [] ∨ rel.head? ≠ some "docs".data) :
    (directFiles s.fs rel).filter isMdNotIndex
      = (directFiles w.fs rel).filter isMdNotIndex := by
  unfold directFiles
  rw [mdFilter_factor, mdFilter_factor]
  have hg : ∀ e : SPath × Str, inDocs e.1 = true →
      (if e.1.dropLast = rel ∧ e.1 ≠ [] ∧ isMdNotIndex (fileName e.1) = true
       then some (fileName e.1) else none) = none := by
    intro e hd
    rw [if_neg]
    rintro ⟨hdl, hne, hmd⟩
    have hdd : e.1.head? = some "docs".data := of_decide_eq_true hd
    rcases List.eq_nil_or_concat e.1 with h0 | ⟨l2, x, hx⟩
    · exact hne h0
    · rw [List.concat_eq_append] at hx
      rw [hx, List.dropLast_concat] at hdl
      subst hdl
      rw [hx, fileName_concat] at hmd
      cases l2 with
      | nil =>
          rw [hx] at hdd
          simp only [List.nil_append, List.head?_cons, Option.some.injEq] at hdd
          rw [hdd] at hmd
          exact absurd hmd (by decide)
      | cons a t =>
          rcases hrel with h | h
          · cases h
          · rw [hx, List.cons_append, List.head?_cons] at hdd
            exact h (by rw [List.head?_cons]; exact hdd)
  rw [filterMap_vanish_docs _ hg s.fs.files, filterMap_vanish_docs _ hg w.fs.files,
    hf.1]

theorem mem_mdFilter {fs : FileSys} {rel : SPath} {f c : Str}
    (hmem : (rel ++ [f], c) ∈ fs.files) (hmd : isMdNotIndex f = true) :
    f ∈ (directFiles fs rel).filter isMdNotIndex := by
  rw [List.mem_filter]
  refine ⟨?_, hmd⟩
  unfold directFiles
  rw [List.mem_filterMap]
  refine ⟨(rel ++ [f], c), hmem, ?_⟩
  rw [if_pos ⟨List.dropLast_concat, by simp⟩, fileName_concat]

theorem of_mem_mdFilter {fs : FileSys} {rel : SPath} {f : Str}
    (h : f ∈ (directFiles fs rel).filter isMdNotIndex) :
    ∃ c, (rel ++ [f], c) ∈ fs.files := by
  obtain ⟨hd, _⟩ := List.mem_filter.mp h
  unfold directFiles at hd
  obtain ⟨e, he, hsome⟩ := List.mem_filterMap.mp hd
  by_cases hc : e.1.dropLast = rel ∧ e.1 ≠ []
  · rw [if_pos hc] at hsome
    rcases List.eq_nil_or_concat e.1 with h0 | ⟨l2, x, hx⟩
    · exact absurd h0 hc.2
    · obtain ⟨hdl, hne⟩ := hc
      rw [List.concat_eq_append] at hx
      rw [hx, List.dropLast_concat] at hdl
      subst hdl
      rw [hx, fileName_concat] at hsome
      injection hsome with hxf
      subst hxf
      refine ⟨e.2, ?_⟩
      rw [← hx]
      exact he
  · rw [if_neg hc] at hsome
    cases hsome

theorem mem_pySortedStr {f : Str} {l : List Str} : f ∈ pySortedStr l ↔ f ∈ l := by
  unfold pySortedStr
  exact (List.perm_insertionSort _ l).mem_iff

theorem head_of_prefix_cons {q : SPath} {a : Str} {l : List Str}
    (hq : q <+: (a :: l)) (hne : q ≠ []) : ∃ t, q = a :: t := by
  obtain ⟨r, hr⟩ := hq
  cases q with
  | nil => exact absurd rfl hne
  | cons b t =>
      rw [List.cons_append] at hr
      injection hr with h1 _
      exact ⟨t, by rw [h1]⟩

theorem foldl_inv_mem {β : Type} (Q : SyncSt → Prop) (f : SyncSt → β → SyncSt) :
    ∀ (l : List β) (st : SyncSt),
      (∀ s b, b ∈ l → Q s → Q (f s b)) → Q st → Q (l.foldl f st) := by
  intro l
  induction l with
  | nil => exact fun st _ h => h
  | cons b t ih =>
      intro st hf h
      rw [List.foldl_cons]
      exact ih _ (fun s b2 hb2 => hf s b2 (List.mem_cons_of_mem _ hb2))
        (hf st b (List.mem_cons_self _ _) h)

/-! ## Claim C4: the live pipeline steps preserve the rename invariants -/

theorem mkdirParents_live (st : SyncSt) (rel : SPath) :
    (mkdirParents st ("docs".data :: rel)).fs.files = st.fs.files ∧
    (mkdirParents st ("docs".data :: rel)).updated = st.updated ∧
    ∀ d : SPath, inDocs d = false →
      ((d ∈ (mkdirParents st ("docs".data :: rel)).fs.dirs) ↔ d ∈ st.fs.dirs) := by
  unfold mkdirParents
  refine foldl_inv_mem
    (fun s => s.fs.files = st.fs.files ∧ s.updated = st.updated ∧
      ∀ d : SPath, inDocs d = false → ((d ∈ s.fs.dirs) ↔ d ∈ st.fs.dirs))
    _ _ st ?_ ⟨rfl, rfl, fun _ _ => Iff.rfl⟩
  intro s q hq hQ
  obtain ⟨h1, h2, h3⟩ := hQ
  by_cases hd : dirExists s.fs q
  · rw [if_pos hd]
    exact ⟨h1, h2, h3⟩
  · rw [if_neg hd]
    refine ⟨h1, h2, fun d hdd => ?_⟩
    have hqdocs : inDocs q = true := by
      obtain ⟨hqi, hqne⟩ := List.mem_filter.mp hq
      obtain ⟨t, ht⟩ :=
        head_of_prefix_cons ((List.mem_inits _ _).mp hqi) (of_decide_eq_true hqne)
      rw [ht]
      exact inDocs_cons_docs t
    dsimp only
    rw [List.mem_append, List.mem_singleton]
    constructor
    · rintro (hm | rfl)
      · exact (h3 d hdd).mp hm
      · rw [hqdocs] at hdd
        cases hdd
    · intro hm
      exact Or.inl ((h3 d hdd).mpr hm)

theorem syncOneFile_live (w : World) (oldRel newRel : SPath)
    (cache : List (Str × Str)) (rel : SPath) (se : Bool) (pt : Option Str)
    (st : SyncSt) (i : Nat) (fname : Str)
    (hC : ∀ kv ∈ cache, splitPath kv.1 ≠ newRel)
    (hkey : joinPath (rel ++ [fname]) ≠ joinPath oldRel)
    (hJ : renameInv w oldRel st) :
    renameInv w oldRel (syncOneFile cache false rel se pt st i fname) ∧
    (fileExists st.fs ("docs".data :: newRel) = true →
      fileExists (syncOneFile cache false rel se pt st i fname).fs
        ("docs".data :: newRel) = true) := by
  obtain ⟨⟨hfr, hdr⟩, hup⟩ := hJ
  have hupT : ∀ kv ∈ st.updated ++
      [(joinPath (rel ++ [fname]), sha256 (file_front_matter
        (parse_chapter_title fname).2 se pt
        ((parse_chapter_title fname).1.getD (i + 1)) ++
        (getFile st.fs (rel ++ [fname])).getD []))],
      kv.1 ≠ joinPath oldRel := by
    intro kv hkv
    rcases List.mem_append.mp hkv with h | h
    · exact hup kv h
    · rw [List.mem_singleton] at h
      rw [h]
      exact hkey
  simp only [syncOneFile, Bool.false_eq_true, if_false]
  split
  · split
    · split
      · -- rename-branch deletion, then the write
        rename_i old_key hrg hfe
        have hne : ("docs".data :: newRel) ≠ ("docs".data :: splitPath old_key) := by
          intro hcontra
          injection hcontra with _ h2
          exact hC _ (reverseGet_mem hrg) h2.symm
        refine ⟨⟨⟨?_, ?_⟩, ?_⟩, ?_⟩
        · exact (filter_notDocs_setFile _ _ (inDocs_cons_docs _)).trans
            ((filter_notDocs_delFile _ (inDocs_cons_docs _)).trans hfr)
        · intro d hdd
          exact Iff.trans (by rw [setFile_dirs, delFile_dirs]) (hdr d hdd)
        · exact hupT
        · intro hP
          exact fileExists_setFile_mono _ _
            ((fileExists_delFile_ne _ hne).trans hP)
      · refine ⟨⟨⟨?_, ?_⟩, ?_⟩, ?_⟩
        · exact (filter_notDocs_setFile _ _ (inDocs_cons_docs _)).trans hfr
        · intro d hdd
          exact Iff.trans (by rw [setFile_dirs]) (hdr d hdd)
        · exact hupT
        · intro hP
          exact fileExists_setFile_mono _ _ hP
    · refine ⟨⟨⟨?_, ?_⟩, ?_⟩, ?_⟩
      · exact (filter_notDocs_setFile _ _ (inDocs_cons_docs _)).trans hfr
      · intro d hdd
        exact Iff.trans (by rw [setFile_dirs]) (hdr d hdd)
      · exact hupT
      · intro hP
        exact fileExists_setFile_mono _ _ hP
  · exact ⟨⟨⟨hfr, hdr⟩, hupT⟩, fun hP => hP⟩

theorem syncOneFile_writes (cache : List (Str × Str)) (rel : SPath) (se : Bool)
    (pt : Option Str) (st : SyncSt) (i : Nat) (fname : Str)
    (hget : pyDictGet cache (joinPath (rel ++ [fname])) = none) :
    fileExists (syncOneFile cache false rel se pt st i fname).fs
      ("docs".data :: rel ++ [fname]) = true := by
  simp only [syncOneFile, Bool.false_eq_true, if_false]
  rw [if_pos (by rw [hget]; exact fun h => Option.noConfusion h)]
  split
  · split
    · exact fileExists_setFile_self _ _ _
    · exact fileExists_setFile_self _ _ _
  · exact fileExists_setFile_self _ _ _

theorem indexUpdateStep_live (w : World) (oldRel newRel : SPath)
    (st : SyncSt) (rel : SPath) (nav : Nat) (toc : Option (List Str))
    (hJ : renameInv w oldRel st) :
    renameInv w oldRel (indexUpdateStep false st rel nav toc) ∧
    (fileExists st.fs ("docs".data :: newRel) = true →
      fileExists (indexUpdateStep false st rel nav toc).fs
        ("docs".data :: newRel) = true) := by
  obtain ⟨⟨hfr, hdr⟩, hup⟩ := hJ
  simp only [indexUpdateStep, Bool.false_eq_true, if_false]
  split
  · exact ⟨⟨⟨hfr, hdr⟩, hup⟩, fun hP => hP⟩
  · refine ⟨⟨⟨?_, ?_⟩, ?_⟩, ?_⟩
    · exact (filter_notDocs_setFile _ _ (inDocs_cons_docs _)).trans hfr
    · intro d hdd
      exact Iff.trans (by rw [setFile_dirs]) (hdr d hdd)
    · exact hup
    · intro hP
      exact fileExists_setFile_mono _ _ hP

theorem fileExists_congr_files {fs₁ fs₂ : FileSys}
    (h : fs₁.files = fs₂.files) (p : SPath) :
    fileExists fs₁ p = fileExists fs₂ p := by
  rw [fileExists_eq_any, fileExists_eq_any, h]

theorem syncFold_live (w : World) (oldRel newRel : SPath)
    (cache : List (Str × Str)) (rel : SPath) (se : Bool) (pt : Option Str)
    (m : List Str) (j : Nat) (st : SyncSt)
    (hC : ∀ kv ∈ cache, splitPath kv.1 ≠ newRel)
    (hkeys : ∀ f ∈ m, joinPath (rel ++ [f]) ≠ joinPath oldRel)
    (hJ : renameInv w oldRel st) :
    renameInv w oldRel ((List.enumFrom j m).foldl
      (fun s p => syncOneFile cache false rel se pt s p.1 p.2) st) ∧
    (fileExists st.fs ("docs".data :: newRel) = true →
      fileExists ((List.enumFrom j m).foldl
        (fun s p => syncOneFile cache false rel se pt s p.1 p.2) st).fs
        ("docs".data :: newRel) = true) := by
  refine foldl_inv_mem
    (fun s => renameInv w oldRel s ∧
      (fileExists st.fs ("docs".data :: newRel) = true →
        fileExists s.fs ("docs".data :: newRel) = true))
    _ _ _ ?_ ⟨hJ, fun h => h⟩
  intro s b hb hQ
  have hbm : b.2 ∈ m := List.snd_mem_of_mem_enumFrom hb
  have hs := syncOneFile_live w oldRel newRel cache rel se pt s b.1 b.2
    hC (hkeys b.2 hbm) hQ.1
  exact ⟨hs.1, fun h0 => hs.2 (hQ.2 h0)⟩

theorem syncFold_creates (w : World) (oldRel : SPath)
    (cache : List (Str × Str)) (rel : SPath) (se : Bool) (pt : Option Str)
    (nf : Str)
    (hC : ∀ kv ∈ cache, splitPath kv.1 ≠ rel ++ [nf])
    (hget : pyDictGet cache (joinPath (rel ++ [nf])) = none) :
    ∀ (m : List Str) (j : Nat) (st : SyncSt),
      (∀ f ∈ m, joinPath (rel ++ [f]) ≠ joinPath oldRel) →
      nf ∈ m → renameInv w oldRel st →
      renameInv w oldRel ((List.enumFrom j m).foldl
        (fun s p => syncOneFile cache false rel se pt s p.1 p.2) st) ∧
      fileExists ((List.enumFrom j m).foldl
        (fun s p => syncOneFile cache false rel se pt s p.1 p.2) st).fs
        ("docs".data :: rel ++ [nf]) = true := by
  intro m
  induction m with
  | nil => exact fun j st _ hmem _ => absurd hmem (List.not_mem_nil nf)
  | cons a t ih =>
      intro j st hkeys hmem hJ
      rw [show List.enumFrom j (a :: t) = (j, a) :: List.enumFrom (j + 1) t from rfl,
        List.foldl_cons]
      rcases List.mem_cons.mp hmem with rfl | hmt
      · have hw := syncOneFile_writes cache rel se pt st j nf hget
        have hJ1 := (syncOneFile_live w oldRel (rel ++ [nf]) cache rel se pt st j nf
          hC (hkeys nf (List.mem_cons_self _ _)) hJ).1
        refine foldl_inv_mem
          (fun s => renameInv w oldRel s ∧
            fileExists s.fs ("docs".data :: rel ++ [nf]) = true)
          _ _ _ ?_ ⟨hJ1, hw⟩
        intro s b hb hQ
        have hbm : b.2 ∈ t := List.snd_mem_of_mem_enumFrom hb
        have hs := syncOneFile_live w oldRel (rel ++ [nf]) cache rel se pt s b.1 b.2
          hC (hkeys b.2 (List.mem_cons_of_mem _ hbm)) hQ.1
        exact ⟨hs.1, hs.2 hQ.2⟩
      · exact ih (j + 1) _
          (fun f hf => hkeys f (List.mem_cons_of_mem _ hf)) hmt
          (syncOneFile_live w oldRel (rel ++ [nf]) cache rel se pt st j a
            hC (hkeys a (List.mem_cons_self _ _)) hJ).1

theorem dirStep_live (w : World) (oldRel newRel : SPath)
    (cache : List (Str × Str)) (st : SyncSt) (rel : SPath)
    (hC : ∀ kv ∈ cache, splitPath kv.1 ≠ newRel)
    (hclash : ∀ e ∈ w.fs.files, joinPath e.1 ≠ joinPath oldRel)
    (hJ : renameInv w oldRel st) :
    renameInv w oldRel (dirStep cache false st rel) ∧
    (fileExists st.fs ("docs".data :: newRel) = true →
      fileExists (dirStep cache false st rel).fs ("docs".data :: newRel) = true) := by
  simp only [dirStep]
  split
  · exact ⟨hJ, fun h => h⟩
  · rename_i hexcl
    split
    · exact ⟨hJ, fun h => h⟩
    · have hrelOk : rel = [] ∨ rel.head? ≠ some "docs".data := by
        cases rel with
        | nil => exact Or.inl rfl
        | cons a t =>
            refine Or.inr (fun hh => hexcl ?_)
            rw [List.head?_cons] at hh
            injection hh with ha
            rw [List.any_cons, ha,
              show EXCLUDE_DIRS.contains "docs".data = true from by decide]
            exact Bool.true_or _
      have hkeys : ∀ f ∈ pySortedStr ((directFiles st.fs rel).filter isMdNotIndex),
          joinPath (rel ++ [f]) ≠ joinPath oldRel := by
        intro f hf
        rw [mem_pySortedStr, mdFilter_congr hJ.1 hrelOk] at hf
        obtain ⟨c, hc⟩ := of_mem_mdFilter hf
        exact hclash _ hc
      have h1 := mkdirParents_live st rel
      have hJ1 : renameInv w oldRel (mkdirParents st ("docs".data :: rel)) := by
        refine ⟨⟨?_, ?_⟩, ?_⟩
        · rw [h1.1]
          exact hJ.1.1
        · intro d hdd
          exact (h1.2.2 d hdd).trans (hJ.1.2 d hdd)
        · rw [h1.2.1]
          exact hJ.2
      have h2 := syncFold_live w oldRel newRel cache rel
        (should_exclude_files_from_nav (mkdirParents st ("docs".data :: rel)).fs rel)
        (filesParentTitle (mkdirParents st ("docs".data :: rel)).fs rel)
        (pySortedStr ((directFiles st.fs rel).filter isMdNotIndex)) 0
        (mkdirParents st ("docs".data :: rel)) hC hkeys hJ1
      refine ⟨(indexUpdateStep_live w oldRel newRel _ rel _ _ h2.1).1,
        fun hP => (indexUpdateStep_live w oldRel newRel _ rel _ _ h2.1).2
          (h2.2 ?_)⟩
      rw [fileExists_congr_files h1.1]
      exact hP

theorem dirStep_nd (w : World) (oldRel : SPath) (nd : SPath) (nf : Str)
    (cache : List (Str × Str)) (st : SyncSt)
    (hndEx : nd.any (fun seg => EXCLUDE_DIRS.contains seg) = false)
    (hnf : isMdNotIndex nf = true)
    (hnewF : fileExists w.fs (nd ++ [nf]) = true)
    (hC : ∀ kv ∈ cache, splitPath kv.1 ≠ nd ++ [nf])
    (hget : pyDictGet cache (joinPath (nd ++ [nf])) = none)
    (hclash : ∀ e ∈ w.fs.files, joinPath e.1 ≠ joinPath oldRel)
    (hJ : renameInv w oldRel st) :
    renameInv w oldRel (dirStep cache false st nd) ∧
    fileExists (dirStep cache false st nd).fs
      ("docs".data :: nd ++ [nf]) = true := by
  have hsrcND : inDocs (nd ++ [nf]) = false := by
    cases nd with
    | nil =>
        by_cases hd : nf = "docs".data
        · rw [hd] at hnf
          exact absurd hnf (by decide)
        · simp only [List.nil_append, inDocs, List.head?_cons]
          exact decide_eq_false (fun hc => hd (Option.some.inj hc))
    | cons a t =>
        have ha : a ≠ "docs".data := by
          intro h
          rw [List.any_cons, h,
            show EXCLUDE_DIRS.contains "docs".data = true from by decide,
            Bool.true_or] at hndEx
          cases hndEx
        simp only [List.cons_append, inDocs, List.head?_cons]
        exact decide_eq_false (fun hc => ha (Option.some.inj hc))
  have hmemW : ∃ c, (nd ++ [nf], c) ∈ w.fs.files := by
    rw [fileExists_eq_any] at hnewF
    obtain ⟨e, he, hdec⟩ := List.any_eq_true.mp hnewF
    have he1 : e.1 = nd ++ [nf] := of_decide_eq_true hdec
    refine ⟨e.2, ?_⟩
    rw [← he1]
    exact he
  obtain ⟨c, hcW⟩ := hmemW
  have hcS : (nd ++ [nf], c) ∈ st.fs.files := mem_of_frame hJ.1 hcW hsrcND
  have hmem : nf ∈ pySortedStr ((directFiles st.fs nd).filter isMdNotIndex) :=
    mem_pySortedStr.mpr (mem_mdFilter hcS hnf)
  have hkeys : ∀ f ∈ pySortedStr ((directFiles st.fs nd).filter isMdNotIndex),
      joinPath (nd ++ [f]) ≠ joinPath oldRel := by
    intro f hf
    have hrelOk : nd = [] ∨ nd.head? ≠ some "docs".data := by
      cases nd with
      | nil => exact Or.inl rfl
      | cons a t =>
          refine Or.inr (fun hh => ?_)
          rw [List.head?_cons] at hh
          injection hh with ha
          rw [List.any_cons, ha,
            show EXCLUDE_DIRS.contains "docs".data = true from by decide,
            Bool.true_or] at hndEx
          cases hndEx
    rw [mem_pySortedStr, mdFilter_congr hJ.1 hrelOk] at hf
    obtain ⟨c2, hc2⟩ := of_mem_mdFilter hf
    exact hclash _ hc2
  simp only [dirStep]
  split
  · rename_i h
    rw [hndEx] at h
    cases h
  · split
    · rename_i h
      have h0 := (Bool.and_eq_true _ _).mp h
      rw [List.isEmpty_iff] at h0
      rw [h0.1] at hmem
      exact absurd hmem (List.not_mem_nil nf)
    · have h1 := mkdirParents_live st nd
      have hJ1 : renameInv w oldRel (mkdirParents st ("docs".data :: nd)) := by
        refine ⟨⟨?_, ?_⟩, ?_⟩
        · rw [h1.1]
          exact hJ.1.1
        · intro d hdd
          exact (h1.2.2 d hdd).trans (hJ.1.2 d hdd)
        · rw [h1.2.1]
          exact hJ.2
      have h2 := syncFold_creates w oldRel cache nd
        (should_exclude_files_from_nav (mkdirParents st ("docs".data :: nd)).fs nd)
        (filesParentTitle (mkdirParents st ("docs".data :: nd)).fs nd)
        nf hC hget
        (pySortedStr ((directFiles st.fs nd).filter isMdNotIndex)) 0
        (mkdirParents st ("docs".data :: nd)) hkeys hmem hJ1
      exact ⟨(indexUpdateStep_live w oldRel (nd ++ [nf]) _ nd _ _ h2.1).1,
        (indexUpdateStep_live w oldRel (nd ++ [nf]) _ nd _ _ h2.1).2 h2.2⟩

/-! ## Claim C4: the orphan-cleanup pass -/

theorem orphanFileStep_live (w : World) (oldRel newRel : SPath) (s : SyncSt)
    (e : SPath × Str) (he : inDocs e.1 = true)
    (hnewF : fileExists w.fs newRel = true) (hnewND : inDocs newRel = false)
    (hJ : renameInv w oldRel s)
    (hP : fileExists s.fs ("docs".data :: newRel) = true) :
    renameInv w oldRel (orphanFileStep false s e) ∧
    fileExists (orphanFileStep false s e).fs ("docs".data :: newRel) = true ∧
    (orphanFileStep false s e).updated = s.updated ∧
    (orphanFileStep false s e).fs.dirs = s.fs.dirs ∧
    ∀ q : SPath, fileExists s.fs q = false →
      fileExists (orphanFileStep false s e).fs q = false := by
  obtain ⟨⟨hfr, hdr⟩, hup⟩ := hJ
  simp only [orphanFileStep, Bool.false_eq_true, if_false]
  split
  · split
    · exact ⟨⟨⟨hfr, hdr⟩, hup⟩, hP, rfl, rfl, fun q h => h⟩
    · split
      · rename_i hg
        refine ⟨⟨⟨?_, ?_⟩, ?_⟩, ?_, rfl, ?_, ?_⟩
        · exact (filter_notDocs_delFile _ he).trans hfr
        · intro d hdd
          exact Iff.trans (by rw [delFile_dirs]) (hdr d hdd)
        · exact hup
        · by_cases hD : e.1 = ("docs".data :: newRel)
          · exfalso
            have hg2 := ((Bool.and_eq_true _ _).mp hg).1
            rw [hD] at hg2
            have hpe : pathExists s.fs newRel = true := by
              unfold pathExists
              rw [fileExists_congr_frame ⟨hfr, hdr⟩ hnewND, hnewF]
              exact Bool.true_or _
            rw [show (("docs".data :: newRel).drop 1) = newRel from rfl, hpe] at hg2
            exact absurd hg2 (by decide)
          · exact (fileExists_delFile_ne _ (fun hc => hD hc.symm)).trans hP
        · exact delFile_dirs _ _
        · exact fun q h => fileExists_delFile_false _ _ _ h
      · exact ⟨⟨⟨hfr, hdr⟩, hup⟩, hP, rfl, rfl, fun q h => h⟩
  · exact ⟨⟨⟨hfr, hdr⟩, hup⟩, hP, rfl, rfl, fun q h => h⟩

theorem orphanFileStep_deletes (s : SyncSt) (e : SPath × Str) (rel : SPath)
    (he1 : e.1 = "docs".data :: rel)
    (hmd : pyEndsWith ".md".data (fileName rel) = true)
    (hni : fileName rel ≠ "index.md".data)
    (hne : rel ≠ [])
    (hpe : pathExists s.fs rel = false)
    (hnk : pyDictHasKey s.updated (joinPath rel) = false) :
    fileExists (orphanFileStep false s e).fs ("docs".data :: rel) = false := by
  simp only [orphanFileStep, Bool.false_eq_true, if_false]
  have hfn : fileName e.1 = fileName rel := by
    rw [he1]
    cases rel with
    | nil => exact absurd rfl hne
    | cons a t =>
        unfold fileName
        rw [List.getLastD_cons, List.getLastD_cons, List.getLastD_cons]
  rw [hfn, hmd, if_pos rfl, if_neg hni, he1,
    show (("docs".data :: rel).drop 1) = rel from rfl, hpe, hnk,
    if_pos (by decide)]
  exact fileExists_delFile_self _ _

theorem delFold_files_filter (l : List (SPath × Str))
    (hl : ∀ e ∈ l, inDocs e.1 = true) :
    ∀ fs : FileSys,
      (l.foldl (fun f e => delFile f e.1) fs).files.filter (fun e => !inDocs e.1)
        = fs.files.filter (fun e => !inDocs e.1) := by
  induction l with
  | nil => exact fun fs => rfl
  | cons e t ih =>
      intro fs
      rw [List.foldl_cons,
        ih (fun x hx => hl x (List.mem_cons_of_mem _ hx)),
        filter_notDocs_delFile _ (hl e (List.mem_cons_self _ _))]

theorem delFold_dirs (l : List (SPath × Str)) :
    ∀ fs : FileSys, (l.foldl (fun f e => delFile f e.1) fs).dirs = fs.dirs := by
  induction l with
  | nil => exact fun fs => rfl
  | cons e t ih =>
      intro fs
      rw [List.foldl_cons, ih, delFile_dirs]

theorem delFold_exists_false (l : List (SPath × Str)) (q : SPath) :
    ∀ fs : FileSys, fileExists fs q = false →
      fileExists (l.foldl (fun f e => delFile f e.1) fs) q = false := by
  induction l with
  | nil => exact fun fs h => h
  | cons e t ih =>
      intro fs h
      rw [List.foldl_cons]
      exact ih _ (fileExists_delFile_false _ _ _ h)

theorem delFold_exists_ne (l : List (SPath × Str)) (q : SPath)
    (hq : ∀ e ∈ l, e.1 ≠ q) :
    ∀ fs : FileSys,
      fileExists (l.foldl (fun f e => delFile f e.1) fs) q = fileExists fs q := by
  induction l with
  | nil => exact fun fs => rfl
  | cons e t ih =>
      intro fs
      rw [List.foldl_cons,
        ih (fun x hx => hq x (List.mem_cons_of_mem _ hx)),
        fileExists_delFile_ne _ (fun hc => hq e (List.mem_cons_self _ _) hc.symm)]

theorem orphanFold_deletes (w : World) (oldRel newRel : SPath)
    (hnewF : fileExists w.fs newRel = true) (hnewND : inDocs newRel = false)
    (holdMd : pyEndsWith ".md".data (fileName oldRel) = true)
    (holdNI : fileName oldRel ≠ "index.md".data)
    (holdNE : oldRel ≠ []) :
    ∀ (l : List (SPath × Str)) (s : SyncSt),
      (∀ e ∈ l, inDocs e.1 = true) →
      renameInv w oldRel s →
      fileExists s.fs ("docs".data :: newRel) = true →
      pathExists s.fs oldRel = false →
      pyDictHasKey s.updated (joinPath oldRel) = false →
      ((∃ c, (("docs".data :: oldRel), c) ∈ l) ∨
        fileExists s.fs ("docs".data :: oldRel) = false) →
      renameInv w oldRel (l.foldl (orphanFileStep false) s) ∧
      fileExists (l.foldl (orphanFileStep false) s).fs
        ("docs".data :: newRel) = true ∧
      fileExists (l.foldl (orphanFileStep false) s).fs
        ("docs".data :: oldRel) = false ∧
      (l.foldl (orphanFileStep false) s).updated = s.updated ∧
      (l.foldl (orphanFileStep false) s).fs.dirs = s.fs.dirs := by
  intro l
  induction l with
  | nil =>
      intro s _ hJ hP _ _ hin
      rcases hin with ⟨c, hc⟩ | hfalse
      · exact absurd hc (List.not_mem_nil _)
      · exact ⟨hJ, hP, hfalse, rfl, rfl⟩
  | cons e t ih =>
      intro s hl hJ hP hpe hnk hin
      rw [List.foldl_cons]
      have step := orphanFileStep_live w oldRel newRel s e
        (hl e (List.mem_cons_self _ _)) hnewF hnewND hJ hP
      have hfe0 : fileExists s.fs oldRel = false :=
        ((Bool.or_eq_false_iff).mp hpe).1
      have hde0 : dirExists s.fs oldRel = false :=
        ((Bool.or_eq_false_iff).mp hpe).2
      have hpe1 : pathExists (orphanFileStep false s e).fs oldRel = false := by
        unfold pathExists
        rw [step.2.2.2.2 oldRel hfe0]
        have : dirExists (orphanFileStep false s e).fs oldRel
            = dirExists s.fs oldRel := by
          unfold dirExists
          rw [step.2.2.2.1]
        rw [this, hde0]
        rfl
      have hnk1 : pyDictHasKey (orphanFileStep false s e).updated
          (joinPath oldRel) = false := by
        rw [step.2.2.1]
        exact hnk
      have hin1 : (∃ c, (("docs".data :: oldRel), c) ∈ t) ∨
          fileExists (orphanFileStep false s e).fs
            ("docs".data :: oldRel) = false := by
        rcases hin with ⟨c, hc⟩ | hfalse
        · rcases List.mem_cons.mp hc with heq | hct
          · refine Or.inr ?_
            refine orphanFileStep_deletes s e oldRel ?_ holdMd holdNI holdNE hpe hnk
            rw [← heq]
          · exact Or.inl ⟨c, hct⟩
        · exact Or.inr (step.2.2.2.2 _ hfalse)
      have hrec := ih _ (fun x hx => hl x (List.mem_cons_of_mem _ hx))
        step.1 step.2.1 hpe1 hnk1 hin1
      exact ⟨hrec.1, hrec.2.1, hrec.2.2.1,
        hrec.2.2.2.1.trans step.2.2.1,
        hrec.2.2.2.2.trans step.2.2.2.1⟩

theorem exists_mem_of_fileExists {fs : FileSys} {p : SPath}
    (h : fileExists fs p = true) : ∃ c, (p, c) ∈ fs.files := by
  rw [fileExists_eq_any] at h
  obtain ⟨e, he, hdec⟩ := List.any_eq_true.mp h
  exact ⟨e.2, by rw [← of_decide_eq_true hdec]; exact he⟩

theorem orphanDirStep_live (w : World) (oldRel newRel nd : SPath) (nf : Str)
    (hnew : newRel = nd ++ [nf]) (hndW : nd ∈ w.fs.dirs)
    (hmd : pyEndsWith ".md".data nf = true)
    (hnewF : fileExists w.fs newRel = true) (hnewND : inDocs newRel = false)
    (s : SyncSt) (d : SPath) (hd : inDocs d = true) (hdne : d ≠ ["docs".data])
    (hJ : renameInv w oldRel s)
    (hP : fileExists s.fs ("docs".data :: newRel) = true)
    (hOld : fileExists s.fs ("docs".data :: oldRel) = false) :
    renameInv w oldRel (orphanDirStep false s d) ∧
    fileExists (orphanDirStep false s d).fs ("docs".data :: newRel) = true ∧
    fileExists (orphanDirStep false s d).fs ("docs".data :: oldRel) = false := by
  obtain ⟨⟨hfr, hdr⟩, hup⟩ := hJ
  obtain ⟨dtail, hdt⟩ : ∃ t, d = "docs".data :: t := by
    have hdd : d.head? = some "docs".data := of_decide_eq_true hd
    cases d with
    | nil => cases hdd
    | cons a t =>
        rw [List.head?_cons] at hdd
        injection hdd with ha
        exact ⟨t, by rw [ha]⟩
  simp only [orphanDirStep, Bool.false_eq_true, if_false]
  split
  · rename_i hg
    by_cases hDD : d = "docs".data :: nd
    · exfalso
      have hndND : inDocs nd = false := by
        cases nd with
        | nil => exact absurd hDD hdne
        | cons a t =>
            have heq : inDocs (a :: t) = inDocs (a :: (t ++ [nf])) := rfl
            rw [heq]
            rw [hnew, List.cons_append] at hnewND
            exact hnewND
      have hsrc : pathExists s.fs (d.drop 1) = true := by
        rw [hDD]
        show pathExists s.fs nd = true
        unfold pathExists
        rw [(dirExists_iff _ _).mpr ((hdr nd hndND).mpr hndW)]
        exact Bool.or_true _
      obtain ⟨c, hcW⟩ := exists_mem_of_fileExists hnewF
      have hcS : (newRel, c) ∈ s.fs.files := mem_of_frame ⟨hfr, hdr⟩ hcW hnewND
      have hpre : nd.isPrefixOf (nd ++ [nf]) = true := by
        rw [List.isPrefixOf_iff_prefix]
        exact List.prefix_append _ _
      have hhas : (s.fs.files.any fun e =>
          (d.drop 1).isPrefixOf e.1 && decide ((d.drop 1).length < e.1.length) &&
          pyEndsWith ".md".data (fileName e.1)) = true := by
        refine List.any_eq_true.mpr ⟨(newRel, c), hcS, ?_⟩
        rw [hDD, hnew]
        show (nd.isPrefixOf (nd ++ [nf]) &&
          decide (nd.length < (nd ++ [nf]).length) &&
          pyEndsWith ".md".data (fileName (nd ++ [nf]))) = true
        rw [hpre, fileName_concat, hmd, decide_eq_true (by simp)]
        rfl
      rw [hsrc, hhas] at hg
      exact absurd hg (by decide)
    · have hdirF : ∀ e ∈ s.fs.files.filter (fun e => decide (e.1.dropLast = d)),
          inDocs e.1 = true := by
        intro e he
        have hdl := of_decide_eq_true (List.mem_filter.mp he).2
        rcases List.eq_nil_or_concat e.1 with h0 | ⟨l2, x, hx⟩
        · rw [h0] at hdl
          rw [hdt] at hdl
          cases hdl
        · rw [List.concat_eq_append] at hx
          rw [hx, List.dropLast_concat] at hdl
          rw [hx, hdl, hdt, List.cons_append]
          exact inDocs_cons_docs _
      have hneq : ∀ e ∈ s.fs.files.filter (fun e => decide (e.1.dropLast = d)),
          e.1 ≠ ("docs".data :: newRel) := by
        intro e he hc
        have hdl := of_decide_eq_true (List.mem_filter.mp he).2
        rw [hc, hnew,
          show ("docs".data :: (nd ++ [nf])) = ("docs".data :: nd) ++ [nf] from
            by rw [List.cons_append],
          List.dropLast_concat] at hdl
        exact hDD hdl.symm
      split
      · refine ⟨⟨⟨?_, ?_⟩, ?_⟩, ?_, ?_⟩
        · exact (delFold_files_filter _ hdirF s.fs).trans hfr
        · intro d2 hdd
          constructor
          · intro hm
            refine (hdr d2 hdd).mp ?_
            have hm2 := (List.mem_filter.mp hm).1
            rw [delFold_dirs] at hm2
            exact hm2
          · intro hm
            refine List.mem_filter.mpr ⟨?_, ?_⟩
            · rw [delFold_dirs]
              exact (hdr d2 hdd).mpr hm
            · refine decide_eq_true (fun hc => ?_)
              rw [hc, hd] at hdd
              cases hdd
        · exact hup
        · exact (fileExists_congr_files rfl _).trans
            ((delFold_exists_ne _ _ hneq s.fs).trans hP)
        · exact (fileExists_congr_files rfl _).trans
            (delFold_exists_false _ _ s.fs hOld)
      · refine ⟨⟨⟨?_, ?_⟩, ?_⟩, ?_, ?_⟩
        · exact (delFold_files_filter _ hdirF s.fs).trans hfr
        · intro d2 hdd
          exact Iff.trans (by rw [delFold_dirs]) (hdr d2 hdd)
        · exact hup
        · exact (delFold_exists_ne _ _ hneq s.fs).trans hP
        · exact delFold_exists_false _ _ s.fs hOld
  · exact ⟨⟨⟨hfr, hdr⟩, hup⟩, hP, hOld⟩

theorem cleanup_live (w : World) (oldRel newRel nd : SPath) (nf : Str)
    (hnew : newRel = nd ++ [nf]) (hndW : nd ∈ w.fs.dirs)
    (hmdnf : pyEndsWith ".md".data nf = true)
    (hnewF : fileExists w.fs newRel = true) (hnewND : inDocs newRel = false)
    (holdMd : pyEndsWith ".md".data (fileName oldRel) = true)
    (holdNI : fileName oldRel ≠ "index.md".data)
    (holdNE : oldRel ≠ [])
    (st : SyncSt)
    (hJ : renameInv w oldRel st)
    (hP : fileExists st.fs ("docs".data :: newRel) = true)
    (hpe : pathExists st.fs oldRel = false)
    (hnk : pyDictHasKey st.updated (joinPath oldRel) = false) :
    renameInv w oldRel (clean_orphaned_files false st) ∧
    fileExists (clean_orphaned_files false st).fs ("docs".data :: newRel) = true ∧
    fileExists (clean_orphaned_files false st).fs ("docs".data :: oldRel) = false := by
  simp only [clean_orphaned_files]
  have hl : ∀ e ∈ st.fs.files.filter
      (fun e => decide (e.1.head? = some "docs".data)), inDocs e.1 = true := by
    intro e he
    exact (List.mem_filter.mp he).2
  have hin : (∃ c, (("docs".data :: oldRel), c) ∈ st.fs.files.filter
      (fun e => decide (e.1.head? = some "docs".data))) ∨
      fileExists st.fs ("docs".data :: oldRel) = false := by
    by_cases h0 : fileExists st.fs ("docs".data :: oldRel) = true
    · obtain ⟨c, hc⟩ := exists_mem_of_fileExists h0
      exact Or.inl ⟨c, List.mem_filter.mpr ⟨hc, decide_eq_true rfl⟩⟩
    · exact Or.inr (Bool.eq_false_iff.mpr h0)
  have hfold := orphanFold_deletes w oldRel newRel hnewF hnewND holdMd holdNI
    holdNE (st.fs.files.filter (fun e => decide (e.1.head? = some "docs".data)))
    st hl hJ hP hpe hnk hin
  refine foldl_inv_mem
    (fun s => renameInv w oldRel s ∧
      fileExists s.fs ("docs".data :: newRel) = true ∧
      fileExists s.fs ("docs".data :: oldRel) = false)
    (orphanDirStep false) _ _ ?_ ⟨hfold.1, hfold.2.1, hfold.2.2.1⟩
  intro s d hdm hQ
  have hdm2 := List.mem_reverse.mp hdm
  have hpred := (List.mem_filter.mp hdm2).2
  have hp1 := ((Bool.and_eq_true _ _).mp hpred).1
  have hp2 := of_decide_eq_true ((Bool.and_eq_true _ _).mp hpred).2
  exact orphanDirStep_live w oldRel newRel nd nf hnew hndW hmdnf hnewF hnewND
    s d hp1 hp2 hQ.1 hQ.2.1 hQ.2.2

/-- C4: rename correctness. In a world reached by renaming a source
Markdown file from oldRel to newRel = nd ++ [nf] without touching other
source paths — the old source path is gone, the new source file exists in
a walked non-excluded directory, and the previous run's cache has no
entry keyed or path-shaped like the new file — a live (non-dry) run
removes the output file at the old path and creates the output file at
the new path, leaving no orphan behind: either the cache-based rename
detector deletes it (hash hit) or the orphaned-file sweep does (the old
source path no longer exists and no fresh hash was recorded for it). -/
theorem C4_rename_correctness (w : World) (oldRel newRel nd : SPath) (nf : Str)
    (hnew : newRel = nd ++ [nf])
    (hndW : nd ∈ w.fs.dirs)
    (hndEx : nd.any (fun seg => EXCLUDE_DIRS.contains seg) = false)
    (hnf : isMdNotIndex nf = true)
    (hnewF : fileExists w.fs newRel = true)
    (_holdOut : fileExists w.fs ("docs".data :: oldRel) = true)
    (holdGone : pathExists w.fs oldRel = false)
    (holdNE : oldRel ≠ [])
    (holdMd : pyEndsWith ".md".data (fileName oldRel) = true)
    (holdNI : fileName oldRel ≠ "index.md".data)
    (holdND : inDocs oldRel = false)
    (hcget : pyDictGet (w.cacheFile.getD []) (joinPath newRel) = none)
    (hcsplit : ∀ kv ∈ w.cacheFile.getD [], splitPath kv.1 ≠ newRel)
    (hclash : ∀ e ∈ w.fs.files, joinPath e.1 ≠ joinPath oldRel) :
    fileExists (runSync false false w).1.fs ("docs".data :: oldRel) = false ∧
    fileExists (runSync false false w).1.fs ("docs".data :: newRel) = true := by
  subst hnew
  have hmdnf : pyEndsWith ".md".data nf = true := ((Bool.and_eq_true _ _).mp hnf).1
  have hnewND : inDocs (nd ++ [nf]) = false := by
    cases nd with
    | nil =>
        by_cases hdd : nf = "docs".data
        · rw [hdd] at hnf
          exact absurd hnf (by decide)
        · simp only [List.nil_append, inDocs, List.head?_cons]
          exact decide_eq_false (fun hc => hdd (Option.some.inj hc))
    | cons a t =>
        have ha : a ≠ "docs".data := by
          intro h
          rw [List.any_cons, h,
            show EXCLUDE_DIRS.contains "docs".data = true from by decide,
            Bool.true_or] at hndEx
          cases hndEx
        simp only [List.cons_append, inDocs, List.head?_cons]
        exact decide_eq_false (fun hc => ha (Option.some.inj hc))
  simp only [runSync, Bool.false_eq_true, false_and, and_false, if_false]
  obtain ⟨d1, d2, hdirs⟩ := List.append_of_mem hndW
  rw [hdirs, List.foldl_append, List.foldl_cons]
  set cache := w.cacheFile.getD [] with hcache
  set s1 := List.foldl (dirStep cache false) ⟨w.fs, [], []⟩ d1 with hs1
  set s2 := dirStep cache false s1 nd with hs2
  set s3 := List.foldl (dirStep cache false) s2 d2 with hs3
  have hJ0 : renameInv w oldRel ⟨w.fs, [], []⟩ :=
    ⟨⟨rfl, fun _ _ => Iff.rfl⟩, fun kv hkv => absurd hkv (List.not_mem_nil kv)⟩
  have hJ1 : renameInv w oldRel s1 := by
    rw [hs1]
    exact foldl_inv_mem (renameInv w oldRel) (dirStep cache false) d1 _
      (fun s b _ hQ =>
        (dirStep_live w oldRel (nd ++ [nf]) cache s b hcsplit hclash hQ).1)
      hJ0
  have h2 := dirStep_nd w oldRel nd nf cache s1 hndEx hnf hnewF hcsplit hcget
    hclash hJ1
  rw [← hs2] at h2
  have h3 : renameInv w oldRel s3 ∧
      fileExists s3.fs ("docs".data :: (nd ++ [nf])) = true := by
    rw [hs3]
    refine foldl_inv_mem
      (fun s => renameInv w oldRel s ∧
        fileExists s.fs ("docs".data :: (nd ++ [nf])) = true)
      (dirStep cache false) d2 s2 ?_ h2
    intro s b _ hQ
    have hs := dirStep_live w oldRel (nd ++ [nf]) cache s b hcsplit hclash hQ.1
    exact ⟨hs.1, hs.2 hQ.2⟩
  have hwfe : fileExists w.fs oldRel = false := (Bool.or_eq_false_iff.mp holdGone).1
  have hwdir : dirExists w.fs oldRel = false := (Bool.or_eq_false_iff.mp holdGone).2
  have hpe1 : pathExists s3.fs oldRel = false := by
    unfold pathExists
    rw [fileExists_congr_frame h3.1.1 holdND, hwfe]
    have hdir : dirExists s3.fs oldRel = false := by
      cases hx : dirExists s3.fs oldRel with
      | false => rfl
      | true =>
          have hmem := (dirExists_iff _ _).mp hx
          have h4 := (dirExists_iff _ _).mpr ((h3.1.1.2 oldRel holdND).mp hmem)
          rw [hwdir] at h4
          cases h4
    rw [hdir]
    rfl
  have hnk1 : pyDictHasKey s3.updated (joinPath oldRel) = false := by
    have hnm : joinPath oldRel ∉ s3.updated.map Prod.fst := by
      intro hmem
      obtain ⟨kv, hkv, hfst⟩ := List.mem_map.mp hmem
      exact h3.1.2 kv hkv hfst
    unfold pyDictHasKey
    rw [pyDictGet_eq_none_of_not_mem hnm]
    rfl
  have hfin := cleanup_live w oldRel (nd ++ [nf]) nd nf rfl hndW hmdnf hnewF
    hnewND holdMd holdNI holdNE s3 h3.1 h3.2 hpe1 hnk1
  exact ⟨hfin.2.2, hfin.2.1⟩

/-- C4 witness: the rename scenario w4 (n/a.md renamed to n/b.md) with
every hypothesis checked by evaluation; the run deletes docs/n/a.md and
creates docs/n/b.md. -/
theorem C4_rename_correctness_witness :
    fileExists (runSync false false w4).1.fs
      ["docs".data, "n".data, "a.md".data] = false ∧
    fileExists (runSync false false w4).1.fs
      ["docs".data, "n".data, "b.md".data] = true :=
  C4_rename_correctness w4 ["n".data, "a.md".data] ["n".data, "b.md".data]
    ["n".data] "b.md".data rfl (by decide) (by decide) (by decide) (by decide)
    (by decide) (by decide) (by decide) (by decide) (by decide) (by decide)
    (by decide) (by decide) (by decide)

/-! ## Claim C1: character-set lemmas

The idempotence proof needs that composed titles and front matter never
contain the marker head character. -/

theorem char_toNat_ofNat (n : Nat) (h : n < 55296) : (Char.ofNat n).toNat = n := by
  unfold Char.ofNat Char.toNat
  split
  · rfl
  · rename_i hv
    exact absurd (Or.inl (by omega)) hv

theorem toUpper_ne {c x : Char} (hx : x.toNat < 65) (h : c ≠ x) :
    Char.toUpper c ≠ x := by
  intro hc
  unfold Char.toUpper at hc
  simp only at hc
  split at hc
  · rename_i hr
    have hv : (Char.ofNat (c.toNat - 32)).toNat = c.toNat - 32 :=
      char_toNat_ofNat _ (by omega)
    rw [hc] at hv
    omega
  · exact h hc

theorem toLower_ne {c x : Char} (hx : x.toNat < 97) (h : c ≠ x) :
    Char.toLower c ≠ x := by
  intro hc
  unfold Char.toLower at hc
  simp only at hc
  split at hc
  · rename_i hr
    have hv : (Char.ofNat (c.toNat + 32)).toNat = c.toNat + 32 :=
      char_toNat_ofNat _ (by omega)
    rw [hc] at hv
    omega
  · exact h hc

theorem noChar_sub {x : Char} {s t : Str} (hsub : ∀ c ∈ s, c ∈ t)
    (ht : NoChar x t) : NoChar x s :=
  fun c hc => ht c (hsub c hc)

theorem noChar_append {x : Char} {a b : Str} (ha : NoChar x a)
    (hb : NoChar x b) : NoChar x (a ++ b) := by
  intro c hc
  rcases List.mem_append.mp hc with h | h
  · exact ha c h
  · exact hb c h

theorem noChar_lower {x : Char} (hx : x.toNat < 65) {s : Str}
    (hs : NoChar x s) : NoChar x (pyLower s) := by
  intro c hc
  obtain ⟨a, ha, rfl⟩ := List.mem_map.mp hc
  exact toLower_ne (by omega) (hs a ha)

theorem noChar_upper {x : Char} (hx : x.toNat < 65) {s : Str}
    (hs : NoChar x s) : NoChar x (pyUpper s) := by
  intro c hc
  obtain ⟨a, ha, rfl⟩ := List.mem_map.mp hc
  exact toUpper_ne hx (hs a ha)

theorem noChar_title {x : Char} (hx : x.toNat < 65) {s : Str}
    (hs : NoChar x s) : NoChar x (pyTitle s) := by
  unfold pyTitle
  suffices h : ∀ (prev : Bool) (s : Str), NoChar x s → NoChar x (pyTitleAux prev s) by
    exact h false s hs
  intro prev s
  induction s generalizing prev with
  | nil => exact fun _ => fun c hc => absurd hc (List.not_mem_nil c)
  | cons a t ih =>
      intro hs c hc
      rw [pyTitleAux] at hc
      rcases List.mem_cons.mp hc with rfl | hm
      · unfold pyTitleStep
        have ha := hs a (List.mem_cons_self _ _)
        split
        · split
          · exact toLower_ne (by omega) ha
          · exact toUpper_ne hx ha
        · exact ha
      · exact ih _ (fun b hb => hs b (List.mem_cons_of_mem _ hb)) c hm

theorem noChar_capitalize {x : Char} (hx : x.toNat < 65) {s : Str}
    (hs : NoChar x s) : NoChar x (pyCapitalize s) := by
  cases s with
  | nil => exact fun c hc => absurd hc (List.not_mem_nil c)
  | cons a t =>
      intro c hc
      rcases List.mem_cons.mp hc with rfl | hm
      · exact toUpper_ne hx (hs a (List.mem_cons_self _ _))
      · exact noChar_lower hx (fun b hb => hs b (List.mem_cons_of_mem _ hb)) c hm

theorem noChar_replaceChar {x : Char} {old new : Char} (hnew : new ≠ x)
    {s : Str} (hs : NoChar x s) : NoChar x (pyReplaceChar old new s) := by
  intro c hc
  obtain ⟨a, ha, rfl⟩ := List.mem_map.mp hc
  by_cases h : a = old
  · rw [if_pos h]
    exact hnew
  · rw [if_neg h]
    exact hs a ha

theorem mem_pyLStrip {c : Char} {s : Str} (h : c ∈ pyLStrip s) : c ∈ s :=
  (List.dropWhile_sublist _).mem h

theorem mem_pyRStrip {c : Char} {s : Str} (h : c ∈ pyRStrip s) : c ∈ s := by
  unfold pyRStrip at h
  rw [List.mem_reverse] at h
  exact List.mem_reverse.mp ((List.dropWhile_sublist _).mem h)

theorem mem_pyStrip {c : Char} {s : Str} (h : c ∈ pyStrip s) : c ∈ s :=
  mem_pyLStrip (mem_pyRStrip h)

theorem noChar_strip {x : Char} {s : Str} (hs : NoChar x s) :
    NoChar x (pyStrip s) :=
  noChar_sub (fun _ hc => mem_pyStrip hc) hs

theorem noChar_join {x : Char} {sep : Char} (hsep : sep ≠ x)
    {l : List Str} (hl : ∀ p ∈ l, NoChar x p) : NoChar x (pyJoinChar sep l) := by
  induction l with
  | nil => exact fun c hc => absurd hc (List.not_mem_nil c)
  | cons p t ih =>
      cases t with
      | nil =>
          exact hl p (List.mem_cons_self _ _)
      | cons q r =>
          intro c hc
          rw [show pyJoinChar sep (p :: q :: r) = p ++ sep :: pyJoinChar sep (q :: r)
            from rfl] at hc
          rcases List.mem_append.mp hc with h | h
          · exact hl p (List.mem_cons_self _ _) c h
          · rcases List.mem_cons.mp h with rfl | h2
            · exact hsep
            · exact ih (fun u hu => hl u (List.mem_cons_of_mem _ hu)) c h2

theorem mem_pySplitWsAux {c : Char} :
    ∀ (s : Str) (cur : Str) (acc : List Str) (p : Str),
      p ∈ pySplitWsAux cur acc s → c ∈ p →
      c ∈ cur ∨ (∃ q ∈ acc, c ∈ q) ∨ c ∈ s := by
  intro s
  induction s with
  | nil =>
      intro cur acc p hp hc
      unfold pySplitWsAux at hp
      split at hp
      · rw [List.mem_reverse] at hp
        exact Or.inr (Or.inl ⟨p, hp, hc⟩)
      · rw [List.mem_reverse, List.mem_cons] at hp
        rcases hp with rfl | hp
        · exact Or.inl (List.mem_reverse.mp hc)
        · exact Or.inr (Or.inl ⟨p, hp, hc⟩)
  | cons a t ih =>
      intro cur acc p hp hc
      unfold pySplitWsAux at hp
      split at hp
      · split at hp
        · rcases ih [] acc p hp hc with h | h | h
          · exact absurd h (List.not_mem_nil c)
          · exact Or.inr (Or.inl h)
          · exact Or.inr (Or.inr (List.mem_cons_of_mem _ h))
        · rcases ih [] (cur.reverse :: acc) p hp hc with h | h | h
          · exact absurd h (List.not_mem_nil c)
          · obtain ⟨q, hq, hcq⟩ := h
            rcases List.mem_cons.mp hq with rfl | hq2
            · exact Or.inl (List.mem_reverse.mp hcq)
            · exact Or.inr (Or.inl ⟨q, hq2, hcq⟩)
          · exact Or.inr (Or.inr (List.mem_cons_of_mem _ h))
      · rcases ih (a :: cur) acc p hp hc with h | h | h
        · rcases List.mem_cons.mp h with rfl | h2
          · exact Or.inr (Or.inr (List.mem_cons_self _ _))
          · exact Or.inl h2
        · exact Or.inr (Or.inl h)
        · exact Or.inr (Or.inr (List.mem_cons_of_mem _ h))

theorem noChar_splitWs {x : Char} {s : Str} (hs : NoChar x s) :
    ∀ p ∈ pySplitWs s, NoChar x p := by
  intro p hp c hc
  rcases mem_pySplitWsAux s [] [] p hp hc with h | h | h
  · exact absurd h (List.not_mem_nil c)
  · obtain ⟨q, hq, _⟩ := h
    exact absurd hq (List.not_mem_nil q)
  · exact hs c h

theorem noChar_smart_title {x : Char} (hx : x.toNat < 65) (hsp : ' ' ≠ x)
    {s : Str} (hs : NoChar x s) : NoChar x (smart_title s) := by
  simp only [smart_title]
  split
  · exact hs
  · refine noChar_join hsp ?_
    intro p hp
    obtain ⟨q, hq, rfl⟩ := List.mem_map.mp hp
    have hq2 := noChar_splitWs hs q hq
    split
    · exact noChar_upper hx hq2
    · exact noChar_capitalize hx hq2

theorem digitChar_isDigit (m : Nat) (h : m < 10) :
    (Nat.digitChar m).isDigit = true := by
  interval_cases m <;> decide

theorem toDigitsCore_digits :
    ∀ (f n : Nat) (acc : List Char), (∀ c ∈ acc, c.isDigit = true) →
      ∀ c ∈ Nat.toDigitsCore 10 f n acc, c.isDigit = true := by
  intro f
  induction f with
  | zero => exact fun n acc hacc => hacc
  | succ f ih =>
      intro n acc hacc c hc
      simp only [Nat.toDigitsCore] at hc
      have hd : ∀ b ∈ Nat.digitChar (n % 10) :: acc, b.isDigit = true := by
        intro b hb
        rcases List.mem_cons.mp hb with rfl | hb2
        · exact digitChar_isDigit _ (Nat.mod_lt _ (by omega))
        · exact hacc b hb2
      split at hc
      · exact hd c hc
      · exact ih _ _ hd c hc

theorem noChar_natToStr {x : Char} (hx : x.isDigit = false) (n : Nat) :
    NoChar x (natToStr n) := by
  intro c hc hcx
  subst hcx
  have h : ∀ c ∈ (toString n).data, c.isDigit = true := by
    show ∀ c ∈ (Nat.toDigits 10 n).asString.data, c.isDigit = true
    unfold Nat.toDigits
    intro c hc2
    exact toDigitsCore_digits _ _ [] (fun b hb => absurd hb (List.not_mem_nil b)) c hc2
  rw [h c hc] at hx
  cases hx

theorem mem_matchDotStarEnd {c : Char} {s t : Str}
    (h : matchDotStarEnd s = some t) (hc : c ∈ t) : c ∈ s := by
  unfold matchDotStarEnd at h
  split at h
  · split at h
    · cases h
      exact (List.dropLast_sublist _).mem hc
    · cases h
  · cases h
    exact hc

theorem mem_split_numeric_prefix {c : Char} {name : Str}
    (hc : c ∈ ( _split_numeric_prefix name).2) : c ∈ name := by
  unfold _split_numeric_prefix at hc
  simp only at hc
  split at hc
  · exact hc
  · split at hc
    · exact hc
    · split at hc
      · rename_i t ht
        have h1 := mem_matchDotStarEnd ht hc
        have h2 := (List.drop_sublist _ _).mem h1
        have h3 := (List.drop_sublist _ _).mem h2
        exact (List.dropWhile_sublist _).mem h3
      · exact hc

theorem noChar_clean_dir_title {x : Char} (hx : x.toNat < 65) (hsp : ' ' ≠ x)
    (hUn : NoChar x "Untitled".data) {dn : Str} (hdn : NoChar x dn)
    (pt : Option Str) : NoChar x (clean_dir_title dn pt).1 := by
  unfold clean_dir_title
  simp only
  have h2 : NoChar x (pyStrip ( _split_numeric_prefix dn).2) :=
    noChar_strip (noChar_sub (fun c hc => mem_split_numeric_prefix hc) hdn)
  have h3 : NoChar x
      (match pt with
       | some p =>
           if p ≠ [] ∧ pyStartsWith (pyLower (pyStrip p) ++ " - ".data)
               (pyLower (pyStrip ( _split_numeric_prefix dn).2))
           then pyLStrip ((pyStrip ( _split_numeric_prefix dn).2).drop (p.length + 3))
           else pyStrip ( _split_numeric_prefix dn).2
       | none => pyStrip ( _split_numeric_prefix dn).2) := by
    split
    · split
      · exact noChar_sub
          (fun c hc => (List.drop_sublist _ _).mem (mem_pyLStrip hc)) h2
      · exact h2
    · exact h2
  split
  · exact hUn
  · exact noChar_smart_title hx hsp
      (noChar_strip (noChar_replaceChar (by intro h; exact hsp h)
        (noChar_replaceChar (by intro h; exact hsp h) h3)))

theorem mem_dropLitCI {c : Char} :
    ∀ {l : Str} {s r : Str}, dropLitCI l s = some r → c ∈ r → c ∈ s := by
  intro l
  induction l with
  | nil =>
      intro s r h hc
      cases h
      exact hc
  | cons a t ih =>
      intro s r h hc
      cases s with
      | nil => cases h
      | cons b bs =>
          unfold dropLitCI at h
          split at h
          · exact List.mem_cons_of_mem _ (ih h hc)
          · cases h

theorem mem_matchLazyMdTail {c : Char} :
    ∀ {s t : Str}, matchLazyMdTail s = some t → c ∈ t → c ∈ s := by
  intro s
  induction s with
  | nil =>
      intro t h hc
      unfold matchLazyMdTail at h
      split at h
      · cases h
        exact absurd hc (List.not_mem_nil c)
      · cases h
  | cons a r ih =>
      intro t h hc
      rw [show matchLazyMdTail (a :: r)
          = (if ((a :: r).take 3).map Char.toLower = ".md".data ∧
               ((a :: r).drop 3 = [] ∨ (a :: r).drop 3 = ['\n'])
             then some []
             else (if a = '\n' then none
                   else (matchLazyMdTail r).map (a :: ·))) from rfl] at h
      split at h
      · cases h
        exact absurd hc (List.not_mem_nil c)
      · split at h
        · cases h
        · obtain ⟨t2, ht2, hmap⟩ := Option.map_eq_some'.mp h
          have ht : a :: t2 = t := hmap
          subst ht
          rcases List.mem_cons.mp hc with rfl | hm
          · exact List.mem_cons_self _ _
          · exact List.mem_cons_of_mem _ (ih ht2 hm)

theorem mem_sepSkip {b : Char} {z : Str}
    (h : b ∈ (match z with
              | c :: cs => if isSepChar c = true then cs else z
              | [] => z)) : b ∈ z := by
  match z with
  | [] => exact h
  | c :: cs =>
      simp only at h
      split at h
      · exact List.mem_cons_of_mem _ h
      · exact h

theorem mem_chapterMatch {c : Char} {f d rest : Str}
    (h : chapterMatch f = some (d, rest)) (hc : c ∈ rest) : c ∈ f := by
  unfold chapterMatch at h
  split at h
  · cases h
  · rename_i r0 hdrop
    simp only at h
    split at h
    · cases h
    · obtain ⟨t2, ht2, hmap⟩ := Option.map_eq_some'.mp h
      have ht : t2 = rest := congrArg Prod.snd hmap
      subst ht
      refine mem_dropLitCI hdrop
        (mem_sepSkip ((List.drop_sublist _ _).mem
          (mem_sepSkip (mem_matchLazyMdTail ht2 hc))))

theorem mem_pathStem {c : Char} {s : Str} (hc : c ∈ pathStem s) : c ∈ s := by
  unfold pathStem at hc
  split at hc
  · exact hc
  · rename_i ext d pre hpair
    split at hc
    · exact hc
    · split at hc
      · exact hc
      · have hm : c ∈ List.dropWhile (fun x => decide (x ≠ '.')) s.reverse := by
          rw [hpair]
          exact List.mem_cons_of_mem _ (List.mem_reverse.mp hc)
        exact List.mem_reverse.mp ((List.dropWhile_sublist _).mem hm)

theorem noChar_parse_title {x : Char} (hx : x.toNat < 65) (hsp : ' ' ≠ x)
    (hdig : x.isDigit = false)
    (hR : NoChar x "README".data) (hCh : NoChar x "Chapter ".data)
    (hDash : NoChar x " — ".data) (hUn : NoChar x "Untitled".data)
    {f : Str} (hf : NoChar x f) : NoChar x (parse_chapter_title f).2 := by
  by_cases h1 : pyLower f = "readme.md".data
  · rw [show parse_chapter_title f = (none, "README".data) from by
      unfold parse_chapter_title
      rw [if_pos h1]]
    exact hR
  · rcases hcm : chapterMatch f with _ | ⟨d, rest⟩
    · have hval : (parse_chapter_title f).2
          = (if (pyStrip (pyReplaceChar '_' ' '
                (pyReplaceChar '-' ' ' (pathStem f)))).isEmpty = true
             then "Untitled".data
             else pyTitle (pyStrip (pyReplaceChar '_' ' '
                (pyReplaceChar '-' ' ' (pathStem f))))) := by
        unfold parse_chapter_title
        rw [if_neg h1, hcm]
      rw [hval]
      split
      · exact hUn
      · refine noChar_title hx ?_
        exact noChar_strip (noChar_replaceChar (fun h => hsp h)
          (noChar_replaceChar (fun h => hsp h)
            (noChar_sub (fun c hc => mem_pathStem hc) hf)))
    · have hrest : NoChar x rest :=
        noChar_sub (fun c hc => mem_chapterMatch hcm hc) hf
      have hval : (parse_chapter_title f).2
          = "Chapter ".data ++ natToStr (digitsToNat d) ++
            (if (pyStrip (pyReplaceChar '_' ' '
                  (pyReplaceChar '-' ' ' rest))).isEmpty = true
             then []
             else " — ".data ++ pyTitle (pyStrip (pyReplaceChar '_' ' '
                  (pyReplaceChar '-' ' ' rest)))) := by
        unfold parse_chapter_title
        rw [if_neg h1, hcm]
      rw [hval]
      refine noChar_append (noChar_append hCh (noChar_natToStr hdig _)) ?_
      split
      · exact fun c hc => absurd hc (List.not_mem_nil c)
      · refine noChar_append hDash (noChar_title hx ?_)
        exact noChar_strip (noChar_replaceChar (fun h => hsp h)
          (noChar_replaceChar (fun h => hsp h) hrest))

theorem noChar_tocLine {x : Char} (hx : x.toNat < 65) (hsp : ' ' ≠ x)
    (hdig : x.isDigit = false)
    (hR : NoChar x "README".data) (hCh : NoChar x "Chapter ".data)
    (hDash : NoChar x " — ".data) (hUn : NoChar x "Untitled".data)
    (hbr : NoChar x "- [".data) (hmid : NoChar x "](".data)
    (hcl : NoChar x ")".data)
    {f : Str} (hf : NoChar x f) : NoChar x (tocLineFor f) := by
  unfold tocLineFor
  exact noChar_append (noChar_append (noChar_append (noChar_append hbr
    (noChar_parse_title hx hsp hdig hR hCh hDash hUn hf)) hmid) hf) hcl

theorem noChar_build_fm {x : Char} (hnl : ('\n' : Char) ≠ x)
    (hdig : x.isDigit = false)
    (hlit : NoChar x "---title: parent: nav_order: has_children: truetoc: false".data)
    {title : Str} (ht : NoChar x title) {parent : Option Str}
    (hp : ∀ p, parent = some p → NoChar x p)
    (nav : Nat) (hc tf : Bool) :
    NoChar x (_build_index_front_matter title nav parent hc tf) := by
  have hL1 : NoChar x "---".data := noChar_sub (by decide) hlit
  have hL2 : NoChar x "title: ".data := noChar_sub (by decide) hlit
  have hL3 : NoChar x "parent: ".data := noChar_sub (by decide) hlit
  have hL4 : NoChar x "nav_order: ".data := noChar_sub (by decide) hlit
  have hL5 : NoChar x "has_children: true".data := noChar_sub (by decide) hlit
  have hL6 : NoChar x "toc: false".data := noChar_sub (by decide) hlit
  unfold _build_index_front_matter
  refine noChar_join hnl ?_
  intro p hp2
  simp only [List.append_assoc, List.cons_append, List.nil_append] at hp2
  rcases List.mem_cons.mp hp2 with rfl | hp2
  · exact hL1
  rcases List.mem_cons.mp hp2 with rfl | hp2
  · exact noChar_append hL2 ht
  rcases List.mem_append.mp hp2 with hp2 | hp2
  · rename_i hpar
    revert hp2
    split
    · rename_i pv
      split
      · exact fun hp2 => absurd hp2 (List.not_mem_nil p)
      · intro hp2
        rw [List.mem_singleton] at hp2
        subst hp2
        exact noChar_append hL3 (hp _ rfl)
    · exact fun hp2 => absurd hp2 (List.not_mem_nil p)
  rcases List.mem_cons.mp hp2 with rfl | hp2
  · exact noChar_append hL4 (noChar_natToStr hdig _)
  rcases List.mem_append.mp hp2 with hp2 | hp2
  · revert hp2
    split
    · intro hp2
      rw [List.mem_singleton] at hp2
      subst hp2
      exact hL5
    · exact fun hp2 => absurd hp2 (List.not_mem_nil p)
  rcases List.mem_append.mp hp2 with hp2 | hp2
  · revert hp2
    split
    · intro hp2
      rw [List.mem_singleton] at hp2
      subst hp2
      exact hL6
    · exact fun hp2 => absurd hp2 (List.not_mem_nil p)
  · rw [List.mem_singleton] at hp2
    subst hp2
    exact hL1

theorem pySplitFirst_eq_none {pat : Str} {h0 : Char}
    (hh : pat.head? = some h0) :
    ∀ {s : Str}, h0 ∉ s → pySplitFirst pat s = none := by
  intro s
  induction s with
  | nil =>
      intro _
      unfold pySplitFirst
      rw [if_neg]
      intro hp
      cases pat with
      | nil => cases hh
      | cons a t =>
          rw [List.isPrefixOf_iff_prefix] at hp
          obtain ⟨r, hr⟩ := hp
          cases hr
  | cons a t ih =>
      intro hnm
      unfold pySplitFirst
      rw [if_neg (fun hp => hnm (by
        rw [head_eq_of_isPrefixOf hh hp]
        exact List.mem_cons_self _ _))]
      have h2 := ih (fun hm => hnm (List.mem_cons_of_mem _ hm))
      simp only [h2]

theorem pyContains_eq_false_of_noChar {s : Str} (h : NoChar '<' s) :
    pyContains TOC_MARKER s = false := by
  unfold pyContains
  rw [pySplitFirst_eq_none (show TOC_MARKER.head? = some '<' from rfl)
    (fun hm => h _ hm rfl)]
  rfl

/-! ## Claim C1: split/join/strip structure -/

theorem pySplitChar_no_sep {sep : Char} :
    ∀ {s : Str}, sep ∉ s → pySplitChar sep s = [s] := by
  intro s
  induction s with
  | nil => exact fun _ => rfl
  | cons c cs ih =>
      intro h
      unfold pySplitChar
      rw [if_neg (fun hc => h (List.mem_cons.mpr (Or.inl hc.symm)))]
      rw [ih (fun hm => h (List.mem_cons_of_mem _ hm))]

theorem pySplitChar_append_sep {sep : Char} {r : Str} :
    ∀ {x : Str}, sep ∉ x →
      pySplitChar sep (x ++ sep :: r) = x :: pySplitChar sep r := by
  intro x
  induction x with
  | nil =>
      intro _
      rw [List.nil_append]
      simp only [pySplitChar]
      rw [if_pos trivial]
  | cons c cs ih =>
      intro h
      rw [List.cons_append]
      simp only [pySplitChar]
      rw [if_neg (fun hc => h (List.mem_cons.mpr (Or.inl hc.symm)))]
      rw [ih (fun hm => h (List.mem_cons_of_mem _ hm))]

theorem pySplitChar_pyJoinChar {sep : Char} :
    ∀ {l : List Str}, (∀ p ∈ l, sep ∉ p) → l ≠ [] →
      pySplitChar sep (pyJoinChar sep l) = l := by
  intro l
  induction l with
  | nil => exact fun _ h => absurd rfl h
  | cons p t ih =>
      intro hl _
      cases t with
      | nil => exact pySplitChar_no_sep (hl p (List.mem_cons_self _ _))
      | cons q r =>
          rw [show pyJoinChar sep (p :: q :: r) = p ++ sep :: pyJoinChar sep (q :: r)
            from rfl]
          rw [pySplitChar_append_sep (hl p (List.mem_cons_self _ _))]
          rw [ih (fun u hu => hl u (List.mem_cons_of_mem _ hu)) (by simp)]

theorem joinPath_injective {p q : SPath}
    (hp : ∀ s ∈ p, s ≠ [] ∧ ('/' : Char) ∉ s)
    (hq : ∀ s ∈ q, s ≠ [] ∧ ('/' : Char) ∉ s)
    (h : joinPath p = joinPath q) : p = q := by
  by_cases hpn : p = []
  · subst hpn
    cases q with
    | nil => rfl
    | cons a t =>
        exfalso
        unfold joinPath at h
        have h2 : pySplitChar '/' (pyJoinChar '/' ([] : List Str))
            = pySplitChar '/' (pyJoinChar '/' (a :: t)) := by rw [h]
        rw [pySplitChar_pyJoinChar (fun s hs => (hq s hs).2) (by simp)] at h2
        have : ([] : Str) ∈ a :: t := by
          rw [← h2]
          show ([] : Str) ∈ pySplitChar '/' (pyJoinChar '/' [])
          exact List.mem_singleton.mpr rfl
        exact (hq _ this).1 rfl
  · by_cases hqn : q = []
    · subst hqn
      exfalso
      unfold joinPath at h
      have h2 : pySplitChar '/' (pyJoinChar '/' p)
          = pySplitChar '/' (pyJoinChar '/' ([] : List Str)) := by rw [h]
      rw [pySplitChar_pyJoinChar (fun s hs => (hp s hs).2) hpn] at h2
      have : ([] : Str) ∈ p := by
        rw [h2]
        exact List.mem_singleton.mpr rfl
      exact (hp _ this).1 rfl
    · unfold joinPath at h
      have h2 : pySplitChar '/' (pyJoinChar '/' p)
          = pySplitChar '/' (pyJoinChar '/' q) := by rw [h]
      rw [pySplitChar_pyJoinChar (fun s hs => (hp s hs).2) hpn,
        pySplitChar_pyJoinChar (fun s hs => (hq s hs).2) hqn] at h2
      exact h2

theorem pyLStrip_cons_ws {c : Char} {s : Str} (hc : pyIsSpace c = true) :
    pyLStrip (c :: s) = pyLStrip s := by
  unfold pyLStrip
  rw [List.dropWhile_cons, if_pos hc]

theorem pyLStrip_cons_nws {c : Char} {s : Str} (hc : pyIsSpace c = false) :
    pyLStrip (c :: s) = c :: s := by
  unfold pyLStrip
  rw [List.dropWhile_cons, if_neg (by rw [hc]; exact Bool.noConfusion)]

theorem pyRStrip_append_nws {k : Str} {c : Char} (hc : pyIsSpace c = false) :
    pyRStrip (k ++ [c]) = k ++ [c] := by
  unfold pyRStrip
  rw [List.reverse_append]
  rw [show ([c] : Str).reverse = [c] from rfl, List.cons_append, List.nil_append]
  rw [List.dropWhile_cons, if_neg (by rw [hc]; exact Bool.noConfusion)]
  rw [List.reverse_cons, List.reverse_reverse]

theorem pyRStrip_append {a r : Str} (ha : pyRStrip a = a) :
    pyRStrip (a ++ r) = a ++ pyRStrip r := by
  unfold pyRStrip at ha ⊢
  rw [List.reverse_append, List.dropWhile_append]
  have ha2 : List.dropWhile pyIsSpace a.reverse = a.reverse := by
    have := congrArg List.reverse ha
    rw [List.reverse_reverse] at this
    exact this
  split
  · rename_i hemp
    rw [List.isEmpty_iff] at hemp
    rw [hemp, List.reverse_nil, List.append_nil, ha2, List.reverse_reverse]
  · rw [List.reverse_append, List.reverse_reverse]

theorem pyStrip_sandwich {J : Str} {j0 : Char} {K : Str} {jl : Char}
    (hJ : J = j0 :: (K ++ [jl])) (h0 : pyIsSpace j0 = false)
    (hl : pyIsSpace jl = false) :
    pyStrip ("\n\n".data ++ J ++ "\n".data) = J := by
  unfold pyStrip
  rw [show ("\n\n".data ++ J ++ "\n".data)
      = '\n' :: '\n' :: (J ++ ['\n']) from by
    rw [List.append_assoc]
    rfl]
  rw [pyLStrip_cons_ws (by decide), pyLStrip_cons_ws (by decide)]
  rw [hJ, List.cons_append, pyLStrip_cons_nws h0]
  have hst : pyRStrip (j0 :: (K ++ [jl])) = j0 :: (K ++ [jl]) := by
    rw [show j0 :: (K ++ [jl]) = (j0 :: K) ++ [jl] from by rw [List.cons_append]]
    exact pyRStrip_append_nws hl
  rw [show j0 :: ((K ++ [jl]) ++ ['\n']) = (j0 :: (K ++ [jl])) ++ ['\n'] from by
    rw [List.cons_append]]
  rw [pyRStrip_append hst]
  rw [show pyRStrip ['\n'] = [] from by decide, List.append_nil]

theorem skipTocLines_nil :
    ∀ {lines : List Str},
      (∀ l ∈ lines, pyStartsWith "- [".data (pyStrip l) = true) →
      skipTocLines lines = [] := by
  intro lines
  induction lines with
  | nil => exact fun _ => rfl
  | cons l t ih =>
      intro hl
      unfold skipTocLines
      rw [if_neg (fun hc => hc.2.1 (hl l (List.mem_cons_self _ _)))]
      exact ih (fun u hu => hl u (List.mem_cons_of_mem _ hu))

theorem strip_startswith_toc {r : Str} :
    pyStartsWith "- [".data (pyStrip ("- [".data ++ r)) = true := by
  unfold pyStrip
  rw [show ("- [".data ++ r) = '-' :: (" [".data ++ r) from rfl]
  rw [pyLStrip_cons_nws (by decide)]
  rw [show ('-' :: (" [".data ++ r)) = "- [".data ++ r from rfl]
  rw [pyRStrip_append (by decide)]
  unfold pyStartsWith
  rw [List.isPrefixOf_iff_prefix]
  exact List.prefix_append _ _

theorem noChar_of_decide (x : Char) (s : Str)
    (h : s.all (fun c => decide (c ≠ x)) = true) : NoChar x s :=
  fun c hc => of_decide_eq_true (List.all_eq_true.mp h c hc)

theorem pySplitFirst_sandwich {pat pre rest : Str} {h0 : Char}
    (hh : pat.head? = some h0) (hnm : h0 ∉ pre) :
    pySplitFirst pat (pre ++ (pat ++ rest)) = some (pre, rest) := by
  rw [← List.append_assoc]
  exact pySplitFirst_of_head_not_mem hh hnm

theorem mem_pySortedByNatKey {f : Str} {l : List Str} :
    f ∈ pySortedByNatKey l ↔ f ∈ l := by
  unfold pySortedByNatKey
  exact (List.perm_insertionSort _ l).mem_iff

theorem pySortedByNatKey_ne_nil {l : List Str} (h : l ≠ []) :
    pySortedByNatKey l ≠ [] := by
  intro hc
  cases l with
  | nil => exact h rfl
  | cons a t =>
      have := mem_pySortedByNatKey.mpr (List.mem_cons_self a t)
      rw [hc] at this
      exact absurd this (List.not_mem_nil a)

theorem join_head_shape (L0 r0 : Str) (Lt : List Str)
    (h0 : L0 = "- [".data ++ r0) :
    ∃ T, pyJoinChar '\n' (L0 :: Lt) = "- [".data ++ (r0 ++ T) := by
  rw [h0]
  cases Lt with
  | nil =>
      refine ⟨[], ?_⟩
      rw [show pyJoinChar '\n' ["- [".data ++ r0] = "- [".data ++ r0 from rfl]
      rw [List.append_nil]
  | cons q r =>
      refine ⟨'\n' :: pyJoinChar '\n' (q :: r), ?_⟩
      rw [show pyJoinChar '\n' (("- [".data ++ r0) :: q :: r)
          = ("- [".data ++ r0) ++ '\n' :: pyJoinChar '\n' (q :: r) from rfl]
      rw [List.append_assoc]

theorem join_last_shape {L : List Str}
    (hne : L ≠ []) (hl : ∀ p ∈ L, ∃ k, p = k ++ [')']) :
    ∃ K, pyJoinChar '\n' L = K ++ [')'] := by
  induction L with
  | nil => exact absurd rfl hne
  | cons p t ih =>
      cases t with
      | nil =>
          obtain ⟨k, hk⟩ := hl p (List.mem_cons_self _ _)
          exact ⟨k, by rw [show pyJoinChar '\n' [p] = p from rfl, hk]⟩
      | cons q r =>
          obtain ⟨K2, hK2⟩ := ih (by simp) (fun u hu => hl u (List.mem_cons_of_mem _ hu))
          refine ⟨p ++ '\n' :: K2, ?_⟩
          rw [show pyJoinChar '\n' (p :: q :: r) = p ++ '\n' :: pyJoinChar '\n' (q :: r)
            from rfl]
          rw [hK2, List.append_assoc, List.cons_append]

theorem pyEndsWith_append_nl (x : Str) :
    pyEndsWith "\n".data (x ++ "\n".data) = true := by
  unfold pyEndsWith
  exact List.isSuffixOf_iff_suffix.mpr (List.suffix_append x "\n".data)

/-- The core idempotence fact for indexes: re-reading a freshly composed
index preserves nothing — the front matter is marker-free and everything
after the marker is skipped as TOC lines. -/
theorem preservedTail_split (c pre rest : Str)
    (hsplit : pySplitFirst TOC_MARKER c = some (pre, rest))
    (hskip : skipTocLines (pySplitChar '\n' (pyStrip rest)) = []) :
    preservedTail (some c) = [] := by
  have hcont : pyContains TOC_MARKER c = true := by
    unfold pyContains
    rw [hsplit]
    rfl
  have hmax : pySplitMax1 TOC_MARKER c = [pre, rest] := by
    unfold pySplitMax1
    rw [hsplit]
  simp only [preservedTail]
  rw [hcont]
  rw [if_pos rfl]
  rw [hmax]
  show (if skipTocLines (pySplitChar '\n' (pyStrip rest)) ≠ [] then
      pyJoinChar '\n' (skipTocLines (pySplitChar '\n' (pyStrip rest))) ++ "\n".data
    else []) = []
  rw [hskip]
  exact if_neg (fun hc => hc rfl)

theorem preservedTail_fresh {fm : Str} (hfm : NoChar '<' fm)
    (toc : Option (List Str))
    (htoc : ∀ l, toc = some l → ∀ line ∈ l,
      (∃ r, line = "- [".data ++ r) ∧ (∃ k, line = k ++ [')']) ∧
      ('\n' : Char) ∉ line) :
    preservedTail (some (assembleIndexContent (fm ++ "\n\n".data) toc)) = [] := by
  have hcb : NoChar '<' (fm ++ "\n\n".data) :=
    noChar_append hfm (noChar_of_decide _ _ (by decide))
  match toc with
  | none =>
      rw [show assembleIndexContent (fm ++ "\n\n".data) none
          = (fm ++ "\n\n".data) from by
        unfold assembleIndexContent
        rw [if_pos (by
          rw [show fm ++ "\n\n".data = (fm ++ ['\n']) ++ "\n".data from by
            simp [List.append_assoc]]
          exact pyEndsWith_append_nl _)]]
      simp only [preservedTail]
      rw [pyContains_eq_false_of_noChar hcb]
      rw [if_neg (fun hc : (false = true) => Bool.noConfusion hc)]
  | some l =>
      cases hemp : l.isEmpty with
      | true =>
          rw [show assembleIndexContent (fm ++ "\n\n".data) (some l)
              = (fm ++ "\n\n".data) from by
            simp only [assembleIndexContent]
            rw [hemp]
            rw [if_pos rfl]
            rw [if_pos (by
              rw [show fm ++ "\n\n".data = (fm ++ ['\n']) ++ "\n".data from by
                simp [List.append_assoc]]
              exact pyEndsWith_append_nl _)]]
          simp only [preservedTail]
          rw [pyContains_eq_false_of_noChar hcb]
          rw [if_neg (fun hc : (false = true) => Bool.noConfusion hc)]
      | false =>
          have hlprops := htoc l rfl
          have hLprops : ∀ line ∈ pySortedByNatKey l,
              (∃ r, line = "- [".data ++ r) ∧ (∃ k, line = k ++ [')']) ∧
              ('\n' : Char) ∉ line :=
            fun line hl2 => hlprops line (mem_pySortedByNatKey.mp hl2)
          have hLne : pySortedByNatKey l ≠ [] :=
            pySortedByNatKey_ne_nil (by
              intro hc
              rw [hc] at hemp
              cases hemp)
          -- the assembled content
          have hasm : assembleIndexContent (fm ++ "\n\n".data) (some l)
              = (fm ++ "\n\n".data) ++ (TOC_MARKER ++ ("\n\n".data ++
                  (pyJoinChar '\n' (pySortedByNatKey l) ++ "\n".data))) := by
            simp only [assembleIndexContent]
            rw [hemp]
            rw [if_neg (fun hc : (false = true) => Bool.noConfusion hc)]
            rw [if_pos (pyEndsWith_append_nl _)]
            simp [List.append_assoc]
          rw [hasm]
          -- J's shape
          obtain ⟨L0, Lt, hLcons⟩ : ∃ a t, pySortedByNatKey l = a :: t := by
            cases hL : pySortedByNatKey l with
            | nil => exact absurd hL hLne
            | cons a t => exact ⟨a, t, rfl⟩
          rw [hLcons] at hLprops ⊢
          obtain ⟨r0, hr0⟩ := (hLprops L0 (List.mem_cons_self _ _)).1
          obtain ⟨K, hK⟩ := join_last_shape (by simp)
            (fun p hp => (hLprops p hp).2.1)
          obtain ⟨T, hT⟩ := join_head_shape L0 r0 Lt hr0
          have hJshape : ∃ K2, pyJoinChar '\n' (L0 :: Lt)
              = '-' :: (K2 ++ [')']) := by
            cases K with
            | nil =>
                exfalso
                rw [hK] at hT
                rw [List.nil_append] at hT
                exact absurd (List.cons_eq_cons.mp hT).1 (by decide)
            | cons k0 K2 =>
                refine ⟨K2, ?_⟩
                rw [hK, List.cons_append]
                have hk0 : k0 = '-' := by
                  rw [hK, List.cons_append] at hT
                  rw [show "- [".data ++ (r0 ++ T) = '-' :: (" [".data ++ (r0 ++ T))
                    from rfl] at hT
                  exact (List.cons_eq_cons.mp hT).1
                rw [hk0]
          obtain ⟨K2, hK2⟩ := hJshape
          have hsplit : pySplitFirst TOC_MARKER ((fm ++ "\n\n".data) ++ (TOC_MARKER ++
              ("\n\n".data ++ (pyJoinChar '\n' (L0 :: Lt) ++ "\n".data))))
              = some (fm ++ "\n\n".data,
                  "\n\n".data ++ (pyJoinChar '\n' (L0 :: Lt) ++ "\n".data)) :=
            pySplitFirst_sandwich rfl (fun hm => hcb _ hm rfl)
          refine preservedTail_split _ _ _ hsplit ?_
          have hstrip : pyStrip ("\n\n".data ++
              (pyJoinChar '\n' (L0 :: Lt) ++ "\n".data))
              = pyJoinChar '\n' (L0 :: Lt) := by
            rw [show "\n\n".data ++ (pyJoinChar '\n' (L0 :: Lt) ++ "\n".data)
                = "\n\n".data ++ pyJoinChar '\n' (L0 :: Lt) ++ "\n".data
              from by simp [List.append_assoc]]
            exact pyStrip_sandwich hK2 (by decide) (by decide)
          rw [hstrip]
          rw [pySplitChar_pyJoinChar (fun p hp => (hLprops p hp).2.2) (by simp)]
          exact skipTocLines_nil (fun line hl2 => by
            obtain ⟨r, hr⟩ := (hLprops line hl2).1
            rw [hr]
            exact strip_startswith_toc)

theorem compose_eq_assemble (fs : FileSys) (rel : SPath) (nav : Nat)
    (toc : Option (List Str)) :
    composeIndexContent fs rel nav toc
      = assembleIndexContent
          (_build_index_front_matter (indexTitleParent fs rel).1
            (if rel.length = 0 then 1 else nav) (indexTitleParent fs rel).2
            (has_child_dir_with_markdown fs rel) (tocFlag toc)
           ++ "\n\n".data
           ++ preservedTail (getFile fs ("docs".data :: rel ++ ["index.md".data])))
          toc := by
  cases toc <;> rfl

theorem fresh_eq_assemble (fs : FileSys) (rel : SPath) (nav : Nat)
    (toc : Option (List Str)) :
    freshIndexContent fs rel nav toc
      = assembleIndexContent
          (_build_index_front_matter (indexTitleParent fs rel).1
            (if rel.length = 0 then 1 else nav) (indexTitleParent fs rel).2
            (has_child_dir_with_markdown fs rel) (tocFlag toc)
           ++ "\n\n".data)
          toc := by
  cases toc <;> rfl

theorem composeIndexContent_absent (fs : FileSys) (rel : SPath) (nav : Nat)
    (toc : Option (List Str))
    (hread : getFile fs ("docs".data :: rel ++ ["index.md".data]) = none) :
    composeIndexContent fs rel nav toc = freshIndexContent fs rel nav toc := by
  rw [compose_eq_assemble, fresh_eq_assemble, hread]
  rw [show preservedTail none = [] from rfl, List.append_nil]

theorem composeIndexContent_stored (fs : FileSys) (rel : SPath) (nav : Nat)
    (toc : Option (List Str))
    (hfm : NoChar '<' (_build_index_front_matter (indexTitleParent fs rel).1
        (if rel.length = 0 then 1 else nav) (indexTitleParent fs rel).2
        (has_child_dir_with_markdown fs rel) (tocFlag toc)))
    (htoc : ∀ l, toc = some l → ∀ line ∈ l,
      (∃ r, line = "- [".data ++ r) ∧ (∃ k, line = k ++ [')']) ∧
      ('\n' : Char) ∉ line)
    (hread : getFile fs ("docs".data :: rel ++ ["index.md".data])
        = some (freshIndexContent fs rel nav toc)) :
    composeIndexContent fs rel nav toc = freshIndexContent fs rel nav toc := by
  rw [compose_eq_assemble, hread, fresh_eq_assemble]
  rw [preservedTail_fresh hfm toc htoc, List.append_nil]

/-! ## Generic list and filesystem frame lemmas for the idempotence proof -/

theorem find?_append_of_none {α : Type} (q : α → Bool) (l1 l2 : List α)
    (h : ∀ x ∈ l2, q x = false) :
    List.find? q (l1 ++ l2) = List.find? q l1 := by
  induction l1 with
  | nil =>
      rw [List.nil_append]
      exact List.find?_eq_none.mpr
        (fun a ha hqa => by rw [h a ha] at hqa; cases hqa)
  | cons a t ih =>
      cases hqa : q a with
      | true =>
          rw [List.cons_append, List.find?_cons_of_pos _ hqa,
            List.find?_cons_of_pos _ hqa]
      | false =>
          rw [List.cons_append,
            List.find?_cons_of_neg _ (by rw [hqa]; exact Bool.false_ne_true),
            List.find?_cons_of_neg _ (by rw [hqa]; exact Bool.false_ne_true), ih]

theorem find?_eq_some_of_uniq {α : Type} (q : α → Bool) (l : List α) (a : α)
    (hmem : a ∈ l) (hq : q a = true)
    (huniq : ∀ b ∈ l, q b = true → b = a) :
    List.find? q l = some a := by
  induction l with
  | nil => cases hmem
  | cons b t ih =>
      cases hqb : q b with
      | true =>
          rw [List.find?_cons_of_pos _ hqb]
          rw [huniq b (List.mem_cons_self b t) hqb]
      | false =>
          rw [List.find?_cons_of_neg _ (by rw [hqb]; exact Bool.false_ne_true)]
          have hba : a ≠ b := fun he => by rw [← he] at hqb; rw [hq] at hqb; cases hqb
          exact ih (by rcases List.mem_cons.mp hmem with he | ht
                       · exact absurd he hba
                       · exact ht)
            (fun b2 hb2 hq2 => huniq b2 (List.mem_cons_of_mem b hb2) hq2)

theorem foldl_fixed {α β : Type} (f : β → α → β) (s : β) (l : List α)
    (h : ∀ a ∈ l, f s a = s) : l.foldl f s = s := by
  induction l with
  | nil => rfl
  | cons a t ih =>
      rw [List.foldl_cons, h a (List.mem_cons_self a t)]
      exact ih (fun b hb => h b (List.mem_cons_of_mem a hb))

theorem getFile_append_none {wf bl : List (SPath × Str)} {ds : List SPath}
    {p : SPath} (h : ∀ e ∈ bl, e.1 ≠ p) :
    getFile ⟨wf ++ bl, ds⟩ p
      = (List.find? (fun e : SPath × Str => decide (e.1 = p)) wf).map
          (fun e => e.2) := by
  unfold getFile
  rw [show (FileSys.mk (wf ++ bl) ds).files = wf ++ bl from rfl]
  rw [find?_append_of_none _ wf bl
    (fun e he => by rw [decide_eq_false (h e he)])]

theorem getFile_frame {w2f : FileSys} {wf bl : List (SPath × Str)}
    {ds : List SPath} (hfe : w2f.files = wf)
    (h : ∀ e ∈ bl, e.1 ≠ p) :
    getFile ⟨wf ++ bl, ds⟩ p = getFile w2f p := by
  rw [getFile_append_none h]
  unfold getFile
  rw [hfe]

theorem fileExists_eq_false_of_not_mem {fs : FileSys} {p : SPath}
    (h : ∀ e ∈ fs.files, e.1 ≠ p) : fileExists fs p = false := by
  unfold fileExists getFile
  rw [List.find?_eq_none.mpr
    (fun e he hq => h e he (of_decide_eq_true hq))]
  rfl

theorem fileExists_eq_true_of_mem {fs : FileSys} {p : SPath} {c : Str}
    (h : (p, c) ∈ fs.files) : fileExists fs p = true := by
  unfold fileExists getFile
  have hs : (List.find? (fun e : SPath × Str => decide (e.1 = p)) fs.files).isSome
      = true :=
    List.find?_isSome.mpr ⟨(p, c), h, by simp⟩
  cases hfind : List.find? (fun e : SPath × Str => decide (e.1 = p)) fs.files with
  | none => rw [hfind] at hs; cases hs
  | some e => rfl

theorem setFile_absent {fs : FileSys} {p : SPath} (c : Str)
    (h : fileExists fs p = false) :
    setFile fs p c = { fs with files := fs.files ++ [(p, c)] } := by
  unfold setFile
  rw [h]
  rfl

theorem pyDictGet_nil {α : Type} (k : Str) : pyDictGet ([] : List (Str × α)) k = none := rfl

theorem reverseGet_nil (h : Str) : reverseGet [] h = none := rfl

theorem preservedTail_noMarker {c : Str} (h : NoChar '<' c) :
    preservedTail (some c) = [] := by
  simp only [preservedTail]
  rw [pyContains_eq_false_of_noChar h]
  rw [if_neg (fun hc : (false = true) => Bool.noConfusion hc)]

theorem assemble_none_nl (fm : Str) :
    assembleIndexContent (fm ++ "\n\n".data) none = fm ++ "\n\n".data := by
  unfold assembleIndexContent
  rw [if_pos]
  rw [show fm ++ "\n\n".data = (fm ++ "\n".data) ++ "\n".data by
    simp [List.append_assoc]]
  exact pyEndsWith_append_nl _

theorem head_eq_docs {p : SPath} (h : p.head? = some "docs".data) :
    ∃ t, p = "docs".data :: t := by
  cases p with
  | nil => cases h
  | cons a t =>
      refine ⟨t, ?_⟩
      injection h with h1
      rw [h1]

theorem isPrefixOf_eq_false_of_head_ne {rel p : SPath}
    (hrel : rel.head? ≠ some "docs".data) (hrne : rel ≠ [])
    (hp : p.head? = some "docs".data) : rel.isPrefixOf p = false := by
  cases hpf : rel.isPrefixOf p with
  | false => rfl
  | true =>
      exfalso
      obtain ⟨t, rfl⟩ := head_eq_docs hp
      cases rel with
      | nil => exact hrne rfl
      | cons r0 rr =>
          have hpre := List.isPrefixOf_iff_prefix.mp hpf
          have h0 := (List.cons_prefix_cons.mp hpre).1
          exact hrel (by rw [h0]; rfl)

theorem directFiles_frame {fs1 fs0 : FileSys} {bl : List (SPath × Str)}
    (hfe : fs1.files = fs0.files ++ bl)
    (hbl : ∀ e ∈ bl, e.1.head? = some "docs".data ∧ 2 ≤ e.1.length)
    {rel : SPath} (hrel : rel.head? ≠ some "docs".data) :
    directFiles fs1 rel = directFiles fs0 rel := by
  unfold directFiles
  rw [hfe, List.filterMap_append]
  have hnil : bl.filterMap (fun e =>
      if e.1.dropLast = rel ∧ e.1 ≠ [] then some (fileName e.1) else none) = [] := by
    rw [List.filterMap_eq_nil_iff]
    intro e he
    obtain ⟨hh, hl⟩ := hbl e he
    rw [if_neg]
    rintro ⟨hdrop, -⟩
    obtain ⟨t, hp⟩ := head_eq_docs hh
    cases t with
    | nil => rw [hp] at hl; exact absurd hl (by decide)
    | cons b t2 =>
        rw [hp, List.dropLast_cons₂] at hdrop
        exact hrel (by rw [← hdrop]; rfl)
  rw [hnil, List.append_nil]

theorem hasrec_frame {fs1 fs0 : FileSys} {bl : List (SPath × Str)}
    (hfe : fs1.files = fs0.files ++ bl)
    (hbl : ∀ e ∈ bl, e.1.head? = some "docs".data)
    {rel : SPath} (hrel : rel.head? ≠ some "docs".data) (hrne : rel ≠ []) :
    has_markdown_files_recursive fs1 rel
      = has_markdown_files_recursive fs0 rel := by
  unfold has_markdown_files_recursive
  rw [hfe, List.any_append]
  have hnil : bl.any (fun e =>
      rel.isPrefixOf e.1 && decide (rel.length < e.1.length) &&
      isMdNotIndex (fileName e.1)) = false := by
    rw [List.any_eq_false]
    intro e he
    rw [isPrefixOf_eq_false_of_head_ne hrel hrne (hbl e he)]
    exact Bool.false_ne_true
  rw [hnil, Bool.or_false]

theorem hasrec_mono {fs1 fs0 : FileSys} {bl : List (SPath × Str)}
    (hfe : fs1.files = fs0.files ++ bl) {rel : SPath}
    (h : has_markdown_files_recursive fs0 rel = true) :
    has_markdown_files_recursive fs1 rel = true := by
  unfold has_markdown_files_recursive at h ⊢
  rw [hfe, List.any_append, h]
  rfl

theorem dirExists_append {d0 dex : List SPath} {fs : FileSys}
    (hde : fs.dirs = d0 ++ dex) {q : SPath} :
    dirExists fs q = (d0.any (fun d => decide (d = q)) ||
      dex.any (fun d => decide (d = q))) := by
  unfold dirExists
  rw [hde, List.any_append]

theorem any_eq_false_of_docs {dex : List SPath}
    (hdex : ∀ d ∈ dex, d.head? = some "docs".data) {q : SPath}
    (hq : q.head? ≠ some "docs".data) :
    dex.any (fun d => decide (d = q)) = false := by
  rw [List.any_eq_false]
  intro d hd he
  exact hq ((of_decide_eq_true he) ▸ hdex d hd)

theorem dirExists_frame {fs1 fs0 : FileSys} {dex : List SPath}
    (hde : fs1.dirs = fs0.dirs ++ dex)
    (hdex : ∀ d ∈ dex, d.head? = some "docs".data)
    {q : SPath} (hq : q.head? ≠ some "docs".data) :
    dirExists fs1 q = dirExists fs0 q := by
  rw [dirExists_append hde, any_eq_false_of_docs hdex hq, Bool.or_false]
  rfl

theorem any_congr_mem {α : Type} {l : List α} {p q : α → Bool}
    (h : ∀ x ∈ l, p x = q x) : l.any p = l.any q := by
  induction l with
  | nil => rfl
  | cons a t ih =>
      rw [List.any_cons, List.any_cons, h a (List.mem_cons_self a t),
        ih (fun x hx => h x (List.mem_cons_of_mem a hx))]

theorem haschild_frame {fs1 fs0 : FileSys} {bl : List (SPath × Str)}
    {dex : List SPath}
    (hfe : fs1.files = fs0.files ++ bl)
    (hbl : ∀ e ∈ bl, e.1.head? = some "docs".data)
    (hde : fs1.dirs = fs0.dirs ++ dex)
    (hdex : ∀ d ∈ dex, d.head? = some "docs".data)
    (hd0 : ∀ d ∈ fs0.dirs, d.head? ≠ some "docs".data)
    {rel : SPath} (hrel : rel.head? ≠ some "docs".data) :
    has_child_dir_with_markdown fs1 rel
      = has_child_dir_with_markdown fs0 rel := by
  unfold has_child_dir_with_markdown
  rw [dirExists_frame hde hdex hrel]
  rw [hde, List.any_append]
  have hdexf : dex.any (fun c =>
      decide (c.dropLast = rel) && decide (c ≠ []) &&
      !(EXCLUDE_DIRS.contains (fileName c)) &&
      has_markdown_files_recursive fs1 c) = false := by
    rw [List.any_eq_false]
    intro c hc he
    obtain ⟨t, rfl⟩ := head_eq_docs (hdex c hc)
    cases t with
    | nil =>
        have hfn : EXCLUDE_DIRS.contains (fileName ["docs".data]) = true := by decide
        rw [hfn] at he
        simp at he
    | cons b t2 =>
        have hdl : ("docs".data :: b :: t2).dropLast ≠ rel := by
          rw [List.dropLast_cons₂]
          intro hc2
          exact hrel (by rw [← hc2]; rfl)
        rw [decide_eq_false hdl] at he
        simp at he
  rw [hdexf, Bool.or_false]
  have hcong : fs0.dirs.any (fun c =>
      decide (c.dropLast = rel) && decide (c ≠ []) &&
      !(EXCLUDE_DIRS.contains (fileName c)) &&
      has_markdown_files_recursive fs1 c)
    = fs0.dirs.any (fun c =>
      decide (c.dropLast = rel) && decide (c ≠ []) &&
      !(EXCLUDE_DIRS.contains (fileName c)) &&
      has_markdown_files_recursive fs0 c) := by
    refine any_congr_mem (fun c hc => ?_)
    by_cases h2 : c = []
    · subst h2
      simp
    · rw [hasrec_frame hfe hbl (hd0 c hc) h2]
  rw [hcong]

theorem haschild_eq_false_of_no_child {fs : FileSys} {rel : SPath}
    (h : ∀ c ∈ fs.dirs, c.dropLast ≠ rel) :
    has_child_dir_with_markdown fs rel = false := by
  unfold has_child_dir_with_markdown
  have hany : fs.dirs.any (fun c =>
      decide (c.dropLast = rel) && decide (c ≠ []) &&
      !(EXCLUDE_DIRS.contains (fileName c)) &&
      has_markdown_files_recursive fs c) = false := by
    rw [List.any_eq_false]
    intro c hc he
    rw [decide_eq_false (h c hc)] at he
    simp at he
  rw [hany, Bool.and_false]

theorem indexTitleParent_irrel (fs1 fs0 : FileSys) :
    ∀ {rel : SPath}, rel.length ≤ 1 →
      indexTitleParent fs1 rel = indexTitleParent fs0 rel
  | [], _ => rfl
  | [_], _ => rfl
  | _ :: _ :: _, h => absurd h (by simp [List.length_cons])

theorem filesParentTitle_irrel (fs1 fs0 : FileSys) :
    ∀ {rel : SPath}, rel.length ≤ 1 →
      filesParentTitle fs1 rel = filesParentTitle fs0 rel
  | [], _ => rfl
  | [_], _ => rfl
  | _ :: _ :: _, h => absurd h (by simp [List.length_cons])

theorem indexNavOrder_irrel (fs1 fs0 : FileSys) :
    ∀ {rel : SPath}, rel.length ≤ 1 →
      indexNavOrder fs1 rel = indexNavOrder fs0 rel
  | [], _ => rfl
  | [_], _ => rfl
  | _ :: _ :: _, h => absurd h (by simp [List.length_cons])

theorem should_exclude_one (fs : FileSys) (s1 : Str) :
    should_exclude_files_from_nav fs [s1]
      = has_child_dir_with_markdown fs [s1] := rfl

theorem tocToInject_none {rel : SPath} (h : rel.length ≤ 1)
    (fs : FileSys) (md : List Str) : tocToInject fs rel md = none := by
  unfold tocToInject
  rw [if_neg]
  rintro ⟨h2, -⟩
  omega

/-! ## mkdirParents: effect on each SyncSt component -/

theorem mkdirParents_eq (st : SyncSt) (p : SPath) :
    mkdirParents st p = (p.inits.filter (· ≠ [])).foldl mkdirStep st := rfl

theorem mkdirAux_files (l : List SPath) (st : SyncSt) :
    (l.foldl mkdirStep st).fs.files = st.fs.files := by
  induction l generalizing st with
  | nil => rfl
  | cons a t ih =>
      rw [List.foldl_cons, ih]
      unfold mkdirStep
      by_cases h : dirExists st.fs a = true
      · rw [if_pos h]
      · rw [if_neg h]

theorem mkdirAux_updated (l : List SPath) (st : SyncSt) :
    (l.foldl mkdirStep st).updated = st.updated := by
  induction l generalizing st with
  | nil => rfl
  | cons a t ih =>
      rw [List.foldl_cons, ih]
      unfold mkdirStep
      by_cases h : dirExists st.fs a = true
      · rw [if_pos h]
      · rw [if_neg h]

theorem mkdirAux_dirs (l : List SPath) (st : SyncSt) :
    ∃ ext, (l.foldl mkdirStep st).fs.dirs = st.fs.dirs ++ ext ∧
      ∀ d ∈ ext, d ∈ l := by
  induction l generalizing st with
  | nil => exact ⟨[], (List.append_nil _).symm, nofun⟩
  | cons a t ih =>
      rw [List.foldl_cons]
      by_cases h : dirExists st.fs a = true
      · have hst : mkdirStep st a = st := if_pos h
        rw [hst]
        obtain ⟨ext, he, hm⟩ := ih st
        exact ⟨ext, he, fun d hd => List.mem_cons_of_mem a (hm d hd)⟩
      · obtain ⟨ext, he, hm⟩ := ih (mkdirStep st a)
        have hd2 : (mkdirStep st a).fs.dirs = st.fs.dirs ++ [a] := by
          have hst : mkdirStep st a
              = { st with fs := { st.fs with dirs := st.fs.dirs ++ [a] },
                          events := st.events ++ [Ev.mkdirE a] } := if_neg h
          rw [hst]
        rw [hd2] at he
        refine ⟨[a] ++ ext, ?_, ?_⟩
        · rw [he, List.append_assoc]
        · intro d hd
          rcases List.mem_append.mp hd with h1 | h2
          · rcases List.mem_singleton.mp h1 with rfl
            exact List.mem_cons_self _ _
          · exact List.mem_cons_of_mem a (hm d h2)

theorem dirExists_mono_append {fs1 fs0 : FileSys} {ext : List SPath}
    (hde : fs1.dirs = fs0.dirs ++ ext) {q : SPath}
    (h : dirExists fs0 q = true) : dirExists fs1 q = true := by
  unfold dirExists at h ⊢
  rw [hde, List.any_append, h]
  rfl

theorem mkdirStep_post (st : SyncSt) (q : SPath) :
    dirExists (mkdirStep st q).fs q = true := by
  unfold mkdirStep
  by_cases h : dirExists st.fs q = true
  · rw [if_pos h]; exact h
  · rw [if_neg h]
    unfold dirExists
    rw [List.any_append]
    have h1 : [q].any (fun d => decide (d = q)) = true := by simp
    rw [h1, Bool.or_true]

theorem mkdirAux_post (l : List SPath) (st : SyncSt) :
    ∀ q ∈ l, dirExists (l.foldl mkdirStep st).fs q = true := by
  induction l generalizing st with
  | nil => exact nofun
  | cons a t ih =>
      intro q hq
      rw [List.foldl_cons]
      rcases List.mem_cons.mp hq with rfl | hqt
      · obtain ⟨ext, he, -⟩ := mkdirAux_dirs t (mkdirStep st q)
        exact dirExists_mono_append he (mkdirStep_post st q)
      · exact ih (mkdirStep st a) q hqt

theorem mkdirAux_noop (l : List SPath) (st : SyncSt)
    (h : ∀ q ∈ l, dirExists st.fs q = true) :
    l.foldl mkdirStep st = st :=
  foldl_fixed _ _ _ (fun a ha => if_pos (h a ha))

theorem mkdirParents_files (st : SyncSt) (p : SPath) :
    (mkdirParents st p).fs.files = st.fs.files := by
  rw [mkdirParents_eq]
  exact mkdirAux_files _ _

theorem mkdirParents_updated (st : SyncSt) (p : SPath) :
    (mkdirParents st p).updated = st.updated := by
  rw [mkdirParents_eq]
  exact mkdirAux_updated _ _

theorem mkdirParents_dirs (st : SyncSt) (p : SPath) :
    ∃ ext, (mkdirParents st p).fs.dirs = st.fs.dirs ++ ext ∧
      ∀ d ∈ ext, d ∈ p.inits ∧ d ≠ [] := by
  rw [mkdirParents_eq]
  obtain ⟨ext, he, hm⟩ := mkdirAux_dirs (p.inits.filter (· ≠ [])) st
  refine ⟨ext, he, fun d hd => ?_⟩
  rcases List.mem_filter.mp (hm d hd) with ⟨h1, h2⟩
  exact ⟨h1, of_decide_eq_true h2⟩

theorem mkdirParents_post (st : SyncSt) (p : SPath) :
    ∀ q ∈ p.inits, q ≠ [] → dirExists (mkdirParents st p).fs q = true := by
  intro q hq hne
  rw [mkdirParents_eq]
  exact mkdirAux_post _ st q (List.mem_filter.mpr ⟨hq, decide_eq_true hne⟩)

theorem mkdirParents_noop (st : SyncSt) (p : SPath)
    (h : ∀ q ∈ p.inits, q ≠ [] → dirExists st.fs q = true) :
    mkdirParents st p = st := by
  rw [mkdirParents_eq]
  refine mkdirAux_noop _ _ (fun q hq => ?_)
  rcases List.mem_filter.mp hq with ⟨h1, h2⟩
  exact h q h1 (of_decide_eq_true h2)

theorem mem_inits_cons {a : Str} {l : List Str} {q : SPath}
    (hq : q ∈ (a :: l).inits) (hne : q ≠ []) :
    ∃ t, q = a :: t ∧ t ∈ l.inits := by
  have hpre : q <+: a :: l := (List.mem_inits _ _).mp hq
  cases q with
  | nil => exact absurd rfl hne
  | cons b t =>
      obtain ⟨hb, ht⟩ := List.cons_prefix_cons.mp hpre
      exact ⟨t, by rw [hb], (List.mem_inits _ _).mpr ht⟩

/-! ## Dictionary lookups and title character sets -/

theorem find?_append_left_none {α : Type} (q : α → Bool) (l1 l2 : List α)
    (h : List.find? q l1 = none) :
    List.find? q (l1 ++ l2) = List.find? q l2 := by
  induction l1 with
  | nil => rw [List.nil_append]
  | cons a t ih =>
      cases hqa : q a with
      | true => rw [List.find?_cons_of_pos _ hqa] at h; cases h
      | false =>
          rw [List.find?_cons_of_neg _ (by rw [hqa]; exact Bool.false_ne_true)] at h
          rw [List.cons_append,
            List.find?_cons_of_neg _ (by rw [hqa]; exact Bool.false_ne_true)]
          exact ih h

theorem pyDictGet_mem {α : Type} {d : List (Str × α)} {k : Str} {v : α}
    (h : pyDictGet d k = some v) : (k, v) ∈ d := by
  induction d with
  | nil => cases h
  | cons e rest ih =>
      obtain ⟨k0, v0⟩ := e
      simp only [pyDictGet] at h
      cases hr : pyDictGet rest k with
      | some v2 =>
          rw [hr] at h
          injection h with h2
          exact List.mem_cons_of_mem _ (ih (by rw [hr, h2]))
      | none =>
          rw [hr] at h
          by_cases hk : k0 = k
          · rw [if_pos hk] at h
            injection h with h2
            exact List.mem_cons.mpr (Or.inl (by rw [hk, h2]))
          · rw [if_neg hk] at h
            cases h

theorem getFile_append_right {wf bl : List (SPath × Str)} {ds : List SPath}
    {p : SPath} {c : Str}
    (hleft : ∀ e ∈ wf, e.1 ≠ p) (hmem : (p, c) ∈ bl)
    (huniq : ∀ e ∈ bl, e.1 = p → e = (p, c)) :
    getFile ⟨wf ++ bl, ds⟩ p = some c := by
  unfold getFile
  rw [show (FileSys.mk (wf ++ bl) ds).files = wf ++ bl from rfl]
  rw [find?_append_left_none _ wf bl
    (List.find?_eq_none.mpr (fun e he hq => hleft e he (of_decide_eq_true hq)))]
  rw [find?_eq_some_of_uniq _ bl (p, c) hmem (by simp)
    (fun b hb hq => huniq b hb (of_decide_eq_true hq))]
  rfl

theorem noChar_pyTitleAux {x : Char} (hx : x.toNat < 65) (s : Str) :
    ∀ (prev : Bool), NoChar x s → NoChar x (pyTitleAux prev s) := by
  induction s with
  | nil => exact fun prev _ => nofun
  | cons c cs ih =>
      intro prev hs d hd
      rw [show pyTitleAux prev (c :: cs)
          = (pyTitleStep prev c).2 :: pyTitleAux (pyTitleStep prev c).1 cs
        from rfl] at hd
      rcases List.mem_cons.mp hd with rfl | hdt
      · have hc : c ≠ x := hs c (List.mem_cons_self _ _)
        unfold pyTitleStep
        by_cases ha : c.isAlpha = true
        · rw [if_pos ha]
          cases prev with
          | true => exact toLower_ne (by omega) hc
          | false => exact toUpper_ne hx hc
        · rw [if_neg ha]
          exact hc
      · exact ih (pyTitleStep prev c).1
          (fun e he hex => hs e (List.mem_cons_of_mem c he) hex) d hdt

theorem noChar_pyTitle {x : Char} (hx : x.toNat < 65) {s : Str}
    (hs : NoChar x s) : NoChar x (pyTitle s) :=
  noChar_pyTitleAux hx s false hs

theorem noChar_section_title_values :
    ∀ kv ∈ section_title_map, NoChar '<' kv.2 := by decide

theorem noChar_section_title (k : Str) {dn : Str} (hdn : NoChar '<' dn) :
    NoChar '<' (pyDictGetD section_title_map k (pyTitle dn)) := by
  unfold pyDictGetD
  cases hg : pyDictGet section_title_map k with
  | some v =>
      exact noChar_section_title_values (k, v) (pyDictGet_mem hg)
  | none =>
      exact noChar_pyTitle (by decide) hdn

/-! ## The index content of a shallow directory -/

theorem freshIndex_none_eq (fs : FileSys) (rel : SPath) (nav : Nat) :
    freshIndexContent fs rel nav none
      = _build_index_front_matter (indexTitleParent fs rel).1
          (if rel.length = 0 then 1 else nav) (indexTitleParent fs rel).2
          (has_child_dir_with_markdown fs rel) false ++ "\n\n".data := by
  rw [fresh_eq_assemble]
  rw [show tocFlag none = false from rfl]
  exact assemble_none_nl _

theorem indexTitleParent_snd_shallow (fs : FileSys) :
    ∀ {rel : SPath}, rel.length ≤ 1 → (indexTitleParent fs rel).2 = none
  | [], _ => rfl
  | [_], _ => rfl
  | _ :: _ :: _, h => absurd h (by simp [List.length_cons])

theorem noChar_indexTitle_shallow (fs : FileSys) :
    ∀ {rel : SPath}, rel.length ≤ 1 → (∀ seg ∈ rel, NoChar '<' seg) →
      NoChar '<' (indexTitleParent fs rel).1
  | [], _, _ => by
      show NoChar '<' "Home".data
      decide
  | [s1], _, hseg => by
      show NoChar '<' (pyDictGetD section_title_map
        (pyLower (fileName [s1])) (pyTitle (fileName [s1])))
      exact noChar_section_title _ (hseg s1 (List.mem_cons_self _ _))
  | _ :: _ :: _, h, _ => absurd h (by simp [List.length_cons])

theorem noChar_freshIndex_none {fs : FileSys} {rel : SPath} (nav : Nat)
    (hlen : rel.length ≤ 1) (hseg : ∀ seg ∈ rel, NoChar '<' seg) :
    NoChar '<' (freshIndexContent fs rel nav none) := by
  rw [freshIndex_none_eq]
  refine noChar_append ?_ (by decide)
  refine noChar_build_fm (by decide) (by decide) (by decide)
    (noChar_indexTitle_shallow fs hlen hseg) ?_ _ _ _
  intro p hp
  rw [indexTitleParent_snd_shallow fs hlen] at hp
  cases hp

theorem compose_over_fresh {fs1 fs0 : FileSys} {rel : SPath} {nav : Nat}
    (hread : getFile fs1 ("docs".data :: rel ++ ["index.md".data])
        = some (freshIndexContent fs0 rel nav none))
    (htp : indexTitleParent fs1 rel = indexTitleParent fs0 rel)
    (hhc : has_child_dir_with_markdown fs1 rel
        = has_child_dir_with_markdown fs0 rel)
    (hnc : NoChar '<' (freshIndexContent fs0 rel nav none)) :
    composeIndexContent fs1 rel nav none
      = freshIndexContent fs0 rel nav none := by
  rw [compose_eq_assemble, hread, preservedTail_noMarker hnc, List.append_nil]
  rw [htp, hhc]
  rw [← fresh_eq_assemble]

theorem compose_absent_stable {fs1 fs0 : FileSys} {rel : SPath} {nav : Nat}
    (hread : getFile fs1 ("docs".data :: rel ++ ["index.md".data]) = none)
    (htp : indexTitleParent fs1 rel = indexTitleParent fs0 rel)
    (hhc : has_child_dir_with_markdown fs1 rel
        = has_child_dir_with_markdown fs0 rel) :
    composeIndexContent fs1 rel nav none
      = freshIndexContent fs0 rel nav none := by
  rw [compose_eq_assemble, hread, show preservedTail none = [] from rfl,
    List.append_nil, htp, hhc, ← fresh_eq_assemble]

/-! ## Direct files and mdFiles membership -/

theorem directFiles_mem_src {fs : FileSys} {rel : SPath} {f : Str}
    (h : f ∈ directFiles fs rel) : ∃ c, (rel ++ [f], c) ∈ fs.files := by
  unfold directFiles at h
  rcases List.mem_filterMap.mp h with ⟨e, he, hg⟩
  by_cases hc : e.1.dropLast = rel ∧ e.1 ≠ []
  · rw [if_pos hc] at hg
    injection hg with hg2
    rcases List.eq_nil_or_concat e.1 with hnil | ⟨l2, b, hcat⟩
    · exact absurd hnil hc.2
    · rw [List.concat_eq_append] at hcat
      have hdl : e.1.dropLast = l2 := by rw [hcat]; simp
      have hfn : fileName e.1 = b := by
        rw [hcat]
        unfold fileName
        exact List.getLastD_concat _ _ _
      refine ⟨e.2, ?_⟩
      have : e.1 = rel ++ [f] := by
        rw [hcat, ← hdl, hc.1, ← hg2, hfn]
      rw [← this]
      exact he
  · rw [if_neg hc] at hg
    cases hg

theorem directFiles_mem_of_src {fs : FileSys} {rel : SPath} {f : Str} {c : Str}
    (h : (rel ++ [f], c) ∈ fs.files) : f ∈ directFiles fs rel := by
  unfold directFiles
  refine List.mem_filterMap.mpr ⟨(rel ++ [f], c), h, ?_⟩
  rw [if_pos ⟨by simp, by simp⟩]
  have : fileName (rel ++ [f]) = f := by
    unfold fileName
    exact List.getLastD_concat _ _ _
  rw [this]

theorem mem_mdFiles {fs : FileSys} {rel : SPath} {f : Str} :
    f ∈ mdFiles fs rel ↔
      f ∈ directFiles fs rel ∧ isMdNotIndex f = true := by
  unfold mdFiles pySortedStr
  rw [(List.perm_insertionSort _ _).mem_iff]
  exact List.mem_filter

theorem isMdNotIndex_props {f : Str} (h : isMdNotIndex f = true) :
    pyEndsWith ".md".data f = true ∧ f ≠ "index.md".data ∧ f ≠ "docs".data := by
  unfold isMdNotIndex at h
  rcases Bool.and_eq_true_iff.mp h with ⟨h1, h2⟩
  refine ⟨h1, ?_, ?_⟩
  · intro he
    rw [he] at h2
    exact absurd h2 (by decide)
  · intro he
    rw [he] at h1
    exact absurd h1 (by decide)

theorem directFiles_nodup {fs : FileSys} {rel : SPath}
    (hn : (fs.files.map Prod.fst).Nodup) : (directFiles fs rel).Nodup := by
  have he : directFiles fs rel
      = (fs.files.map Prod.fst).filterMap (fun p =>
          if p.dropLast = rel ∧ p ≠ [] then some (fileName p) else none) := by
    rw [List.filterMap_map]
    rfl
  rw [he]
  refine List.Nodup.filterMap ?_ hn
  intro a a' b hb hb'
  by_cases hca : a.dropLast = rel ∧ a ≠ []
  · rw [if_pos hca] at hb
    by_cases hca' : a'.dropLast = rel ∧ a' ≠ []
    · rw [if_pos hca'] at hb'
      injection hb with h1
      injection hb' with h2
      rcases List.eq_nil_or_concat a with hnil | ⟨l2, x, hcat⟩
      · exact absurd hnil hca.2
      rcases List.eq_nil_or_concat a' with hnil' | ⟨l2', x', hcat'⟩
      · exact absurd hnil' hca'.2
      rw [List.concat_eq_append] at hcat hcat'
      have hd1 : l2 = rel := by
        rw [← hca.1, hcat]
        simp
      have hd2 : l2' = rel := by
        rw [← hca'.1, hcat']
        simp
      have hx1 : x = b := by
        rw [← h1, hcat]
        unfold fileName
        rw [List.getLastD_concat _ _ _]
      have hx2 : x' = b := by
        rw [← h2, hcat']
        unfold fileName
        rw [List.getLastD_concat _ _ _]
      rw [hcat, hcat', hd1, hd2, hx1, hx2]
    · rw [if_neg hca'] at hb'
      cases hb'
  · rw [if_neg hca] at hb
    cases hb

theorem mdFiles_nodup {fs : FileSys} {rel : SPath}
    (hn : (fs.files.map Prod.fst).Nodup) : (mdFiles fs rel).Nodup := by
  unfold mdFiles pySortedStr
  exact ((List.perm_insertionSort _ _).nodup_iff).mpr
    ((directFiles_nodup hn).filter _)

/-! ## syncOneFile on an empty cache and on a cache hit -/

theorem syncOneFile_cache_nil (rel : SPath) (se : Bool) (pt : Option Str)
    (st : SyncSt) (i : Nat) (fname : Str) :
    syncOneFile [] false rel se pt st i fname
      = { st with
          fs := setFile st.fs ("docs".data :: rel ++ [fname])
            (file_front_matter (parse_chapter_title fname).2 se pt
              ((parse_chapter_title fname).1.getD (i + 1))
              ++ (getFile st.fs (rel ++ [fname])).getD []),
          updated := st.updated ++ [(joinPath (rel ++ [fname]),
            file_front_matter (parse_chapter_title fname).2 se pt
              ((parse_chapter_title fname).1.getD (i + 1))
              ++ (getFile st.fs (rel ++ [fname])).getD [])],
          events := (st.events ++
            [Ev.writeFileE ("docs".data :: rel ++ [fname])
              (file_front_matter (parse_chapter_title fname).2 se pt
                ((parse_chapter_title fname).1.getD (i + 1))
                ++ (getFile st.fs (rel ++ [fname])).getD [])]) ++
            [Ev.logSync ("docs".data :: rel ++ [fname])] } := rfl

theorem syncOneFile_cache_hit (cache : List (Str × Str)) (rel : SPath)
    (se : Bool) (pt : Option Str) (st : SyncSt) (i : Nat) (fname : Str)
    (hhit : pyDictGet cache (joinPath (rel ++ [fname]))
        = some (file_front_matter (parse_chapter_title fname).2 se pt
            ((parse_chapter_title fname).1.getD (i + 1))
            ++ (getFile st.fs (rel ++ [fname])).getD [])) :
    syncOneFile cache false rel se pt st i fname
      = { st with updated := st.updated ++ [(joinPath (rel ++ [fname]),
          file_front_matter (parse_chapter_title fname).2 se pt
            ((parse_chapter_title fname).1.getD (i + 1))
            ++ (getFile st.fs (rel ++ [fname])).getD [])] } := by
  simp only [syncOneFile]
  rw [if_neg (fun hne => hne hhit)]
  rfl

theorem getFile_congr_files {fs1 fs2 : FileSys} (h : fs1.files = fs2.files)
    (p : SPath) : getFile fs1 p = getFile fs2 p := by
  unfold getFile
  rw [h]

theorem getFile_frame2 {fs wfs : FileSys} {bl : List (SPath × Str)}
    (hfe : fs.files = wfs.files ++ bl) {p : SPath}
    (h : ∀ e ∈ bl, e.1 ≠ p) : getFile fs p = getFile wfs p := by
  unfold getFile
  rw [hfe, find?_append_of_none _ _ bl
    (fun e he => decide_eq_false (h e he))]

theorem src_head_not_docs {rel : SPath} (hrel : rel.head? ≠ some "docs".data)
    {f : Str} (hf : isMdNotIndex f = true) :
    (rel ++ [f]).head? ≠ some "docs".data := by
  cases rel with
  | nil =>
      intro hc
      injection hc with hc1
      exact (isMdNotIndex_props hf).2.2 hc1
  | cons a t =>
      intro hc
      exact hrel (by rw [List.cons_append] at hc; exact hc)

/-- One pass of the per-file loop over an empty cache: every file is
written, outputs are appended in order, and the cache entries accumulate
in the same order. -/
theorem syncFold_run1 (rel : SPath) (se : Bool) (pt : Option Str)
    (wfs : FileSys) :
    ∀ (L : List (Nat × Str)) (st : SyncSt) (bl : List (SPath × Str)),
      st.fs.files = wfs.files ++ bl →
      (∀ p ∈ L, (rel ++ [p.2]).head? ≠ some "docs".data) →
      (∀ e ∈ bl, e.1.head? = some "docs".data) →
      (∀ p ∈ L, ∀ e ∈ bl, e.1 ≠ "docs".data :: rel ++ [p.2]) →
      (∀ p ∈ L, ∀ e ∈ wfs.files, e.1 ≠ "docs".data :: rel ++ [p.2]) →
      (L.map Prod.snd).Nodup →
      (L.foldl (fun s p => syncOneFile [] false rel se pt s p.1 p.2)
          st).fs.files
        = st.fs.files ++ L.map (fun p => ("docs".data :: rel ++ [p.2],
            file_front_matter (parse_chapter_title p.2).2 se pt
              ((parse_chapter_title p.2).1.getD (p.1 + 1))
              ++ (getFile wfs (rel ++ [p.2])).getD [])) ∧
      (L.foldl (fun s p => syncOneFile [] false rel se pt s p.1 p.2)
          st).updated
        = st.updated ++ L.map (fun p => (joinPath (rel ++ [p.2]),
            file_front_matter (parse_chapter_title p.2).2 se pt
              ((parse_chapter_title p.2).1.getD (p.1 + 1))
              ++ (getFile wfs (rel ++ [p.2])).getD [])) ∧
      (L.foldl (fun s p => syncOneFile [] false rel se pt s p.1 p.2)
          st).fs.dirs
        = st.fs.dirs := by
  intro L
  induction L with
  | nil =>
      intro st bl _ _ _ _ _ _
      refine ⟨?_, ?_, rfl⟩ <;> simp
  | cons p rest ih =>
      intro st bl hfe hp hbl hbldst hwdst hnd
      have hpmem := List.mem_cons_self p rest
      set DST := "docs".data :: rel ++ [p.2] with hDST
      set OUT := file_front_matter (parse_chapter_title p.2).2 se pt
        ((parse_chapter_title p.2).1.getD (p.1 + 1))
        ++ (getFile wfs (rel ++ [p.2])).getD [] with hOUT
      have habs : fileExists st.fs DST = false := by
        refine fileExists_eq_false_of_not_mem (fun e he => ?_)
        rw [hfe] at he
        rcases List.mem_append.mp he with h1 | h2
        · exact hwdst p hpmem e h1
        · exact hbldst p hpmem e h2
      have hb : getFile st.fs (rel ++ [p.2]) = getFile wfs (rel ++ [p.2]) := by
        refine getFile_frame2 hfe (fun e he hee => ?_)
        exact hp p hpmem (by rw [← hee]; exact hbl e he)
      have hstep : syncOneFile [] false rel se pt st p.1 p.2
          = { st with
              fs := { st.fs with files := st.fs.files ++ [(DST, OUT)] },
              updated := st.updated ++ [(joinPath (rel ++ [p.2]), OUT)],
              events := (st.events ++ [Ev.writeFileE DST OUT]) ++
                [Ev.logSync DST] } := by
        rw [syncOneFile_cache_nil, setFile_absent _ habs, hb]
      rw [List.foldl_cons, hstep]
      have hnd2 := List.nodup_cons.mp (by
        rw [List.map_cons] at hnd
        exact hnd)
      obtain ⟨ih1, ih2, ih3⟩ := ih
        { st with
          fs := { st.fs with files := st.fs.files ++ [(DST, OUT)] },
          updated := st.updated ++ [(joinPath (rel ++ [p.2]), OUT)],
          events := (st.events ++ [Ev.writeFileE DST OUT]) ++
            [Ev.logSync DST] }
        (bl ++ [(DST, OUT)])
        (by
          show st.fs.files ++ [(DST, OUT)] = wfs.files ++ (bl ++ [(DST, OUT)])
          rw [hfe, List.append_assoc])
        (fun q hq => hp q (List.mem_cons_of_mem p hq))
        (fun e he => by
          rcases List.mem_append.mp he with h1 | h2
          · exact hbl e h1
          · rcases List.mem_singleton.mp h2 with rfl
            rfl)
        (fun q hq e he => by
          rcases List.mem_append.mp he with h1 | h2
          · exact hbldst q (List.mem_cons_of_mem p hq) e h1
          · rcases List.mem_singleton.mp h2 with rfl
            show DST ≠ "docs".data :: rel ++ [q.2]
            intro hc
            rw [hDST] at hc
            have hc2 : rel ++ [p.2] = rel ++ [q.2] := by
              injection hc
            have hc3 : [p.2] = [q.2] := List.append_cancel_left hc2
            have hc4 : p.2 = q.2 := by injection hc3
            exact hnd2.1 (hc4 ▸ List.mem_map_of_mem Prod.snd hq))
        (fun q hq e he => hwdst q (List.mem_cons_of_mem p hq) e he)
        hnd2.2
      refine ⟨?_, ?_, ?_⟩
      · rw [ih1]
        show (st.fs.files ++ _) ++ _ = _
        rw [List.append_assoc, List.map_cons]
        rfl
      · rw [ih2]
        show (st.updated ++ _) ++ _ = _
        rw [List.append_assoc, List.map_cons]
        rfl
      · rw [ih3]

/-- One pass of the per-file loop over a cache that already holds every
file's current hash: nothing is written, only the cache entries are
re-accumulated. -/
theorem syncFold_run2 (rel : SPath) (se : Bool) (pt : Option Str)
    (cache : List (Str × Str)) :
    ∀ (L : List (Nat × Str)) (st : SyncSt),
      (∀ p ∈ L, pyDictGet cache (joinPath (rel ++ [p.2]))
          = some (file_front_matter (parse_chapter_title p.2).2 se pt
              ((parse_chapter_title p.2).1.getD (p.1 + 1))
              ++ (getFile st.fs (rel ++ [p.2])).getD [])) →
      L.foldl (fun s p => syncOneFile cache false rel se pt s p.1 p.2) st
        = { st with updated := st.updated ++ L.map (fun p =>
            (joinPath (rel ++ [p.2]),
             file_front_matter (parse_chapter_title p.2).2 se pt
               ((parse_chapter_title p.2).1.getD (p.1 + 1))
               ++ (getFile st.fs (rel ++ [p.2])).getD [])) } := by
  intro L
  induction L with
  | nil =>
      intro st _
      rw [List.foldl_nil, List.map_nil, List.append_nil]
  | cons p rest ih =>
      intro st hh
      rw [List.foldl_cons,
        syncOneFile_cache_hit cache rel se pt st p.1 p.2
          (hh p (List.mem_cons_self p rest))]
      rw [ih { st with updated := st.updated ++ [(joinPath (rel ++ [p.2]),
          file_front_matter (parse_chapter_title p.2).2 se pt
            ((parse_chapter_title p.2).1.getD (p.1 + 1))
            ++ (getFile st.fs (rel ++ [p.2])).getD [])] }
        (fun q hq => hh q (List.mem_cons_of_mem p hq))]
      have hupd : (st.updated ++ [(joinPath (rel ++ [p.2]),
          file_front_matter (parse_chapter_title p.2).2 se pt
            ((parse_chapter_title p.2).1.getD (p.1 + 1))
            ++ (getFile st.fs (rel ++ [p.2])).getD [])]) ++
          rest.map (fun p => (joinPath (rel ++ [p.2]),
            file_front_matter (parse_chapter_title p.2).2 se pt
              ((parse_chapter_title p.2).1.getD (p.1 + 1))
              ++ (getFile st.fs (rel ++ [p.2])).getD []))
        = st.updated ++ (p :: rest).map (fun p => (joinPath (rel ++ [p.2]),
            file_front_matter (parse_chapter_title p.2).2 se pt
              ((parse_chapter_title p.2).1.getD (p.1 + 1))
              ++ (getFile st.fs (rel ++ [p.2])).getD [])) := by
        rw [List.append_assoc, List.map_cons]
        rfl
      exact congrArg (fun u => { st with updated := u }) hupd

/-! ## Output block structure -/

theorem indexUpdateStep_skip {st : SyncSt} {rel : SPath} {nav : Nat}
    {toc : Option (List Str)}
    (h : getFile st.fs ("docs".data :: rel ++ ["index.md".data])
        = some (composeIndexContent st.fs rel nav toc)) :
    indexUpdateStep false st rel nav toc = st := by
  simp only [indexUpdateStep]
  rw [if_pos h]

theorem indexUpdateStep_write {st : SyncSt} {rel : SPath} {nav : Nat}
    {toc : Option (List Str)}
    (h : ¬ (getFile st.fs ("docs".data :: rel ++ ["index.md".data])
        = some (composeIndexContent st.fs rel nav toc))) :
    indexUpdateStep false st rel nav toc
      = { st with
          fs := setFile st.fs ("docs".data :: rel ++ ["index.md".data])
            (composeIndexContent st.fs rel nav toc),
          events := (st.events ++
            [Ev.writeFileE ("docs".data :: rel ++ ["index.md".data])
              (composeIndexContent st.fs rel nav toc)]) ++
            [Ev.logIndexUpd ("docs".data :: rel ++ ["index.md".data])] } := by
  simp only [indexUpdateStep]
  rw [if_neg h]
  rfl

theorem fileExists_of_getFile_none {fs : FileSys} {p : SPath}
    (h : getFile fs p = none) : fileExists fs p = false := by
  unfold fileExists
  rw [h]
  rfl

theorem dirExists_iff_mem {fs : FileSys} {q : SPath} :
    dirExists fs q = true ↔ q ∈ fs.dirs := by
  unfold dirExists
  rw [List.any_eq_true]
  constructor
  · rintro ⟨d, hd, he⟩
    rw [← of_decide_eq_true he]
    exact hd
  · intro hq
    exact ⟨q, hq, by simp⟩

theorem docs_key_inj {rel1 rel2 : SPath} {x1 x2 : Str}
    (he : "docs".data :: rel1 ++ [x1] = "docs".data :: rel2 ++ [x2]) :
    rel1 = rel2 ∧ x1 = x2 := by
  have he2 : rel1 ++ [x1] = rel2 ++ [x2] := by injection he
  have hlen : rel1.length = rel2.length := by
    have hl := congrArg List.length he2
    simp only [List.length_append, List.length_cons, List.length_nil] at hl
    omega
  obtain ⟨ha, hb⟩ := List.append_inj he2 hlen
  exact ⟨ha, by injection hb⟩

theorem secOutFiles_mem {wfs : FileSys} {rel : SPath} {e : SPath × Str}
    (he : e ∈ secOutFiles wfs rel) :
    (∃ p ∈ (mdFiles wfs rel).enum,
      e = ("docs".data :: rel ++ [p.2], mdOut wfs rel p.1 p.2) ∧
      isMdNotIndex p.2 = true) ∨
    e = ("docs".data :: rel ++ ["index.md".data],
      freshIndexContent wfs rel (indexNavOrder wfs rel) none) := by
  unfold secOutFiles at he
  rcases List.mem_append.mp he with h1 | h2
  · rcases List.mem_map.mp h1 with ⟨p, hp, hpe⟩
    refine Or.inl ⟨p, hp, hpe.symm, ?_⟩
    have : p.2 ∈ mdFiles wfs rel := List.snd_mem_of_mem_enumFrom hp
    exact (mem_mdFiles.mp this).2
  · exact Or.inr (List.mem_singleton.mp h2)

theorem secOutFiles_shape {wfs : FileSys} {rel : SPath} {e : SPath × Str}
    (he : e ∈ secOutFiles wfs rel) :
    ∃ x, e.1 = "docs".data :: rel ++ [x] := by
  rcases secOutFiles_mem he with ⟨p, -, hpe, -⟩ | hpe
  · exact ⟨p.2, by rw [hpe]⟩
  · exact ⟨"index.md".data, by rw [hpe]⟩

theorem outBlocks_mem {wfs : FileSys} {done : List SPath} {e : SPath × Str}
    (he : e ∈ outBlocks wfs done) :
    ∃ rel ∈ done, dirProcessed wfs rel = true ∧ e ∈ secOutFiles wfs rel := by
  unfold outBlocks at he
  rcases List.mem_flatMap.mp he with ⟨rel, hrel, hin⟩
  by_cases hp : dirProcessed wfs rel = true
  · rw [if_pos hp] at hin
    exact ⟨rel, hrel, hp, hin⟩
  · rw [if_neg hp] at hin
    cases hin

theorem outBlocks_entry_shape {wfs : FileSys} {done : List SPath}
    {e : SPath × Str} (he : e ∈ outBlocks wfs done) :
    e.1.head? = some "docs".data ∧ 2 ≤ e.1.length := by
  obtain ⟨rel, -, -, hsec⟩ := outBlocks_mem he
  obtain ⟨x, hx⟩ := secOutFiles_shape hsec
  rw [hx]
  refine ⟨rfl, ?_⟩
  simp [List.length_append]

theorem outBlocks_append (wfs : FileSys) (l1 l2 : List SPath) :
    outBlocks wfs (l1 ++ l2) = outBlocks wfs l1 ++ outBlocks wfs l2 := by
  unfold outBlocks
  rw [List.flatMap_append]

theorem updBlocks_append (wfs : FileSys) (l1 l2 : List SPath) :
    updBlocks wfs (l1 ++ l2) = updBlocks wfs l1 ++ updBlocks wfs l2 := by
  unfold updBlocks
  rw [List.flatMap_append]

theorem outBlocks_one_processed {wfs : FileSys} {rel : SPath}
    (h : dirProcessed wfs rel = true) :
    outBlocks wfs [rel] = secOutFiles wfs rel := by
  unfold outBlocks
  rw [List.flatMap_cons, List.flatMap_nil, List.append_nil, if_pos h]

theorem outBlocks_one_skipped {wfs : FileSys} {rel : SPath}
    (h : dirProcessed wfs rel = false) :
    outBlocks wfs [rel] = [] := by
  unfold outBlocks
  rw [List.flatMap_cons, List.flatMap_nil, List.append_nil,
    if_neg (by rw [h]; exact Bool.false_ne_true)]

theorem updBlocks_one_processed {wfs : FileSys} {rel : SPath}
    (h : dirProcessed wfs rel = true) :
    updBlocks wfs [rel] = secUpd wfs rel := by
  unfold updBlocks
  rw [List.flatMap_cons, List.flatMap_nil, List.append_nil, if_pos h]

theorem updBlocks_one_skipped {wfs : FileSys} {rel : SPath}
    (h : dirProcessed wfs rel = false) :
    updBlocks wfs [rel] = [] := by
  unfold updBlocks
  rw [List.flatMap_cons, List.flatMap_nil, List.append_nil,
    if_neg (by rw [h]; exact Bool.false_ne_true)]

/-! ## Processing decisions: stability across the run -/

theorem mdFiles_frame {fs1 fs0 : FileSys} {bl : List (SPath × Str)}
    (hfe : fs1.files = fs0.files ++ bl)
    (hbl : ∀ e ∈ bl, e.1.head? = some "docs".data ∧ 2 ≤ e.1.length)
    {rel : SPath} (hrel : rel.head? ≠ some "docs".data) :
    mdFiles fs1 rel = mdFiles fs0 rel := by
  unfold mdFiles
  rw [directFiles_frame hfe hbl hrel]

theorem hasrec_root_of_processed {wfs : FileSys} {rel : SPath}
    (hp : dirProcessed wfs rel = true) :
    has_markdown_files_recursive wfs [] = true := by
  unfold dirProcessed at hp
  rcases Bool.and_eq_true_iff.mp hp with ⟨-, h2⟩
  have hor : mdFiles wfs rel ≠ [] ∨
      has_markdown_files_recursive wfs rel = true := by
    by_cases he : mdFiles wfs rel = []
    · refine Or.inr ?_
      cases hr : has_markdown_files_recursive wfs rel with
      | true => rfl
      | false =>
          exfalso
          rw [he, hr] at h2
          exact Bool.noConfusion h2
    · exact Or.inl he
  have hex : ∃ q c, (q, c) ∈ wfs.files ∧ q ≠ [] ∧
      isMdNotIndex (fileName q) = true := by
    rcases hor with h3 | h3
    · obtain ⟨f, hf⟩ := List.exists_mem_of_ne_nil _ h3
      obtain ⟨hdf, hmd⟩ := mem_mdFiles.mp hf
      obtain ⟨c, hc⟩ := directFiles_mem_src hdf
      refine ⟨rel ++ [f], c, hc, by simp, ?_⟩
      have hfn : fileName (rel ++ [f]) = f := List.getLastD_concat _ _ _
      rw [hfn, hmd]
    · unfold has_markdown_files_recursive at h3
      rcases List.any_eq_true.mp h3 with ⟨e, hee, hpe⟩
      rcases Bool.and_eq_true_iff.mp hpe with ⟨hp1, hp3⟩
      rcases Bool.and_eq_true_iff.mp hp1 with ⟨-, hp2⟩
      refine ⟨e.1, e.2, hee, ?_, hp3⟩
      intro hnil
      rw [hnil] at hp2
      exact absurd (of_decide_eq_true hp2) (by simp)
  obtain ⟨q, c, hqc, hqne, hmd⟩ := hex
  unfold has_markdown_files_recursive
  rw [List.any_eq_true]
  refine ⟨(q, c), hqc, ?_⟩
  have h1 : List.isPrefixOf ([] : SPath) q = true := by
    cases q <;> rfl
  rw [h1]
  have h2 : decide (List.length ([] : SPath) < q.length) = true := by
    cases q with
    | nil => exact absurd rfl hqne
    | cons a t => simp
  rw [h2, hmd]
  rfl

theorem dirProcessed_false_of_no_root_md {wfs : FileSys}
    (hroot : has_markdown_files_recursive wfs [] = false) (rel : SPath) :
    dirProcessed wfs rel = false := by
  cases hp : dirProcessed wfs rel with
  | false => rfl
  | true => rw [hasrec_root_of_processed hp] at hroot; cases hroot

theorem outBlocks_nil_of_no_root_md {wfs : FileSys}
    (hroot : has_markdown_files_recursive wfs [] = false)
    (done : List SPath) : outBlocks wfs done = [] := by
  unfold outBlocks
  rw [List.flatMap_eq_nil_iff]
  intro rel _
  rw [dirProcessed_false_of_no_root_md hroot rel]
  rw [if_neg (fun hc : (false = true) => Bool.noConfusion hc)]

theorem processed_md_exists {wfs : FileSys} {rel : SPath}
    (hp : dirProcessed wfs rel = true)
    (hf6 : ∀ e ∈ wfs.files, e.1 ≠ [] ∧ e.1.length ≤ 2)
    (hrel1 : rel.length = 1) :
    ∃ f c, (rel ++ [f], c) ∈ wfs.files ∧ pyEndsWith ".md".data f = true := by
  unfold dirProcessed at hp
  rcases Bool.and_eq_true_iff.mp hp with ⟨-, h2⟩
  by_cases he : mdFiles wfs rel = []
  · have hr : has_markdown_files_recursive wfs rel = true := by
      cases hr2 : has_markdown_files_recursive wfs rel with
      | true => rfl
      | false => rw [he, hr2] at h2; exact absurd h2 (by decide)
    unfold has_markdown_files_recursive at hr
    rcases List.any_eq_true.mp hr with ⟨e, hee, hpe⟩
    rcases Bool.and_eq_true_iff.mp hpe with ⟨hp1, hp3⟩
    rcases Bool.and_eq_true_iff.mp hp1 with ⟨hpref, hlt⟩
    have hlen := (hf6 e hee).2
    have hlt2 := of_decide_eq_true hlt
    have hpre := List.isPrefixOf_iff_prefix.mp hpref
    obtain ⟨tail, htail⟩ := hpre
    have hlt3 : tail.length = 1 := by
      have := congrArg List.length htail
      simp only [List.length_append] at this
      omega
    obtain ⟨f, hft⟩ : ∃ f, tail = [f] := by
      cases tail with
      | nil => cases hlt3
      | cons a t =>
          cases t with
          | nil => exact ⟨a, rfl⟩
          | cons b t2 => simp at hlt3
    refine ⟨f, e.2, ?_, ?_⟩
    · rw [← hft, htail]
      exact hee
    · have hfn : fileName e.1 = f := by
        rw [← htail, hft]
        exact List.getLastD_concat _ _ _
      rw [← hfn]
      exact (isMdNotIndex_props hp3).1
  · obtain ⟨f, hf⟩ := List.exists_mem_of_ne_nil _ he
    obtain ⟨hdf, hmd⟩ := mem_mdFiles.mp hf
    obtain ⟨c, hc⟩ := directFiles_mem_src hdf
    exact ⟨f, c, hc, (isMdNotIndex_props hmd).1⟩

/-! ## dirStep branch equations -/

theorem dirStep_excluded (cache : List (Str × Str)) (dry : Bool)
    (st : SyncSt) (rel : SPath)
    (h : rel.any (fun seg => EXCLUDE_DIRS.contains seg) = true) :
    dirStep cache dry st rel = st := by
  simp only [dirStep]
  rw [h]
  rw [if_pos rfl]

theorem dirStep_skip (cache : List (Str × Str)) (dry : Bool)
    (st : SyncSt) (rel : SPath)
    (hexc : rel.any (fun seg => EXCLUDE_DIRS.contains seg) = false)
    (hskip : ((pySortedStr ((directFiles st.fs rel).filter isMdNotIndex)).isEmpty
        && !has_markdown_files_recursive st.fs rel) = true) :
    dirStep cache dry st rel = st := by
  simp only [dirStep]
  rw [hexc]
  rw [if_neg (fun hc : (false = true) => Bool.noConfusion hc)]
  rw [hskip]
  rw [if_pos rfl]

theorem dirStep_proceed (cache : List (Str × Str)) (dry : Bool)
    (st : SyncSt) (rel : SPath)
    (hexc : rel.any (fun seg => EXCLUDE_DIRS.contains seg) = false)
    (hproc : ((pySortedStr ((directFiles st.fs rel).filter isMdNotIndex)).isEmpty
        && !has_markdown_files_recursive st.fs rel) = false) :
    dirStep cache dry st rel
      = indexUpdateStep dry
          ((pySortedStr ((directFiles st.fs rel).filter isMdNotIndex)).enum.foldl
            (fun s p => syncOneFile cache dry rel
              (should_exclude_files_from_nav
                (mkdirParents st ("docs".data :: rel)).fs rel)
              (filesParentTitle (mkdirParents st ("docs".data :: rel)).fs rel)
              s p.1 p.2)
            (mkdirParents st ("docs".data :: rel)))
          rel
          (indexNavOrder
            ((pySortedStr ((directFiles st.fs rel).filter isMdNotIndex)).enum.foldl
              (fun s p => syncOneFile cache dry rel
                (should_exclude_files_from_nav
                  (mkdirParents st ("docs".data :: rel)).fs rel)
                (filesParentTitle (mkdirParents st ("docs".data :: rel)).fs rel)
                s p.1 p.2)
              (mkdirParents st ("docs".data :: rel))).fs rel)
          (tocToInject
            ((pySortedStr ((directFiles st.fs rel).filter isMdNotIndex)).enum.foldl
              (fun s p => syncOneFile cache dry rel
                (should_exclude_files_from_nav
                  (mkdirParents st ("docs".data :: rel)).fs rel)
                (filesParentTitle (mkdirParents st ("docs".data :: rel)).fs rel)
                s p.1 p.2)
              (mkdirParents st ("docs".data :: rel))).fs rel
            (pySortedStr ((directFiles st.fs rel).filter isMdNotIndex))) := by
  simp only [dirStep]
  rw [hexc]
  rw [if_neg (fun hc : (false = true) => Bool.noConfusion hc)]
  rw [hproc]
  rw [if_neg (fun hc : (false = true) => Bool.noConfusion hc)]

theorem getFile_none_of_not_mem {fs : FileSys} {p : SPath}
    (h : ∀ e ∈ fs.files, e.1 ≠ p) : getFile fs p = none := by
  unfold getFile
  rw [List.find?_eq_none.mpr (fun e he hq => h e he (of_decide_eq_true hq))]
  rfl

theorem should_exclude_stable {fs1 fs0 : FileSys} {bl : List (SPath × Str)}
    {dex : List SPath}
    (hfe : fs1.files = fs0.files ++ bl)
    (hbl : ∀ e ∈ bl, e.1.head? = some "docs".data)
    (hde : fs1.dirs = fs0.dirs ++ dex)
    (hdex : ∀ d ∈ dex, d.head? = some "docs".data)
    (hd0 : ∀ d ∈ fs0.dirs, d.head? ≠ some "docs".data) :
    ∀ {rel : SPath}, rel.head? ≠ some "docs".data → rel.length ≤ 1 →
      should_exclude_files_from_nav fs1 rel
        = should_exclude_files_from_nav fs0 rel
  | [], _, _ => rfl
  | [s1], hrel, _ => by
      rw [should_exclude_one, should_exclude_one]
      exact haschild_frame hfe hbl hde hdex hd0 hrel
  | _ :: _ :: _, _, h => absurd h (by simp [List.length_cons])

theorem run1Inv_extend_skip {w : World} {done : List SPath} {st : SyncSt}
    (hinv : run1Inv w done st) {rel : SPath}
    (hdp : dirProcessed w.fs rel = false) :
    run1Inv w (done ++ [rel]) st := by
  obtain ⟨hf, hu, hd, hm⟩ := hinv
  refine ⟨?_, ?_, hd, ?_⟩
  · rw [outBlocks_append, outBlocks_one_skipped hdp, List.append_nil]
    exact hf
  · rw [updBlocks_append, updBlocks_one_skipped hdp, List.append_nil]
    exact hu
  · intro rel2 hrel2 hp2 q hq hqne
    rcases List.mem_append.mp hrel2 with h1 | h2
    · exact hm rel2 h1 hp2 q hq hqne
    · rcases List.mem_singleton.mp h2 with rfl
      rw [hp2] at hdp
      cases hdp

set_option maxHeartbeats 2000000 in
/-- The central step lemma of the first run: processing one more source
directory preserves the run invariant. -/
theorem dirStep_run1 {w : World} (hwf : C1WF w) {done : List SPath}
    {st : SyncSt} (hinv : run1Inv w done st) {rel : SPath}
    (hmem : rel ∈ w.fs.dirs) (hndone : rel ∉ done) :
    run1Inv w (done ++ [rel]) (dirStep [] false st rel) := by
  obtain ⟨H1f, H1d, H3, H4, H5, H6f, H6d, H7f, H7d⟩ := hwf
  obtain ⟨hfiles, hupd, ⟨dex, hdirs, hdexp⟩, hmk⟩ := hinv
  have hblp : ∀ e ∈ outBlocks w.fs done,
      e.1.head? = some "docs".data ∧ 2 ≤ e.1.length :=
    fun e he => outBlocks_entry_shape he
  have hblh : ∀ e ∈ outBlocks w.fs done, e.1.head? = some "docs".data :=
    fun e he => (hblp e he).1
  have hdexh : ∀ d ∈ dex, d.head? = some "docs".data :=
    fun d hd => (hdexp d hd).1
  have hrelh : rel.head? ≠ some "docs".data := H1d rel hmem
  have hrel1 : rel.length ≤ 1 := H6d rel hmem
  by_cases hexc : rel.any (fun seg => EXCLUDE_DIRS.contains seg) = true
  · rw [dirStep_excluded _ _ _ _ hexc]
    refine run1Inv_extend_skip ⟨hfiles, hupd, ⟨dex, hdirs, hdexp⟩, hmk⟩ ?_
    unfold dirProcessed
    rw [hexc]
    rfl
  · have hexcf : rel.any (fun seg => EXCLUDE_DIRS.contains seg) = false := by
      cases h : rel.any (fun seg => EXCLUDE_DIRS.contains seg) with
      | true => exact absurd h hexc
      | false => rfl
    have hmdf : pySortedStr ((directFiles st.fs rel).filter isMdNotIndex)
        = mdFiles w.fs rel :=
      mdFiles_frame hfiles hblp hrelh
    by_cases hdp : dirProcessed w.fs rel = true
    · -- the directory is processed
      have h2 : ((mdFiles w.fs rel).isEmpty &&
          !has_markdown_files_recursive w.fs rel) = false := by
        unfold dirProcessed at hdp
        rcases Bool.and_eq_true_iff.mp hdp with ⟨-, hb⟩
        cases hc : ((mdFiles w.fs rel).isEmpty &&
            !has_markdown_files_recursive w.fs rel) with
        | false => rfl
        | true => rw [hc] at hb; cases hb
      have hor : mdFiles w.fs rel ≠ [] ∨
          has_markdown_files_recursive w.fs rel = true := by
        rcases Bool.and_eq_false_iff.mp h2 with h3 | h3
        · refine Or.inl (fun hnil => ?_)
          rw [hnil] at h3
          cases h3
        · refine Or.inr ?_
          cases hr : has_markdown_files_recursive w.fs rel with
          | true => rfl
          | false => rw [hr] at h3; cases h3
      have hproc : ((pySortedStr ((directFiles st.fs rel).filter
          isMdNotIndex)).isEmpty &&
          !has_markdown_files_recursive st.fs rel) = false := by
        rw [hmdf]
        rcases hor with h3 | h3
        · cases hie : (mdFiles w.fs rel).isEmpty with
          | false => rfl
          | true => exact absurd (List.isEmpty_iff.mp hie) h3
        · have hst : has_markdown_files_recursive st.fs rel = true := by
            by_cases hne : rel = []
            · rw [hne]
              rw [hne] at h3
              exact hasrec_mono hfiles h3
            · rw [hasrec_frame hfiles hblh hrelh hne]
              exact h3
          rw [hst]
          exact Bool.and_false _
      -- names for the intermediate states
      have hafiles : (mkdirParents st ("docs".data :: rel)).fs.files
          = w.fs.files ++ outBlocks w.fs done := by
        rw [mkdirParents_files]
        exact hfiles
      obtain ⟨ext, haext, hextm⟩ := mkdirParents_dirs st ("docs".data :: rel)
      have hextsh : ∀ q ∈ ext, ∃ t, q = "docs".data :: t ∧ t ∈ rel.inits := by
        intro q hq
        obtain ⟨h1, h2⟩ := hextm q hq
        exact mem_inits_cons h1 h2
      have hexth : ∀ d ∈ ext, d.head? = some "docs".data := by
        intro d hd
        obtain ⟨t, rfl, -⟩ := hextsh d hd
        rfl
      have hadirs : (mkdirParents st ("docs".data :: rel)).fs.dirs
          = w.fs.dirs ++ (dex ++ ext) := by
        rw [haext, hdirs, List.append_assoc]
      have hdexh2 : ∀ d ∈ dex ++ ext, d.head? = some "docs".data := by
        intro d hd
        rcases List.mem_append.mp hd with h1 | h1
        · exact hdexh d h1
        · exact hexth d h1
      -- stability of the per-file parameters
      have hse : should_exclude_files_from_nav
          (mkdirParents st ("docs".data :: rel)).fs rel
          = should_exclude_files_from_nav w.fs rel :=
        should_exclude_stable hafiles hblh hadirs hdexh2 H1d hrelh hrel1
      have hpt : filesParentTitle (mkdirParents st ("docs".data :: rel)).fs rel
          = filesParentTitle w.fs rel :=
        filesParentTitle_irrel _ _ hrel1
      rw [dirStep_proceed _ _ _ _ hexcf hproc, hmdf, hse, hpt]
      set STB := (mdFiles w.fs rel).enum.foldl
          (fun s p => syncOneFile [] false rel
            (should_exclude_files_from_nav w.fs rel)
            (filesParentTitle w.fs rel) s p.1 p.2)
          (mkdirParents st ("docs".data :: rel)) with hSTB
      -- the per-file pass
      obtain ⟨hb1, hb2, hb3⟩ := syncFold_run1 rel
        (should_exclude_files_from_nav w.fs rel) (filesParentTitle w.fs rel)
        w.fs (mdFiles w.fs rel).enum (mkdirParents st ("docs".data :: rel))
        (outBlocks w.fs done) hafiles
        (fun p hp => src_head_not_docs hrelh
          (mem_mdFiles.mp (List.snd_mem_of_mem_enumFrom hp)).2)
        hblh
        (fun p hp e he hee => by
          obtain ⟨rel2, hrel2, -, hsec⟩ := outBlocks_mem he
          obtain ⟨x, hx⟩ := secOutFiles_shape hsec
          rw [hx] at hee
          exact hndone ((docs_key_inj hee).1 ▸ hrel2))
        (fun p hp e he hee => H1f e he (by rw [hee]; rfl))
        (by rw [List.enum_map_snd]; exact mdFiles_nodup H5)
      rw [← hSTB] at hb1 hb2 hb3
      rw [tocToInject_none hrel1, indexNavOrder_irrel STB.fs w.fs hrel1]
      have hbfs : STB.fs.files
        = w.fs.files ++ (outBlocks w.fs done ++
            (mdFiles w.fs rel).enum.map (fun p =>
              ("docs".data :: rel ++ [p.2],
               file_front_matter (parse_chapter_title p.2).2
                 (should_exclude_files_from_nav w.fs rel)
                 (filesParentTitle w.fs rel)
                 ((parse_chapter_title p.2).1.getD (p.1 + 1))
                 ++ (getFile w.fs (rel ++ [p.2])).getD []))) := by
        rw [hb1, hafiles, List.append_assoc]
      have hmdblh : ∀ e ∈ (mdFiles w.fs rel).enum.map (fun p =>
          ("docs".data :: rel ++ [p.2],
           file_front_matter (parse_chapter_title p.2).2
             (should_exclude_files_from_nav w.fs rel)
             (filesParentTitle w.fs rel)
             ((parse_chapter_title p.2).1.getD (p.1 + 1))
             ++ (getFile w.fs (rel ++ [p.2])).getD [])),
          e.1.head? = some "docs".data := by
        intro e he
        rcases List.mem_map.mp he with ⟨p, -, hpe⟩
        rw [← hpe]
        rfl
      have hread : getFile STB.fs
          ("docs".data :: rel ++ ["index.md".data]) = none := by
        refine getFile_none_of_not_mem (fun e he hee => ?_)
        rw [hbfs] at he
        rcases List.mem_append.mp he with h1 | h1
        · exact H1f e h1 (by rw [hee]; rfl)
        rcases List.mem_append.mp h1 with h2 | h2
        · obtain ⟨rel2, hrel2, -, hsec⟩ := outBlocks_mem h2
          obtain ⟨x, hx⟩ := secOutFiles_shape hsec
          rw [hx] at hee
          exact hndone ((docs_key_inj hee).1 ▸ hrel2)
        · rcases List.mem_map.mp h2 with ⟨p, hp, hpe⟩
          rw [← hpe] at hee
          have hx := (docs_key_inj hee).2
          exact (isMdNotIndex_props
            (mem_mdFiles.mp (List.snd_mem_of_mem_enumFrom hp)).2).2.1 hx
      have hbdirs : STB.fs.dirs = w.fs.dirs ++ (dex ++ ext) := by
        rw [hb3, hadirs]
      have hcomp : composeIndexContent STB.fs rel
          (indexNavOrder w.fs rel) none
        = freshIndexContent w.fs rel (indexNavOrder w.fs rel) none := by
        refine compose_absent_stable hread
          (indexTitleParent_irrel _ _ hrel1) ?_
        refine haschild_frame hbfs ?_ hbdirs hdexh2 H1d hrelh
        intro e he
        rcases List.mem_append.mp he with h1 | h1
        · exact hblh e h1
        · exact hmdblh e h1
      rw [indexUpdateStep_write (by rw [hread]; exact nofun)]
      rw [setFile_absent _ (fileExists_of_getFile_none hread)]
      rw [hcomp]
      -- assemble the invariant for the extended prefix
      refine ⟨?_, ?_, ⟨dex ++ ext, ?_, ?_⟩, ?_⟩
      · show STB.fs.files ++ _ = _
        rw [hbfs, outBlocks_append, outBlocks_one_processed hdp,
          List.append_assoc, List.append_assoc]
        rfl
      · show STB.updated = _
        rw [hb2, mkdirParents_updated, hupd, updBlocks_append,
          updBlocks_one_processed hdp]
        rfl
      · show STB.fs.dirs = _
        exact hbdirs
      · intro d hd
        rcases List.mem_append.mp hd with h1 | h1
        · exact hdexp d h1
        · obtain ⟨t, rfl, htm⟩ := hextsh d h1
          refine ⟨rfl, ?_⟩
          by_cases htn : t = []
          · exact Or.inl (by rw [htn])
          · have htpre := (List.mem_inits _ _).mp htm
            have hteq : t = rel := by
              refine List.IsPrefix.eq_of_length htpre ?_
              have hl1 := htpre.length_le
              have hl2 : 1 ≤ t.length := by
                cases t with
                | nil => exact absurd rfl htn
                | cons a t2 => simp
              omega
            subst hteq
            obtain ⟨s1, hs1⟩ : ∃ s1, t = [s1] := by
              cases t with
              | nil => exact absurd rfl htn
              | cons a t2 =>
                  cases t2 with
                  | nil => exact ⟨a, rfl⟩
                  | cons b t3 => simp [List.length_cons] at hrel1
            subst hs1
            obtain ⟨f, c, hfc, hmd⟩ := processed_md_exists hdp H6f rfl
            exact Or.inr ⟨s1, f, c, rfl, hmem, hfc, hmd⟩
      · intro rel2 hrel2 hp2 q hq hqne
        show q ∈ STB.fs.dirs
        rw [hbdirs]
        rcases List.mem_append.mp hrel2 with h1 | h1
        · have hold := hmk rel2 h1 hp2 q hq hqne
          rw [hdirs] at hold
          rw [← List.append_assoc]
          exact List.mem_append_left _ hold
        · rcases List.mem_singleton.mp h1 with rfl
          have := dirExists_iff_mem.mp (mkdirParents_post st _ q hq hqne)
          rw [hadirs] at this
          exact this
    · -- the directory is skipped
      have hdpf : dirProcessed w.fs rel = false := by
        cases h : dirProcessed w.fs rel with
        | true => exact absurd h hdp
        | false => rfl
      have hparts : (mdFiles w.fs rel).isEmpty = true ∧
          has_markdown_files_recursive w.fs rel = false := by
        unfold dirProcessed at hdpf
        rw [hexcf] at hdpf
        have hb : ((mdFiles w.fs rel).isEmpty &&
            !has_markdown_files_recursive w.fs rel) = true := by
          cases hc : ((mdFiles w.fs rel).isEmpty &&
              !has_markdown_files_recursive w.fs rel) with
          | true => rfl
          | false => rw [hc] at hdpf; cases hdpf
        rcases Bool.and_eq_true_iff.mp hb with ⟨hb1, hb2⟩
        refine ⟨hb1, ?_⟩
        cases hr : has_markdown_files_recursive w.fs rel with
        | false => rfl
        | true => rw [hr] at hb2; cases hb2
      have hskip : ((pySortedStr ((directFiles st.fs rel).filter
          isMdNotIndex)).isEmpty &&
          !has_markdown_files_recursive st.fs rel) = true := by
        rw [hmdf, hparts.1]
        have hst : has_markdown_files_recursive st.fs rel = false := by
          by_cases hne : rel = []
          · subst hne
            have hob : outBlocks w.fs done = [] :=
              outBlocks_nil_of_no_root_md hparts.2 done
            have hfe2 : st.fs.files = w.fs.files := by
              rw [hfiles, hob, List.append_nil]
            unfold has_markdown_files_recursive
            rw [hfe2]
            exact hparts.2
          · rw [hasrec_frame hfiles hblh hrelh hne]
            exact hparts.2
        rw [hst]
        rfl
      rw [dirStep_skip _ _ _ _ hexcf hskip]
      exact run1Inv_extend_skip ⟨hfiles, hupd, ⟨dex, hdirs, hdexp⟩, hmk⟩ hdpf

theorem run1_fold {w : World} (hwf : C1WF w) :
    ∀ (todo done : List SPath) (st : SyncSt),
      w.fs.dirs = done ++ todo → run1Inv w done st →
      run1Inv w (done ++ todo) (todo.foldl (dirStep [] false) st) := by
  intro todo
  induction todo with
  | nil =>
      intro done st _ hinv
      rw [List.foldl_nil, List.append_nil]
      exact hinv
  | cons rel rest ih =>
      intro done st hsplit hinv
      rw [List.foldl_cons]
      have hmem : rel ∈ w.fs.dirs := by
        rw [hsplit]
        exact List.mem_append_right _ (List.mem_cons_self _ _)
      have hndone : rel ∉ done := by
        intro hc
        have hnd : (done ++ rel :: rest).Nodup := by
          rw [← hsplit]
          exact hwf.2.2.2.1
        exact (List.disjoint_of_nodup_append hnd) hc (List.mem_cons_self _ _)
      have hstep := dirStep_run1 hwf hinv hmem hndone
      have hres := ih (done ++ [rel]) _
        (by rw [hsplit, List.append_assoc, List.singleton_append]) hstep
      rw [List.append_assoc, List.singleton_append] at hres
      exact hres

theorem run1Inv_init (w : World) : run1Inv w [] ⟨w.fs, [], []⟩ := by
  refine ⟨?_, rfl, ⟨[], (List.append_nil _).symm, nofun⟩, nofun⟩
  show w.fs.files = w.fs.files ++ outBlocks w.fs []
  rw [show outBlocks w.fs [] = [] from rfl, List.append_nil]

theorem pathExists_of_file {fs : FileSys} {p : SPath} {c : Str}
    (h : (p, c) ∈ fs.files) : pathExists fs p = true := by
  unfold pathExists
  rw [fileExists_eq_true_of_mem h]
  rfl

theorem pathExists_of_dir {fs : FileSys} {p : SPath}
    (h : p ∈ fs.dirs) : pathExists fs p = true := by
  unfold pathExists
  rw [dirExists_iff_mem.mpr h, Bool.or_true]

/-- The orphan sweep does nothing when every docs/ Markdown output still
has a source counterpart and every docs/ directory still has a
Markdown-bearing source directory. -/
theorem cleanup_noop (st : SyncSt)
    (hf : ∀ e ∈ st.fs.files, e.1.head? = some "docs".data →
        pyEndsWith ".md".data (fileName e.1) = true →
        fileName e.1 ≠ "index.md".data →
        pathExists st.fs (e.1.drop 1) = true ∨
          pyDictHasKey st.updated (joinPath (e.1.drop 1)) = true)
    (hd : ∀ d ∈ st.fs.dirs, d.head? = some "docs".data →
        d ≠ ["docs".data] →
        pathExists st.fs (d.drop 1) = true ∧
        st.fs.files.any (fun e =>
          (d.drop 1).isPrefixOf e.1 &&
          decide ((d.drop 1).length < e.1.length) &&
          pyEndsWith ".md".data (fileName e.1)) = true) :
    clean_orphaned_files false st = st := by
  simp only [clean_orphaned_files]
  have hfold1 : (st.fs.files.filter
      (fun e => decide (e.1.head? = some "docs".data))).foldl
      (orphanFileStep false) st = st := by
    refine foldl_fixed _ _ _ (fun e he => ?_)
    rcases List.mem_filter.mp he with ⟨hee, hdoc⟩
    have hdoc2 := of_decide_eq_true hdoc
    simp only [orphanFileStep]
    by_cases hmd : pyEndsWith ".md".data (fileName e.1) = true
    · rw [if_pos hmd]
      by_cases hidx : fileName e.1 = "index.md".data
      · rw [if_pos hidx]
      · rw [if_neg hidx]
        have hcond : (!pathExists st.fs (e.1.drop 1) &&
            !pyDictHasKey st.updated (joinPath (e.1.drop 1))) = false := by
          rcases hf e hee hdoc2 hmd hidx with h1 | h1
          · rw [h1]
            rfl
          · rw [h1]
            exact Bool.and_false _
        rw [hcond]
        rw [if_neg (fun hc : (false = true) => Bool.noConfusion hc)]
    · rw [if_neg hmd]
  rw [hfold1]
  refine foldl_fixed _ _ _ (fun d hdm => ?_)
  rcases List.mem_filter.mp (List.mem_reverse.mp hdm) with ⟨hdd, hp⟩
  rcases Bool.and_eq_true_iff.mp hp with ⟨hp1, hp2⟩
  have hdoc2 := of_decide_eq_true hp1
  have hne2 : d ≠ ["docs".data] := of_decide_eq_true hp2
  obtain ⟨hsrc, hmd⟩ := hd d hdd hdoc2 hne2
  simp only [orphanDirStep]
  rw [hsrc, hmd]
  rw [if_neg (by decide : ¬ (((!true) || (!true)) = true))]

theorem runSync_live (w : World) :
    runSync false false w
      = (⟨(clean_orphaned_files false
            (w.fs.dirs.foldl (dirStep (w.cacheFile.getD []) false)
              ⟨w.fs, [], []⟩)).fs,
          some (clean_orphaned_files false
            (w.fs.dirs.foldl (dirStep (w.cacheFile.getD []) false)
              ⟨w.fs, [], []⟩)).updated⟩,
         (clean_orphaned_files false
            (w.fs.dirs.foldl (dirStep (w.cacheFile.getD []) false)
              ⟨w.fs, [], []⟩)).events ++ [Ev.cacheWriteE]) := rfl

theorem fileName_docs (rel : SPath) (x : Str) :
    fileName ("docs".data :: rel ++ [x]) = x := by
  unfold fileName
  rw [show ("docs".data :: rel ++ [x]) = "docs".data :: (rel ++ [x]) from rfl]
  rw [List.getLastD_cons]
  exact List.getLastD_concat _ _ _

theorem run1_spec {w : World} (hwf : C1WF w) :
    ∃ dex,
      (runSync false false w).1.fs.files
          = w.fs.files ++ outBlocks w.fs w.fs.dirs ∧
      (runSync false false w).1.fs.dirs = w.fs.dirs ++ dex ∧
      (∀ d ∈ dex, d.head? = some "docs".data ∧
        (d = ["docs".data] ∨
         ∃ s1 f c, d = ["docs".data, s1] ∧ [s1] ∈ w.fs.dirs ∧
           ([s1, f], c) ∈ w.fs.files ∧ pyEndsWith ".md".data f = true)) ∧
      (runSync false false w).1.cacheFile
          = some (updBlocks w.fs w.fs.dirs) ∧
      (∀ rel ∈ w.fs.dirs, dirProcessed w.fs rel = true →
        ∀ q ∈ ("docs".data :: rel).inits, q ≠ [] →
          q ∈ (runSync false false w).1.fs.dirs) := by
  obtain ⟨H1f, H1d, H3, H4, H5, H6f, H6d, H7f, H7d⟩ := hwf
  have hinv := run1_fold
    ⟨H1f, H1d, H3, H4, H5, H6f, H6d, H7f, H7d⟩
    w.fs.dirs [] ⟨w.fs, [], []⟩ (by rw [List.nil_append]) (run1Inv_init w)
  rw [List.nil_append] at hinv
  obtain ⟨hfiles, hupd, ⟨dex, hdirs, hdexp⟩, hmk⟩ := hinv
  have hcache : w.cacheFile.getD [] = [] := by rw [H3]; rfl
  rw [runSync_live w, hcache]
  set ST1 := w.fs.dirs.foldl (dirStep [] false) ⟨w.fs, [], []⟩ with hST1
  have hclean : clean_orphaned_files false ST1 = ST1 := by
    refine cleanup_noop ST1 ?_ ?_
    · intro e he hdoc hmd hidx
      rw [hfiles] at he
      rcases List.mem_append.mp he with h1 | h1
      · exact absurd hdoc (H1f e h1)
      obtain ⟨rel2, hrel2, -, hsec⟩ := outBlocks_mem h1
      rcases secOutFiles_mem hsec with ⟨p, hp, hpe, hpmd⟩ | hpe
      · have hdrop : e.1.drop 1 = rel2 ++ [p.2] := by rw [hpe]; rfl
        rw [hdrop]
        obtain ⟨c, hc⟩ := directFiles_mem_src
          (mem_mdFiles.mp (List.snd_mem_of_mem_enumFrom hp)).1
        refine Or.inl (@pathExists_of_file _ _ c ?_)
        rw [hfiles]
        exact List.mem_append_left _ hc
      · exfalso
        refine hidx ?_
        rw [hpe]
        exact fileName_docs _ _
    · intro d hdm hdoc hne
      rw [hdirs] at hdm
      rcases List.mem_append.mp hdm with h1 | h1
      · exact absurd hdoc (H1d d h1)
      rcases hdexp d h1 with ⟨-, hcase⟩
      rcases hcase with rfl | ⟨s1, f, c, rfl, hs1, hfc, hmd⟩
      · exact absurd rfl hne
      have hdrop : (["docs".data, s1] : SPath).drop 1 = [s1] := rfl
      rw [hdrop]
      constructor
      · refine pathExists_of_dir ?_
        rw [hdirs]
        exact List.mem_append_left _ hs1
      · refine List.any_eq_true.mpr ⟨([s1, f], c), ?_, ?_⟩
        · rw [hfiles]
          exact List.mem_append_left _ hfc
        · have hp1 : List.isPrefixOf [s1] [s1, f] = true :=
            List.isPrefixOf_iff_prefix.mpr ⟨[f], rfl⟩
          have hp2 : decide (List.length [s1] < List.length [s1, f])
              = true := rfl
          have hp3 : fileName [s1, f] = f := rfl
          rw [hp1, hp2, hp3, hmd]
          rfl
  rw [hclean]
  exact ⟨dex, hfiles, hdirs, hdexp, by rw [hupd], fun rel hr hp q hq hqne =>
    hmk rel hr hp q hq hqne⟩

/-! ## The cache written by the first run -/

theorem notMem_of_noChar {x : Char} {s : Str} (h : NoChar x s) : x ∉ s :=
  fun hm => h x hm rfl

theorem updBlocks_mem_of {wfs : FileSys} {done : List SPath} {rel : SPath}
    (hrel : rel ∈ done) (hp : dirProcessed wfs rel = true) {p : Nat × Str}
    (hpm : p ∈ (mdFiles wfs rel).enum) :
    (joinPath (rel ++ [p.2]), mdOut wfs rel p.1 p.2)
      ∈ updBlocks wfs done := by
  unfold updBlocks
  refine List.mem_flatMap.mpr ⟨rel, hrel, ?_⟩
  rw [if_pos hp]
  unfold secUpd
  exact List.mem_map.mpr ⟨p, hpm, rfl⟩

theorem updBlocks_keys_mem {wfs : FileSys} {done : List SPath} {k : Str}
    (hk : k ∈ (updBlocks wfs done).map Prod.fst) :
    ∃ rel ∈ done, dirProcessed wfs rel = true ∧
      ∃ f ∈ mdFiles wfs rel, k = joinPath (rel ++ [f]) := by
  rcases List.mem_map.mp hk with ⟨e, he, hke⟩
  unfold updBlocks at he
  rcases List.mem_flatMap.mp he with ⟨rel, hrel, hin⟩
  by_cases hp : dirProcessed wfs rel = true
  · rw [if_pos hp] at hin
    unfold secUpd at hin
    rcases List.mem_map.mp hin with ⟨p, hpm, hpe⟩
    refine ⟨rel, hrel, hp, p.2, List.snd_mem_of_mem_enumFrom hpm, ?_⟩
    rw [← hke, ← hpe]
  · rw [if_neg hp] at hin
    cases hin

theorem secUpd_keys_nodup {wfs : FileSys} {rel : SPath}
    (hseg : ∀ f ∈ mdFiles wfs rel, ∀ seg ∈ rel ++ [f],
      seg ≠ [] ∧ ('/' : Char) ∉ seg)
    (hnd : (mdFiles wfs rel).Nodup) :
    ((secUpd wfs rel).map Prod.fst).Nodup := by
  unfold secUpd
  rw [List.map_map]
  have he : (mdFiles wfs rel).enum.map
      ((Prod.fst ∘ fun p : Nat × Str =>
        (joinPath (rel ++ [p.2]), mdOut wfs rel p.1 p.2)))
      = ((mdFiles wfs rel).enum.map Prod.snd).map
        (fun f => joinPath (rel ++ [f])) := by
    rw [List.map_map]
    rfl
  rw [he, List.enum_map_snd]
  refine List.Nodup.map_on ?_ hnd
  intro f1 h1 f2 h2 hj
  have hpq := joinPath_injective (hseg f1 h1) (hseg f2 h2) hj
  have := List.append_cancel_left hpq
  injection this

theorem updBlocks_keys_nodup {wfs : FileSys} :
    ∀ {done : List SPath}, done.Nodup →
      (∀ rel ∈ done, ∀ f ∈ mdFiles wfs rel, ∀ seg ∈ rel ++ [f],
        seg ≠ [] ∧ ('/' : Char) ∉ seg) →
      (∀ rel ∈ done, (mdFiles wfs rel).Nodup) →
      ((updBlocks wfs done).map Prod.fst).Nodup := by
  intro done
  induction done with
  | nil => intro _ _ _; exact List.nodup_nil
  | cons rel rest ih =>
      intro hnd hseg hmdnd
      have hsplit : updBlocks wfs (rel :: rest)
          = updBlocks wfs [rel] ++ updBlocks wfs rest := by
        rw [← List.singleton_append, updBlocks_append]
      rw [hsplit, List.map_append]
      rcases List.nodup_cons.mp hnd with ⟨hni, hnd2⟩
      refine List.nodup_append.mpr ⟨?_, ?_, ?_⟩
      · by_cases hp : dirProcessed wfs rel = true
        · rw [updBlocks_one_processed hp]
          exact secUpd_keys_nodup
            (hseg rel (List.mem_cons_self _ _))
            (hmdnd rel (List.mem_cons_self _ _))
        · rw [updBlocks_one_skipped (by
            cases h : dirProcessed wfs rel with
            | true => exact absurd h hp
            | false => rfl)]
          exact List.nodup_nil
      · exact ih hnd2
          (fun r hr => hseg r (List.mem_cons_of_mem _ hr))
          (fun r hr => hmdnd r (List.mem_cons_of_mem _ hr))
      · intro k hk1 hk2
        obtain ⟨rel1, hrel1, -, f1, hf1, hke1⟩ := updBlocks_keys_mem hk1
        obtain ⟨rel2, hrel2, -, f2, hf2, hke2⟩ := updBlocks_keys_mem hk2
        rcases List.mem_singleton.mp hrel1 with rfl
        have hj : joinPath (rel1 ++ [f1]) = joinPath (rel2 ++ [f2]) := by
          rw [← hke1, ← hke2]
        have hpq := joinPath_injective
          (hseg rel1 (List.mem_cons_self _ _) f1 hf1)
          (hseg rel2 (List.mem_cons_of_mem _ hrel2) f2 hf2) hj
        have hlen : rel1.length = rel2.length := by
          have hl := congrArg List.length hpq
          simp only [List.length_append, List.length_cons,
            List.length_nil] at hl
          omega
        obtain ⟨hr, -⟩ := List.append_inj hpq hlen
        exact hni (hr ▸ hrel2)

theorem excluded_of_docs_head {rel : SPath}
    (h : rel.head? = some "docs".data) :
    rel.any (fun seg => EXCLUDE_DIRS.contains seg) = true := by
  obtain ⟨t, rfl⟩ := head_eq_docs h
  rw [List.any_cons]
  rw [show EXCLUDE_DIRS.contains "docs".data = true from by decide]
  rfl

theorem dirProcessed_docs_head {wfs : FileSys} {rel : SPath}
    (h : rel.head? = some "docs".data) : dirProcessed wfs rel = false := by
  unfold dirProcessed
  rw [excluded_of_docs_head h]
  rfl

theorem updBlocks_docs_nil {wfs : FileSys} {dex : List SPath}
    (h : ∀ d ∈ dex, d.head? = some "docs".data) :
    updBlocks wfs dex = [] := by
  unfold updBlocks
  rw [List.flatMap_eq_nil_iff]
  intro rel hrel
  rw [dirProcessed_docs_head (h rel hrel)]
  rw [if_neg (fun hc : (false = true) => Bool.noConfusion hc)]

/-- The orphan sweep is a no-op on any state whose filesystem is the
initial sources plus the first run's outputs. -/
theorem cleanup_noop_frame {w : World}
    (H1f : ∀ e ∈ w.fs.files, e.1.head? ≠ some "docs".data)
    (H1d : ∀ d ∈ w.fs.dirs, d.head? ≠ some "docs".data)
    {st : SyncSt} {dex : List SPath}
    (hfiles : st.fs.files = w.fs.files ++ outBlocks w.fs w.fs.dirs)
    (hdirs : st.fs.dirs = w.fs.dirs ++ dex)
    (hdexp : ∀ d ∈ dex, d.head? = some "docs".data ∧
      (d = ["docs".data] ∨
       ∃ s1 f c, d = ["docs".data, s1] ∧ [s1] ∈ w.fs.dirs ∧
         ([s1, f], c) ∈ w.fs.files ∧ pyEndsWith ".md".data f = true)) :
    clean_orphaned_files false st = st := by
  refine cleanup_noop st ?_ ?_
  · intro e he hdoc hmd hidx
    rw [hfiles] at he
    rcases List.mem_append.mp he with h1 | h1
    · exact absurd hdoc (H1f e h1)
    obtain ⟨rel2, hrel2, -, hsec⟩ := outBlocks_mem h1
    rcases secOutFiles_mem hsec with ⟨p, hp, hpe, hpmd⟩ | hpe
    · have hdrop : e.1.drop 1 = rel2 ++ [p.2] := by rw [hpe]; rfl
      rw [hdrop]
      obtain ⟨c, hc⟩ := directFiles_mem_src
        (mem_mdFiles.mp (List.snd_mem_of_mem_enumFrom hp)).1
      refine Or.inl (@pathExists_of_file _ _ c ?_)
      rw [hfiles]
      exact List.mem_append_left _ hc
    · exfalso
      refine hidx ?_
      rw [hpe]
      exact fileName_docs _ _
  · intro d hdm hdoc hne
    rw [hdirs] at hdm
    rcases List.mem_append.mp hdm with h1 | h1
    · exact absurd hdoc (H1d d h1)
    rcases hdexp d h1 with ⟨-, hcase⟩
    rcases hcase with rfl | ⟨s1, f, c, rfl, hs1, hfc, hmd⟩
    · exact absurd rfl hne
    have hdrop : (["docs".data, s1] : SPath).drop 1 = [s1] := rfl
    rw [hdrop]
    constructor
    · refine pathExists_of_dir ?_
      rw [hdirs]
      exact List.mem_append_left _ hs1
    · refine List.any_eq_true.mpr ⟨([s1, f], c), ?_, ?_⟩
      · rw [hfiles]
        exact List.mem_append_left _ hfc
      · have hp1 : List.isPrefixOf [s1] [s1, f] = true :=
          List.isPrefixOf_iff_prefix.mpr ⟨[f], rfl⟩
        have hp2 : decide (List.length [s1] < List.length [s1, f])
            = true := rfl
        have hp3 : fileName [s1, f] = f := rfl
        rw [hp1, hp2, hp3, hmd]
        rfl

set_option maxHeartbeats 2000000 in
/-- The central step lemma of the second run: on the first run's output
every directory step only re-accumulates its cache entries. -/
theorem dirStep_run2 {w : World} (hwf : C1WF w) {FFS : FileSys}
    {dex : List SPath}
    (hFF : FFS.files = w.fs.files ++ outBlocks w.fs w.fs.dirs)
    (hFD : FFS.dirs = w.fs.dirs ++ dex)
    (hdexh : ∀ d ∈ dex, d.head? = some "docs".data)
    (hmkF : ∀ rel ∈ w.fs.dirs, dirProcessed w.fs rel = true →
      ∀ q ∈ ("docs".data :: rel).inits, q ≠ [] → q ∈ FFS.dirs)
    {rel : SPath} (hmem : rel ∈ FFS.dirs)
    {st : SyncSt} (hfs : st.fs = FFS) :
    dirStep (updBlocks w.fs w.fs.dirs) false st rel
      = { st with updated := st.updated ++ updBlocks w.fs [rel] } := by
  obtain ⟨H1f, H1d, H3, H4, H5, H6f, H6d, H7f, H7d⟩ := hwf
  have hblp : ∀ e ∈ outBlocks w.fs w.fs.dirs,
      e.1.head? = some "docs".data ∧ 2 ≤ e.1.length :=
    fun e he => outBlocks_entry_shape he
  have hblh : ∀ e ∈ outBlocks w.fs w.fs.dirs,
      e.1.head? = some "docs".data := fun e he => (hblp e he).1
  have hstf : st.fs.files = w.fs.files ++ outBlocks w.fs w.fs.dirs := by
    rw [hfs]
    exact hFF
  have hstd : st.fs.dirs = w.fs.dirs ++ dex := by
    rw [hfs]
    exact hFD
  rw [hFD] at hmem
  rcases List.mem_append.mp hmem with hmw | hmd2
  · -- a source directory
    have hrelh : rel.head? ≠ some "docs".data := H1d rel hmw
    have hrel1 : rel.length ≤ 1 := H6d rel hmw
    by_cases hexc : rel.any (fun seg => EXCLUDE_DIRS.contains seg) = true
    · rw [dirStep_excluded _ _ _ _ hexc]
      rw [updBlocks_one_skipped (by unfold dirProcessed; rw [hexc]; rfl)]
      exact (congrArg (fun u => { st with updated := u })
        (List.append_nil st.updated)).symm
    · have hexcf : rel.any (fun seg => EXCLUDE_DIRS.contains seg) = false := by
        cases h : rel.any (fun seg => EXCLUDE_DIRS.contains seg) with
        | true => exact absurd h hexc
        | false => rfl
      have hmdf : pySortedStr ((directFiles st.fs rel).filter isMdNotIndex)
          = mdFiles w.fs rel :=
        mdFiles_frame hstf hblp hrelh
      by_cases hdp : dirProcessed w.fs rel = true
      · have h2 : ((mdFiles w.fs rel).isEmpty &&
            !has_markdown_files_recursive w.fs rel) = false := by
          unfold dirProcessed at hdp
          rcases Bool.and_eq_true_iff.mp hdp with ⟨-, hb⟩
          cases hc : ((mdFiles w.fs rel).isEmpty &&
              !has_markdown_files_recursive w.fs rel) with
          | false => rfl
          | true => rw [hc] at hb; cases hb
        have hor : mdFiles w.fs rel ≠ [] ∨
            has_markdown_files_recursive w.fs rel = true := by
          rcases Bool.and_eq_false_iff.mp h2 with h3 | h3
          · refine Or.inl (fun hnil => ?_)
            rw [hnil] at h3
            cases h3
          · refine Or.inr ?_
            cases hr : has_markdown_files_recursive w.fs rel with
            | true => rfl
            | false => rw [hr] at h3; cases h3
        have hproc : ((pySortedStr ((directFiles st.fs rel).filter
            isMdNotIndex)).isEmpty &&
            !has_markdown_files_recursive st.fs rel) = false := by
          rw [hmdf]
          rcases hor with h3 | h3
          · cases hie : (mdFiles w.fs rel).isEmpty with
            | false => rfl
            | true => exact absurd (List.isEmpty_iff.mp hie) h3
          · have hst : has_markdown_files_recursive st.fs rel = true := by
              by_cases hne : rel = []
              · rw [hne]
                rw [hne] at h3
                exact hasrec_mono hstf h3
              · rw [hasrec_frame hstf hblh hrelh hne]
                exact h3
            rw [hst]
            exact Bool.and_false _
        rw [dirStep_proceed _ _ _ _ hexcf hproc, hmdf]
        have hmk0 : mkdirParents st ("docs".data :: rel) = st := by
          refine mkdirParents_noop st _ (fun q hq hqne => ?_)
          refine dirExists_iff_mem.mpr ?_
          rw [hfs]
          exact hmkF rel hmw hdp q hq hqne
        rw [hmk0]
        have hse : should_exclude_files_from_nav st.fs rel
            = should_exclude_files_from_nav w.fs rel :=
          should_exclude_stable hstf hblh hstd hdexh H1d hrelh hrel1
        have hpt : filesParentTitle st.fs rel = filesParentTitle w.fs rel :=
          filesParentTitle_irrel _ _ hrel1
        rw [hse, hpt]
        have hnodupU : ((updBlocks w.fs w.fs.dirs).map Prod.fst).Nodup := by
          refine updBlocks_keys_nodup H4 ?_ (fun r _ => mdFiles_nodup H5)
          intro r hr f hf seg hs
          obtain ⟨c, hc⟩ := directFiles_mem_src (mem_mdFiles.mp hf).1
          obtain ⟨hne, hsl, -⟩ := H7f (r ++ [f], c) hc seg hs
          exact ⟨hne, notMem_of_noChar hsl⟩
        have hsrcall : ∀ p ∈ (mdFiles w.fs rel).enum,
            getFile st.fs (rel ++ [p.2]) = getFile w.fs (rel ++ [p.2]) := by
          intro p hp
          refine getFile_frame2 hstf (fun e he hee => ?_)
          exact src_head_not_docs hrelh
            (mem_mdFiles.mp (List.snd_mem_of_mem_enumFrom hp)).2
            (by rw [← hee]; exact hblh e he)
        have hfold := syncFold_run2 rel
          (should_exclude_files_from_nav w.fs rel)
          (filesParentTitle w.fs rel)
          (updBlocks w.fs w.fs.dirs) (mdFiles w.fs rel).enum st
          (fun p hp => by
            rw [hsrcall p hp]
            exact pyDictGet_eq_of_mem_nodup hnodupU
              (updBlocks_mem_of hmw hdp hp))
        have hmapeq : (mdFiles w.fs rel).enum.map (fun p =>
            (joinPath (rel ++ [p.2]),
             file_front_matter (parse_chapter_title p.2).2
               (should_exclude_files_from_nav w.fs rel)
               (filesParentTitle w.fs rel)
               ((parse_chapter_title p.2).1.getD (p.1 + 1))
               ++ (getFile st.fs (rel ++ [p.2])).getD []))
            = secUpd w.fs rel := by
          unfold secUpd
          refine List.map_eq_map_iff.mpr (fun p hp => ?_)
          rw [hsrcall p hp]
          rfl
        rw [hfold]
        rw [tocToInject_none hrel1, indexNavOrder_irrel _ w.fs hrel1]
        have hnc : NoChar '<'
            (freshIndexContent w.fs rel (indexNavOrder w.fs rel) none) := by
          refine noChar_freshIndex_none _ hrel1 (fun seg hs => ?_)
          exact (H7d rel hmw seg hs).2.2
        have hidxrd : getFile st.fs ("docs".data :: rel ++ ["index.md".data])
            = some (freshIndexContent w.fs rel (indexNavOrder w.fs rel)
                none) := by
          rw [@getFile_congr_files st.fs
            ⟨w.fs.files ++ outBlocks w.fs w.fs.dirs, []⟩ hstf
            ("docs".data :: rel ++ ["index.md".data])]
          refine getFile_append_right ?_ ?_ ?_
          · intro e he hee
            exact H1f e he (by rw [hee]; rfl)
          · unfold outBlocks
            refine List.mem_flatMap.mpr ⟨rel, hmw, ?_⟩
            rw [if_pos hdp]
            unfold secOutFiles
            refine List.mem_append.mpr (Or.inr ?_)
            exact List.mem_singleton.mpr rfl
          · intro e he hee
            obtain ⟨rel2, hrel2, -, hsec⟩ := outBlocks_mem he
            rcases secOutFiles_mem hsec with ⟨p, hp, hpe, hpmd⟩ | hpe
            · exfalso
              rw [hpe] at hee
              have hx := (docs_key_inj hee).2
              exact (isMdNotIndex_props hpmd).2.1 hx
            · rw [hpe] at hee ⊢
              rw [(docs_key_inj hee).1]
        have hhc2 : has_child_dir_with_markdown st.fs rel
            = has_child_dir_with_markdown w.fs rel :=
          haschild_frame hstf hblh hstd hdexh H1d hrelh
        have hcomp2 : composeIndexContent st.fs rel
            (indexNavOrder w.fs rel) none
            = freshIndexContent w.fs rel (indexNavOrder w.fs rel) none :=
          compose_over_fresh hidxrd (indexTitleParent_irrel _ _ hrel1)
            hhc2 hnc
        rw [indexUpdateStep_skip (by
          show getFile st.fs _ = _
          rw [hcomp2]
          exact hidxrd)]
        rw [updBlocks_one_processed hdp]
        rw [hmapeq]
      · have hdpf : dirProcessed w.fs rel = false := by
          cases h : dirProcessed w.fs rel with
          | true => exact absurd h hdp
          | false => rfl
        have hparts : (mdFiles w.fs rel).isEmpty = true ∧
            has_markdown_files_recursive w.fs rel = false := by
          unfold dirProcessed at hdpf
          rw [hexcf] at hdpf
          have hb : ((mdFiles w.fs rel).isEmpty &&
              !has_markdown_files_recursive w.fs rel) = true := by
            cases hc : ((mdFiles w.fs rel).isEmpty &&
                !has_markdown_files_recursive w.fs rel) with
            | true => rfl
            | false => rw [hc] at hdpf; cases hdpf
          rcases Bool.and_eq_true_iff.mp hb with ⟨hb1, hb2⟩
          refine ⟨hb1, ?_⟩
          cases hr : has_markdown_files_recursive w.fs rel with
          | false => rfl
          | true => rw [hr] at hb2; cases hb2
        have hskip : ((pySortedStr ((directFiles st.fs rel).filter
            isMdNotIndex)).isEmpty &&
            !has_markdown_files_recursive st.fs rel) = true := by
          rw [hmdf, hparts.1]
          have hst : has_markdown_files_recursive st.fs rel = false := by
            by_cases hne : rel = []
            · subst hne
              have hob : outBlocks w.fs w.fs.dirs = [] :=
                outBlocks_nil_of_no_root_md hparts.2 _
              have hfe2 : st.fs.files = w.fs.files := by
                rw [hstf, hob, List.append_nil]
              unfold has_markdown_files_recursive
              rw [hfe2]
              exact hparts.2
            · rw [hasrec_frame hstf hblh hrelh hne]
              exact hparts.2
          rw [hst]
          rfl
        rw [dirStep_skip _ _ _ _ hexcf hskip,
          updBlocks_one_skipped hdpf]
        exact (congrArg (fun u => { st with updated := u })
          (List.append_nil st.updated)).symm
  · -- a directory created under docs/
    have hexc := excluded_of_docs_head (hdexh rel hmd2)
    rw [dirStep_excluded _ _ _ _ hexc]
    rw [updBlocks_one_skipped (dirProcessed_docs_head (hdexh rel hmd2))]
    exact (congrArg (fun u => { st with updated := u })
      (List.append_nil st.updated)).symm

theorem run2_fold {w : World} (hwf : C1WF w) {FFS : FileSys}
    {dex : List SPath}
    (hFF : FFS.files = w.fs.files ++ outBlocks w.fs w.fs.dirs)
    (hFD : FFS.dirs = w.fs.dirs ++ dex)
    (hdexh : ∀ d ∈ dex, d.head? = some "docs".data)
    (hmkF : ∀ rel ∈ w.fs.dirs, dirProcessed w.fs rel = true →
      ∀ q ∈ ("docs".data :: rel).inits, q ≠ [] → q ∈ FFS.dirs) :
    ∀ (L : List SPath) (st : SyncSt), st.fs = FFS →
      (∀ rel ∈ L, rel ∈ FFS.dirs) →
      L.foldl (dirStep (updBlocks w.fs w.fs.dirs) false) st
        = { st with updated := st.updated ++ updBlocks w.fs L } := by
  intro L
  induction L with
  | nil =>
      intro st hfs _
      rw [List.foldl_nil]
      exact (congrArg (fun u => { st with updated := u })
        (List.append_nil st.updated)).symm
  | cons rel rest ih =>
      intro st hfs hL
      rw [List.foldl_cons]
      rw [dirStep_run2 hwf hFF hFD hdexh hmkF
        (hL rel (List.mem_cons_self _ _)) hfs]
      rw [ih { st with updated := st.updated ++ updBlocks w.fs [rel] }
        hfs (fun r hr => hL r (List.mem_cons_of_mem _ hr))]
      have hx : (st.updated ++ updBlocks w.fs [rel]) ++ updBlocks w.fs rest
          = st.updated ++ updBlocks w.fs (rel :: rest) := by
        rw [List.append_assoc, ← updBlocks_append, List.singleton_append]
      exact congrArg (fun u => { st with updated := u }) hx

set_option maxHeartbeats 1000000 in
/-- **C1** (amended): idempotence from a clean slate. For every
well-formed world with no pre-existing docs/ output files or
directories, no hash-cache file, uniquely named source paths nested at
most one level deep, and segment names free of '/' and '<', running the
live pipeline a second time on the first run's output changes nothing:
the resulting world equals the first run's world, and the second run's
only event is rewriting the identical hash cache. In particular the
second run performs zero file writes, deletions, directory creations or
removals. -/
theorem C1_idempotence (w : World) (hwf : C1WF w) :
    runSync false false (runSync false false w).1
      = ((runSync false false w).1, [Ev.cacheWriteE]) := by
  obtain ⟨dex, hFF, hFD, hdexp, hcache, hmkF⟩ := run1_spec hwf
  have hdexh : ∀ d ∈ dex, d.head? = some "docs".data :=
    fun d hd => (hdexp d hd).1
  rw [runSync_live ((runSync false false w).1)]
  have hc2 : (runSync false false w).1.cacheFile.getD []
      = updBlocks w.fs w.fs.dirs := by
    rw [hcache]
    rfl
  rw [hc2]
  rw [run2_fold hwf hFF hFD hdexh hmkF (runSync false false w).1.fs.dirs
    ⟨(runSync false false w).1.fs, [], []⟩ rfl (fun r hr => hr)]
  have hupdeq : updBlocks w.fs (runSync false false w).1.fs.dirs
      = updBlocks w.fs w.fs.dirs := by
    rw [hFD, updBlocks_append, updBlocks_docs_nil hdexh, List.append_nil]
  have hclean := @cleanup_noop_frame w hwf.1 hwf.2.1
    { fs := (runSync false false w).1.fs,
      updated := ([] : List (Str × Str)) ++
        updBlocks w.fs (runSync false false w).1.fs.dirs,
      events := ([] : List Ev) }
    dex hFF hFD hdexp
  rw [hclean]
  have hworld : (⟨(runSync false false w).1.fs,
      some (([] : List (Str × Str)) ++
        updBlocks w.fs (runSync false false w).1.fs.dirs)⟩ : World)
      = (runSync false false w).1 := by
    rw [List.nil_append, hupdeq, ← hcache]
  rw [hworld]
  rfl

/-- Witness for C1: a concrete clean-slate world with a root file and a
one-level section satisfies the well-formedness hypotheses, so the
second run reproduces the first run's world with only the cache-write
event. -/
theorem C1_idempotence_witness :
    C1WF w1w ∧
    runSync false false (runSync false false w1w).1
      = ((runSync false false w1w).1, [Ev.cacheWriteE]) :=
  ⟨by decide, C1_idempotence w1w (by decide)⟩

/-- C1 counterexample to the claim as stated: on a source tree whose
docs/ output already holds an index with prose after the sentinel
marker, the second run performs a file write, so idempotence does not
hold for every source tree. -/
theorem C1_idempotence_counterexample :
    (runSync false false (runSync false false w1c).1).2.any
      Ev.isFileWrite = true := by decide

end NoteSync
